import Mathlib

/-!
# RPN calculator (`src/rpn_calc.cpp`)

A shallow embedding of the class `RPNCalculator` and a verification of its
specification.

Modelling conventions.

* `double` is IEEE 754 binary64 as the program runs it (`Double`): every finite
  value is the rational number it denotes, with negative zero, the two
  infinities and one NaN beside them.  `+ - * /` and `sqrt` return the exact
  result rounded to the nearest representable value, ties to even; results too
  large become infinite, results too small become subnormal or zero.  The NaN
  stands for every NaN: sign and payload are not told apart.
* A numeric literal is read as `strtod` reads it: the decimal value rounded to
  nearest.  The stream extraction of `isNumber` fails on a literal that rounds
  to infinity; `std::stod` throws `std::out_of_range` on a literal that
  underflows (a result below the normal range that is not exact), as the GNU C
  library reports it on x86-64.
* `pow` and `std::to_string` are taken from the C library as parameters,
  collected in `Runtime`.
* `std::stack<double>` is a `List Double` whose head is the top of the stack.
* A C++ exception is the result `Res.throw e s`, where `s` is the state of the
  object at the moment of the `throw` (nothing is rolled back).
* `std::cout` is a list of output records, appended to in program order.
* `int` is the range `INT_MIN .. INT_MAX` of `Int`.  The conversion `(int)x` of
  a value outside that range, undefined in C++, yields `INT_MIN`, as the x86-64
  conversion instruction does.  Incrementing a loop counter that holds
  `INT_MAX` is undefined in C++ as well, and a counter that wraps around never
  exceeds the bound `INT_MAX` of the loop: a call that gets there has no result
  (`none`, `Res.undefined`), neither a return value nor an exception.
-/

/-! ## Tokenizer (`while (iss >> token)`) -/

/-- The characters `std::isspace` accepts in the "C" locale. -/
def isspace (c : Char) : Bool :=
  c = ' ' || c = '\t' || c = '\n' || c = '\x0b' || c = '\x0c' || c = '\r'

/-- The loop `while (iss >> token) tokens.push_back(token)`: `cur` is the token
being read.  Whitespace ends the current token (if any) and is skipped. -/
def tokenizeAux : List Char → List Char → List String
  | [], cur => if cur = [] then [] else [String.mk cur]
  | c :: cs, cur =>
    if isspace c then
      if cur = [] then tokenizeAux cs [] else String.mk cur :: tokenizeAux cs []
    else tokenizeAux cs (cur ++ [c])

/-- The token vector built at the start of `evaluateExpression`. -/
def tokenize (expression : String) : List String :=
  tokenizeAux expression.data []

/-- The expression text made of the tokens separated by single spaces. -/
def unwords : List String → String
  | [] => ""
  | [t] => t
  | t :: ts => t ++ " " ++ unwords ts

/-- A non-empty string without whitespace: what the tokenizer returns as one
token. -/
def isWord (t : String) : Bool :=
  t.data ≠ [] && t.data.all (fun c => !isspace c)

/-- The maximal runs of non-whitespace characters of a text, in order of
appearance: the pieces between its whitespace characters that are not empty. -/
def wordRuns (text : String) : List String :=
  ((text.data.splitOnP isspace).filter (fun run => run ≠ [])).map String.mk

/-! ## The type `double` -/

/-- A value of type `double` (IEEE 754 binary64). -/
inductive Double where
  /-- A finite value other than negative zero; `finite 0` is `+0.0`. -/
  | finite (q : ℚ)
  /-- The value `-0.0`. -/
  | negZero
  /-- Positive or negative infinity. -/
  | inf (negative : Bool)
  /-- Not a number. -/
  | nan
  deriving DecidableEq, Repr

namespace Double

/-- The integer nearest to `x`, the even one of the two when `x` lies halfway. -/
def roundHalfEven (x : ℚ) : Int :=
  let f : Int := ⌊x⌋
  if x - f < 1 / 2 then f
  else if 1 / 2 < x - f then f + 1
  else if f % 2 = 0 then f else f + 1

/-- The binary exponent of the binade of a non-zero `x`, `2 ^ e ≤ |x| < 2 ^ (e + 1)`,
and the exponent `-1022` of the subnormal range for values below it. -/
def exponent (x : ℚ) : Int :=
  max (Int.log 2 |x|) (-1022)

/-- The distance between neighbouring representable values around `x`: a
significand has 53 bits. -/
def ulp (x : ℚ) : ℚ :=
  (2 : ℚ) ^ (exponent x - 52)

/-- A zero of the given sign. -/
def zero (negative : Bool) : Double :=
  if negative then negZero else finite 0

/-- The exact value `x` rounded to binary64: the nearest multiple of `ulp x`,
ties to even; infinity when that exceeds the largest finite value, a zero of the
sign of `x` when it is zero. -/
def round (x : ℚ) : Double :=
  let y : ℚ := (roundHalfEven (x / ulp x) : ℚ) * ulp x
  if (2 : ℚ) ^ (1024 : Int) ≤ |y| then inf (decide (x < 0))
  else if y = 0 then zero (decide (x < 0))
  else finite y

/-- The rational value of a finite value or zero (`0` for the others). -/
def toRat : Double → ℚ
  | finite q => q
  | _ => 0

/-- The sign bit. -/
def signBit : Double → Bool
  | finite q => decide (q < 0)
  | negZero => true
  | inf negative => negative
  | nan => false

/-- Whether the value is `+0.0` or `-0.0`. -/
def isZero : Double → Bool
  | finite q => decide (q = 0)
  | negZero => true
  | _ => false

/-- Whether the value is an infinity. -/
def isInf : Double → Bool
  | inf _ => true
  | _ => false

/-- The conversion of an `int` to `double`, which is exact. -/
def ofInt (z : Int) : Double :=
  finite (z : ℚ)

/-- Unary minus. -/
def neg : Double → Double
  | finite q => if q = 0 then negZero else finite (-q)
  | negZero => finite 0
  | inf negative => inf (!negative)
  | nan => nan

/-- The operator `+`. -/
def add : Double → Double → Double
  | nan, _ => nan
  | _, nan => nan
  | inf s, inf t => if s = t then inf s else nan
  | inf s, _ => inf s
  | _, inf t => inf t
  | negZero, negZero => negZero
  | x, y => round (x.toRat + y.toRat)

/-- The operator `-`. -/
def sub (x y : Double) : Double :=
  add x (neg y)

/-- The operator `*`. -/
def mul : Double → Double → Double
  | nan, _ => nan
  | _, nan => nan
  | inf s, y => if y.isZero then nan else inf (s != y.signBit)
  | x, inf t => if x.isZero then nan else inf (x.signBit != t)
  | x, y =>
    if x.isZero || y.isZero then zero (x.signBit != y.signBit)
    else round (x.toRat * y.toRat)

/-- The operator `/`. -/
def div : Double → Double → Double
  | nan, _ => nan
  | _, nan => nan
  | inf _, inf _ => nan
  | inf s, y => inf (s != y.signBit)
  | x, inf t => zero (x.signBit != t)
  | x, y =>
    if y.isZero then (if x.isZero then nan else inf (x.signBit != y.signBit))
    else if x.isZero then zero (x.signBit != y.signBit)
    else round (x.toRat / y.toRat)

/-- The operator `==`. -/
def eq : Double → Double → Bool
  | nan, _ => false
  | _, nan => false
  | inf s, inf t => s == t
  | inf _, _ => false
  | _, inf _ => false
  | x, y => decide (x.toRat = y.toRat)

/-- The operator `!=`. -/
def ne (x y : Double) : Bool :=
  !(eq x y)

/-- The operator `<`. -/
def lt : Double → Double → Bool
  | nan, _ => false
  | _, nan => false
  | inf s, inf t => s && !t
  | inf s, _ => s
  | _, inf t => !t
  | x, y => decide (x.toRat < y.toRat)

/-- The square root of a positive rational rounded to binary64: with `u` the
distance between representable values in the binade of the root, the nearest
multiple of `u`, ties to even. -/
def sqrtPos (q : ℚ) : Double :=
  let u : ℚ := (2 : ℚ) ^ (Int.log 4 q - 52)
  let w : ℚ := q / (u * u)
  let k : Nat := Nat.sqrt ⌊w⌋₊
  let h : ℚ := (k : ℚ) + 1 / 2
  let n : Nat :=
    if w < h * h then k
    else if h * h < w then k + 1
    else if k % 2 = 0 then k else k + 1
  finite ((n : ℚ) * u)

/-- The function `sqrt` of `<cmath>`. -/
def sqrt : Double → Double
  | finite q => if q < 0 then nan else if q = 0 then finite 0 else sqrtPos q
  | negZero => negZero
  | inf negative => if negative then nan else inf false
  | nan => nan

end Double

/-! ## Conversion to `int` -/

/-- Smallest value of a 32-bit `int`. -/
def INT_MIN : Int := -2147483648

/-- Largest value of a 32-bit `int`. -/
def INT_MAX : Int := 2147483647

/-- The conversion `(int)x`: truncation toward zero.  A value that does not fit,
an infinity or a NaN yields `INT_MIN`. -/
def castInt : Double → Int
  | .finite q =>
    let t : Int := if 0 ≤ q then ⌊q⌋ else ⌈q⌉
    if INT_MIN ≤ t ∧ t ≤ INT_MAX then t else INT_MIN
  | .negZero => 0
  | _ => INT_MIN

/-! ## Errors -/

/-- The two sequence operators, which carry separate messages. -/
inductive Sequence where
  | fib
  | pascal
  deriving DecidableEq, Repr

/-- The exceptions that leave `evaluateExpression`: the `std::runtime_error`s
the calculator throws, named as in the error taxonomy of the specification, and
the `std::out_of_range` and `std::invalid_argument` of `std::stod`. -/
inductive RpnError where
  | InsufficientOperands
  | EmptyStack
  | DivisionByZero
  | NegativeSquareRoot
  | InvalidSequenceArgument (which : Sequence)
  | UnknownToken (token : String)
  | MalformedExpression
  | OutOfRange
  | InvalidArgument
  deriving DecidableEq, Repr

/-- The message of the exception (`e.what()`). -/
def RpnError.what : RpnError → String
  | .InsufficientOperands => "错误: 栈中操作数不足"
  | .EmptyStack => "错误: 栈为空"
  | .DivisionByZero => "错误: 除零错误"
  | .NegativeSquareRoot => "错误: 不能对负数开平方"
  | .InvalidSequenceArgument .fib => "错误: 斐波那契数列参数必须为非负整数"
  | .InvalidSequenceArgument .pascal => "错误: 杨辉三角行数必须为非负整数"
  | .UnknownToken token => "错误: 未知的标记 \x27" ++ token ++ "\x27"
  | .MalformedExpression => "错误: 表达式不完整或有多余操作数"
  | .OutOfRange => "stod"
  | .InvalidArgument => "stod"

/-! ## Classifier (`isOperator`, `isNumber`) and `std::stod` -/

/-- Source: `RPNCalculator::isOperator`. -/
def isOperator (token : String) : Bool :=
  token = "+" || token = "-" || token = "*" || token = "/" ||
    token = "sqrt" || token = "^" || token = "fib" || token = "pascal"

/-- A decimal floating literal as the stream extraction reads it:
`(-1)^neg * digits / 10^scale * 10^exp`. -/
structure Decimal where
  neg : Bool
  digits : Nat
  scale : Nat
  exp : Int
  deriving DecidableEq, Repr

/-- Value of a run of decimal digits. -/
def digitsValue (ds : List Char) : Nat :=
  ds.foldl (fun acc d => 10 * acc + (d.toNat - 48)) 0

/-- An optional sign. -/
def readSign : List Char → Bool × List Char
  | [] => (false, [])
  | c :: cs => if c = '-' then (true, cs) else if c = '+' then (false, cs) else (false, c :: cs)

/-- The optional exponent part, which must end the token. -/
def readExponent : List Char → Option Int
  | [] => some 0
  | c :: cs =>
    if c = 'e' ∨ c = 'E' then
      let sr := readSign cs
      if sr.2 ≠ [] ∧ sr.2.all Char.isDigit = true then
        some (if sr.1 then -(digitsValue sr.2 : Int) else (digitsValue sr.2 : Int))
      else none
    else none

/-- The characters of a floating literal that make up a whole text: sign, digits
with an optional decimal point (at least one digit), optional exponent, nothing
else. -/
def scanDouble (cs : List Char) : Option Decimal :=
  let sr := readSign cs
  let ip := sr.2.takeWhile Char.isDigit
  let r1 := sr.2.dropWhile Char.isDigit
  let fr : List Char × List Char :=
    match r1 with
    | [] => ([], [])
    | c :: r => if c = '.' then (r.takeWhile Char.isDigit, r.dropWhile Char.isDigit)
                else ([], c :: r)
  if ip ++ fr.1 = [] then none
  else
    match readExponent fr.2 with
    | none => none
    | some e => some ⟨sr.1, digitsValue (ip ++ fr.1), fr.1.length, e⟩

/-- The exact value of a decimal literal. -/
def Decimal.value (d : Decimal) : ℚ :=
  let m : ℚ := (d.digits : ℚ) / 10 ^ d.scale
  let v : ℚ := if 0 ≤ d.exp then m * 10 ^ d.exp.toNat else m / 10 ^ (-d.exp).toNat
  if d.neg then -v else v

/-- The conversion `strtod` of a decimal literal: the value returned, and
whether `errno` is set to `ERANGE`.  That is the case when the value overflows
to infinity, and when it underflows: the exact value, rounded to 53 bits, is
still below the normal range `2 ^ -1022`, and the subnormal or zero returned
differs from it. -/
def strtod (d : Decimal) : Double × Bool :=
  if d.digits = 0 then (Double.zero d.neg, false)
  else
    let v : ℚ := d.value
    let r : Double := Double.round v
    let tiny : Bool := decide (|v| < (2 : ℚ) ^ (-1022 : Int) - (2 : ℚ) ^ (-1076 : Int))
    (r, r.isInf || (tiny && decide (r.toRat ≠ v)))

/-- The literal that the extraction `iss >> value` reads when it consumes the
whole token: leading whitespace is skipped, the rest must be a literal. -/
def readLiteral (token : String) : Option Decimal :=
  scanDouble (token.data.dropWhile isspace)

/-- Source: `RPNCalculator::isNumber` (`!iss.fail() && iss.eof()`).  The
extraction fails when no literal is read, and when the value read is infinite. -/
def isNumber (token : String) : Bool :=
  match readLiteral token with
  | none => false
  | some d => !(strtod d).1.isInf

/-- The call `std::stod(t)`, made only on tokens that `isNumber` accepts, on
which it converts the whole token: `std::out_of_range` when `strtod` reports
`ERANGE`. -/
def stod (token : String) : Except RpnError Double :=
  match readLiteral token with
  | none => .error .InvalidArgument
  | some d => if (strtod d).2 then .error .OutOfRange else .ok (strtod d).1

/-! ## State and results -/

/-- One record written to `std::cout`. -/
inductive Output where
  /-- A line of fixed text. -/
  | line (text : String)
  /-- Debug trace of a pushed literal. -/
  | pushed (value : Double)
  /-- Debug trace of an operator: its name, operands and result. -/
  | computed (op : String) (args : List Double) (result : Double)
  /-- The report of `batchEvaluate` for an expression that succeeded. -/
  | batchResult (index : Nat) (expression : String) (result : Double)
  /-- The report of `batchEvaluate` for an expression that failed. -/
  | batchError (index : Nat) (expression : String) (what : String)
  /-- The values `displayStack` prints, in the order printed. -/
  | stackContents (elements : List Double)
  deriving DecidableEq

/-- What the program takes from its environment: the function `pow` of
`<cmath>`, `std::to_string`, and the value read from an unassigned `double`. -/
structure Runtime where
  pow : Double → Double → Double
  to_string : Double → String
  indeterminate : Double

/-- The fields of the class, and what it has written to `std::cout`. -/
structure RPNCalculator where
  operands : List Double
  history : List String
  debugMode : Bool
  cout : List Output

/-- Result of a member function: a return value or an exception, with the state
of the object at that point, or no result at all. -/
inductive Res (ρ : Type) where
  | ok (r : ρ) (s : RPNCalculator)
  | throw (e : RpnError) (s : RPNCalculator)
  | undefined

/-- The return value or exception of a result, without the state; `none` when
there is no result. -/
def Res.outcome {ρ : Type} : Res ρ → Option (Except RpnError ρ)
  | .ok r _ => some (.ok r)
  | .throw e _ => some (.error e)
  | .undefined => none

/-- The state of the object when the member function ends; `none` when it does
not. -/
def Res.state {ρ : Type} : Res ρ → Option RPNCalculator
  | .ok _ s => some s
  | .throw _ s => some s
  | .undefined => none

/-- Six decimals of a natural number below a million. -/
def sixDigits (n : Nat) : String :=
  String.mk (List.replicate (6 - (toString n).length) '0') ++ toString n

/-- The text `"%f"` of a value, as `std::to_string` returns it on the values
that are not NaN. -/
def fixedSix : Double → String
  | .finite q =>
    let n : Nat := (Double.roundHalfEven (|q| * 1000000)).toNat
    (if q < 0 then "-" else "") ++ toString (n / 1000000) ++ "." ++ sixDigits (n % 1000000)
  | .negZero => "-0.000000"
  | .inf negative => if negative then "-inf" else "inf"
  | .nan => "nan"

/-- A runtime on which the embedding can be executed.  Its `pow` is the exact
power rounded to binary64 for a finite base and an integer exponent of at most
four digits, as that of the C library is wherever the power is representable; it
is NaN elsewhere, which the C library is not. -/
def Runtime.simple : Runtime :=
  { pow := fun base exponent =>
      match base, exponent with
      | .finite b, .finite e =>
        if e.den = 1 ∧ e.num.natAbs < 10000 ∧ (b ≠ 0 ∨ 0 ≤ e.num) then Double.round (b ^ e.num)
        else .nan
      | _, _ => .nan
    to_string := fixedSix
    indeterminate := .finite 0 }

/-- Whether an output record is a report of `batchEvaluate`. -/
def Output.isReport : Output → Bool
  | .batchResult _ _ _ => true
  | .batchError _ _ _ => true
  | _ => false

/-- The four operators of `handleBasicOperation`. -/
inductive BinOp where
  | add
  | sub
  | mul
  | div
  deriving DecidableEq, Repr

/-- The token of an operator. -/
def BinOp.token : BinOp → String
  | .add => "+"
  | .sub => "-"
  | .mul => "*"
  | .div => "/"

/-- The arithmetic meaning of an operator in `double`, left operand first. -/
def BinOp.apply : BinOp → Double → Double → Double
  | .add, x, y => Double.add x y
  | .sub, x, y => Double.sub x y
  | .mul, x, y => Double.mul x y
  | .div, x, y => Double.div x y

/-- An expression tree: numeric literals at the leaves, binary operators at the
inner nodes. -/
inductive ExprTree where
  | lit (token : String)
  | node (op : BinOp) (left right : ExprTree)
  deriving Repr

/-- The post-order token sequence of a tree. -/
def ExprTree.postorder : ExprTree → List String
  | .lit token => [token]
  | .node op left right => left.postorder ++ right.postorder ++ [op.token]

/-- The value of a tree in `double` arithmetic: a leaf has the value
`std::stod` converts its literal to, a node that of its operator applied to the
values of its subtrees.  There is none when a leaf is not a numeric literal or
has no conversion, or when a divisor is zero. -/
def ExprTree.value : ExprTree → Option Double
  | .lit token =>
    if isWord token && isNumber token then
      match stod token with
      | .ok v => some v
      | .error _ => none
    else none
  | .node op left right =>
    match left.value, right.value with
    | some a, some b => if op = .div ∧ b.isZero = true then none else some (op.apply a b)
    | _, _ => none

/-! ## Loops over an `int` counter -/

/-- The loop `for (int i = ...; i <= n; i++) body`, from the test of the
condition with the counter at `i` and the other variables at `s`.  The body has
no result (`none`) when it runs into undefined behaviour, and so has the loop;
the increment `i++` at `i = INT_MAX` overflows, and the loop has no result
either. -/
def forUpTo {σ : Type} (n : Int) (body : Int → σ → Option σ) (i : Int) (s : σ) : Option σ :=
  if i ≤ n then
    match body i s with
    | none => none
    | some next => if i = INT_MAX then none else forUpTo n body (i + 1) next
  else some s
termination_by (n + 1 - i).toNat
decreasing_by omega

/-- The arithmetic in which a loop of the program is run: the conversion from
`int` and the operators `+`, `*`, `/`. -/
structure Arith (α : Type) where
  ofInt : Int → α
  add : α → α → α
  mul : α → α → α
  div : α → α → α

/-- The arithmetic of the program: `double`. -/
def Arith.double : Arith Double :=
  { ofInt := Double.ofInt, add := Double.add, mul := Double.mul, div := Double.div }

/-- Exact arithmetic, in the rational numbers. -/
def Arith.exact : Arith ℚ :=
  { ofInt := fun z => (z : ℚ), add := fun x y => x + y, mul := fun x y => x * y,
    div := fun x y => x / y }

namespace RPNCalculator

/-- The constructor `RPNCalculator()`. -/
def new : RPNCalculator :=
  { operands := [], history := [], debugMode := false, cout := [] }

/-- A calculator just constructed, except that its stack holds `stack` (head on
top): the state after the pushes that put these values there. -/
def ofStack (stack : List Double) : RPNCalculator :=
  { operands := stack, history := [], debugMode := false, cout := [] }

/-- Write a debug record when `debugMode` is set. -/
def trace (self : RPNCalculator) (o : Output) : RPNCalculator :=
  if self.debugMode then { self with cout := self.cout ++ [o] } else self

/-- Source: `operands.push(v)`. -/
def push (self : RPNCalculator) (v : Double) : RPNCalculator :=
  { self with operands := v :: self.operands }

/-- Source: `RPNCalculator::handleBasicOperation`. -/
def handleBasicOperation (self : RPNCalculator) (m : Runtime) (op : String) : Res Unit :=
  match self.operands with
  | right :: left :: rest =>
    let popped : RPNCalculator := { self with operands := rest }
    if op = "+" then
      .ok () ((popped.push (left.add right)).trace (.computed op [left, right] (left.add right)))
    else if op = "-" then
      .ok () ((popped.push (left.sub right)).trace (.computed op [left, right] (left.sub right)))
    else if op = "*" then
      .ok () ((popped.push (left.mul right)).trace (.computed op [left, right] (left.mul right)))
    else if op = "/" then
      if right.eq (Double.ofInt 0) then .throw .DivisionByZero popped
      else
        .ok () ((popped.push (left.div right)).trace (.computed op [left, right] (left.div right)))
    else
      .ok () ((popped.push m.indeterminate).trace (.computed op [left, right] m.indeterminate))
  | _ => .throw .InsufficientOperands self

/-- Body of the loop of `fibonacci` on the pair `(a, b)`. -/
def fibStep {α : Type} (A : Arith α) (ab : α × α) : α × α :=
  (ab.2, A.add ab.1 ab.2)

/-- The function `fibonacci` run in the arithmetic `A`.  The argument is an
`int`. -/
def fibonacciIn {α : Type} (A : Arith α) (n : Int) : Option (Except RpnError α) :=
  if n < 0 then some (.error (.InvalidSequenceArgument .fib))
  else if n = 0 then some (.ok (A.ofInt 0))
  else if n = 1 then some (.ok (A.ofInt 1))
  else
    match forUpTo n (fun _ ab => some (fibStep A ab)) 2 (A.ofInt 0, A.ofInt 1) with
    | none => none
    | some ab => some (.ok ab.2)

/-- Source: `RPNCalculator::fibonacci`. -/
def fibonacci (n : Int) : Option (Except RpnError Double) :=
  fibonacciIn Arith.double n

/-- The variables `sum` and `value` of the loop of `pascalTriangle`. -/
structure PascalVars (α : Type) where
  sum : α
  value : α

/-- Body of the loop of `pascalTriangle` with the counter at `k`; the sum
`k + 1` overflows at `k = INT_MAX`. -/
def pascalStep {α : Type} (A : Arith α) (n k : Int) (v : PascalVars α) : Option (PascalVars α) :=
  if k = INT_MAX then none
  else
    some { sum := A.add v.sum v.value,
           value := A.div (A.mul v.value (A.ofInt (n - k))) (A.ofInt (k + 1)) }

/-- The function `pascalTriangle` run in the arithmetic `A`.  The argument is an
`int`. -/
def pascalTriangleIn {α : Type} (A : Arith α) (n : Int) : Option (Except RpnError α) :=
  if n < 0 then some (.error (.InvalidSequenceArgument .pascal))
  else
    match forUpTo n (pascalStep A n) 0 { sum := A.ofInt 0, value := A.ofInt 1 } with
    | none => none
    | some v => some (.ok v.sum)

/-- Source: `RPNCalculator::pascalTriangle`. -/
def pascalTriangle (n : Int) : Option (Except RpnError Double) :=
  pascalTriangleIn Arith.double n

/-- Source: `RPNCalculator::setDebugMode`. -/
def setDebugMode (self : RPNCalculator) (mode : Bool) : RPNCalculator :=
  { self with debugMode := mode }

/-- Source: `RPNCalculator::clearStack`. -/
def clearStack (self : RPNCalculator) : RPNCalculator :=
  { self with operands := [] }

/-- Source: `RPNCalculator::displayStack`.  `elements` receives the stack from
the top down and is then printed through reverse iterators. -/
def displayStack (self : RPNCalculator) : RPNCalculator :=
  if self.operands = [] then { self with cout := self.cout ++ [.line "栈为空"] }
  else
    let elements := self.operands
    { self with cout := self.cout ++ [.line "当前栈内容 (从顶到底): ", .stackContents elements.reverse] }

/-- One iteration of the token loop of `evaluateExpression`. -/
def evalToken (self : RPNCalculator) (m : Runtime) (t : String) : Res Unit :=
  if isNumber t then
    match stod t with
    | .error e => .throw e self
    | .ok value => .ok () ((self.push value).trace (.pushed value))
  else if isOperator t then
    if t = "sqrt" then
      match self.operands with
      | [] => .throw .EmptyStack self
      | value :: rest =>
        let popped : RPNCalculator := { self with operands := rest }
        if value.lt (Double.ofInt 0) then .throw .NegativeSquareRoot popped
        else
          let result := value.sqrt
          .ok () ((popped.push result).trace (.computed "sqrt" [value] result))
    else if t = "^" then
      match self.operands with
      | exponent :: base :: rest =>
        let popped : RPNCalculator := { self with operands := rest }
        let result := m.pow base exponent
        .ok () ((popped.push result).trace (.computed "^" [base, exponent] result))
      | _ => .throw .InsufficientOperands self
    else if t = "fib" then
      match self.operands with
      | [] => .throw .EmptyStack self
      | n :: rest =>
        let popped : RPNCalculator := { self with operands := rest }
        if n.ne (Double.ofInt (castInt n)) ∨ n.lt (Double.ofInt 0) then
          .throw (.InvalidSequenceArgument .fib) popped
        else
          match fibonacci (castInt n) with
          | none => .undefined
          | some (.error e) => .throw e popped
          | some (.ok result) => .ok () ((popped.push result).trace (.computed "fib" [n] result))
    else if t = "pascal" then
      match self.operands with
      | [] => .throw .EmptyStack self
      | n :: rest =>
        let popped : RPNCalculator := { self with operands := rest }
        if n.ne (Double.ofInt (castInt n)) ∨ n.lt (Double.ofInt 0) then
          .throw (.InvalidSequenceArgument .pascal) popped
        else
          match pascalTriangle (castInt n) with
          | none => .undefined
          | some (.error e) => .throw e popped
          | some (.ok result) =>
            .ok () ((popped.push result).trace (.computed "pascal" [n] result))
    else handleBasicOperation self m t
  else .throw (.UnknownToken t) self

/-- The loop `for (const auto& t : tokens)`: the first exception ends it. -/
def evalTokens (self : RPNCalculator) (m : Runtime) : List String → Res Unit
  | [] => .ok () self
  | t :: ts =>
    match evalToken self m t with
    | .ok _ s => evalTokens s m ts
    | .throw e s => .throw e s
    | .undefined => .undefined

/-- Source: `RPNCalculator::evaluateExpression`. -/
def evaluateExpression (self : RPNCalculator) (m : Runtime) (expression : String) :
    Res Double :=
  match evalTokens self m (tokenize expression) with
  | .undefined => .undefined
  | .throw e s => .throw e s
  | .ok _ s =>
    match s.operands with
    | [result] =>
      .ok result { s with history := s.history ++ [expression ++ " = " ++ m.to_string result] }
    | _ => .throw .MalformedExpression s

/-- Body of the loop of `batchEvaluate` for the expression at position `i`;
`none` when the evaluation of the expression has no result. -/
def batchStep (self : RPNCalculator) (m : Runtime) (i : Nat) (expression : String) :
    Option RPNCalculator :=
  let backup := self.operands
  match evaluateExpression self.clearStack m expression with
  | .ok result s =>
    some { s with cout := s.cout ++ [.batchResult (i + 1) expression result], operands := backup }
  | .throw e s =>
    some { s with cout := s.cout ++ [.batchError (i + 1) expression e.what] }
  | .undefined => none

/-- The loop `for (i = 0; i < expressions.size(); i++)` from position `i` on. -/
def batchLoop (m : Runtime) : RPNCalculator → Nat → List String → Option RPNCalculator
  | self, _, [] => some self
  | self, i, e :: es =>
    match batchStep self m i e with
    | some s => batchLoop m s (i + 1) es
    | none => none

/-- Source: `RPNCalculator::batchEvaluate`; `none` when the call does not
end. -/
def batchEvaluate (self : RPNCalculator) (m : Runtime) (expressions : List String) :
    Option RPNCalculator :=
  let s0 : RPNCalculator :=
    { self with cout := self.cout ++
        [.line ("开始批量计算 " ++ toString expressions.length ++ " 个表达式:"),
         .line "----------------------------------------"] }
  match batchLoop m s0 0 expressions with
  | some s1 => some { s1 with cout := s1.cout ++ [.line "----------------------------------------"] }
  | none => none

end RPNCalculator

/-! # Verification -/

/-! ## Rounding to binary64 -/

namespace Double


theorem roundHalfEven_intCast (z : Int) : roundHalfEven (z : ℚ) = z := by
  simp [roundHalfEven]

/-- A value within less than a half of an integer is rounded to it. -/
theorem roundHalfEven_eq_of_lt (x : ℚ) (k : Int) (h : |x - k| < 1 / 2) :
    roundHalfEven x = k := by
  rw [abs_lt] at h
  obtain ⟨h1, h2⟩ := h
  unfold roundHalfEven
  simp only
  rcases lt_trichotomy ((k : ℚ)) x with hk | hk | hk
  · -- k < x < k + 1/2 : floor is k
    have hf : ⌊x⌋ = k := by
      rw [Int.floor_eq_iff]
      constructor <;> linarith
    rw [hf, if_pos (by linarith)]
  · rw [← hk]
    simp
  · -- k - 1/2 < x < k : floor is k - 1
    have hf : ⌊x⌋ = k - 1 := by
      rw [Int.floor_eq_iff]
      push_cast
      constructor <;> linarith
    rw [hf]
    push_cast
    rw [if_neg (by linarith), if_pos (by linarith)]
    ring

/-- Rounding keeps a value between the integers around it. -/
theorem roundHalfEven_mono_int (x : ℚ) (k : Int) (h : (k : ℚ) ≤ x) : k ≤ roundHalfEven x := by
  have hf : k ≤ ⌊x⌋ := Int.le_floor.mpr h
  unfold roundHalfEven
  simp only
  split_ifs <;> omega

theorem roundHalfEven_le_int (x : ℚ) (k : Int) (h : x ≤ (k : ℚ)) : roundHalfEven x ≤ k := by
  unfold roundHalfEven
  simp only
  by_cases hx : x = (⌊x⌋ : ℚ)
  · have hf : ⌊x⌋ ≤ k := by
      have : ((⌊x⌋ : Int) : ℚ) ≤ (k : ℚ) := by rw [← hx]; exact h
      exact_mod_cast this
    rw [if_pos (by rw [← hx]; norm_num)]
    exact hf
  · have hlt : (⌊x⌋ : ℚ) < x := lt_of_le_of_ne (Int.floor_le x) (Ne.symm hx)
    have hf : ⌊x⌋ < k := by
      have : ((⌊x⌋ : Int) : ℚ) < (k : ℚ) := lt_of_lt_of_le hlt h
      exact_mod_cast this
    split_ifs <;> omega

theorem exponent_eq (x : ℚ) (e : Int) (h1 : (2 : ℚ) ^ e ≤ |x|) (h2 : |x| < (2 : ℚ) ^ (e + 1))
    (he : -1022 ≤ e) : exponent x = e := by
  have hpos : 0 < |x| := lt_of_lt_of_le (by positivity) h1
  have hlog : Int.log 2 |x| = e := by
    apply le_antisymm
    · have := (Int.lt_zpow_iff_log_lt (b := 2) (by norm_num) hpos (x := e + 1)).mp
        (by exact_mod_cast h2)
      omega
    · exact (Int.zpow_le_iff_le_log (b := 2) (by norm_num) hpos).mp (by exact_mod_cast h1)
  unfold exponent
  rw [hlog]
  exact max_eq_left he

theorem exponent_eq_min (x : ℚ) (h0 : x ≠ 0) (h : |x| < (2 : ℚ) ^ (-1021 : Int)) :
    exponent x = -1022 := by
  unfold exponent
  apply max_eq_right
  have hpos : 0 < |x| := abs_pos.mpr h0
  have := (Int.lt_zpow_iff_log_lt (b := 2) (by norm_num) hpos (x := -1021)).mp
    (by exact_mod_cast h)
  omega

theorem exponent_ge (x : ℚ) : -1022 ≤ exponent x := le_max_right _ _

theorem ulp_pos (x : ℚ) : 0 < ulp x := by
  unfold ulp
  positivity

theorem roundHalfEven_neg (x : ℚ) : roundHalfEven (-x) = -roundHalfEven x := by
  by_cases hx : x = (⌊x⌋ : ℚ)
  · rw [hx, ← Int.cast_neg, roundHalfEven_intCast, roundHalfEven_intCast]
  · have hlt : (⌊x⌋ : ℚ) < x := lt_of_le_of_ne (Int.floor_le x) (Ne.symm hx)
    have hlt2 : x < (⌊x⌋ : ℚ) + 1 := Int.lt_floor_add_one x
    have hf : ⌊-x⌋ = -⌊x⌋ - 1 := by
      rw [Int.floor_eq_iff]
      push_cast
      constructor <;> linarith
    unfold roundHalfEven
    simp only
    rw [hf]
    generalize ⌊x⌋ = f at *
    push_cast
    rcases lt_trichotomy (x - f) (1 / 2) with h | h | h
    · have h3 : ¬ (-x - (-(f : ℚ) - 1) < 1 / 2) := by linarith
      have h4 : (1 / 2 : ℚ) < -x - (-(f : ℚ) - 1) := by linarith
      rw [if_pos h, if_neg h3, if_pos h4]
      ring
    · have h1 : ¬ (x - f < 1 / 2) := by linarith
      have h2 : ¬ ((1 / 2 : ℚ) < x - f) := by linarith
      have h3 : ¬ (-x - (-(f : ℚ) - 1) < 1 / 2) := by linarith
      have h4 : ¬ ((1 / 2 : ℚ) < -x - (-(f : ℚ) - 1)) := by linarith
      rw [if_neg h3, if_neg h4, if_neg h1, if_neg h2]
      by_cases hp : f % 2 = 0
      · have hq : ¬ ((-f - 1) % 2 = 0) := by omega
        rw [if_pos hp, if_neg hq]
        ring
      · have hq : (-f - 1) % 2 = 0 := by omega
        rw [if_neg hp, if_pos hq]
        ring
    · have h1 : ¬ (x - f < 1 / 2) := by linarith
      have h3 : -x - (-(f : ℚ) - 1) < 1 / 2 := by linarith
      rw [if_pos h3, if_neg h1, if_pos h]
      ring


theorem round_zero : round 0 = finite 0 := by
  simp [round, roundHalfEven, zero]
  positivity

/-- A value that binary64 represents: a significand of at most 53 bits at a
binary exponent in range. -/
theorem round_of_representable (q : ℚ) (m e : Int) (hm : |m| < 2 ^ 53) (he1 : -1074 ≤ e)
    (he2 : e ≤ 971) (hq : q = (m : ℚ) * (2 : ℚ) ^ e) : round q = finite q := by
  by_cases h0 : q = 0
  · rw [h0, round_zero]
  have hm0 : m ≠ 0 := by
    rintro rfl
    apply h0
    rw [hq]
    simp
  have hqpos : 0 < |q| := abs_pos.mpr h0
  have habs : |q| = |(m : ℚ)| * (2 : ℚ) ^ e := by
    rw [hq, abs_mul, abs_of_pos (show (0 : ℚ) < 2 ^ e by positivity)]
  have hmq : |(m : ℚ)| < (2 : ℚ) ^ (53 : Int) := by
    have h1 : ((|m| : Int) : ℚ) < ((2 ^ 53 : Int) : ℚ) := Int.cast_lt.mpr hm
    rw [Int.cast_abs] at h1
    norm_num at h1 ⊢
    exact h1
  -- the binade of `q` lies below `2 ^ (e + 53)`
  have hlt : |q| < (2 : ℚ) ^ (e + 53) := by
    rw [habs, zpow_add₀ (by norm_num : (2 : ℚ) ≠ 0), mul_comm]
    exact mul_lt_mul_of_pos_left hmq (by positivity)
  have hlog : Int.log 2 |q| < e + 53 :=
    (Int.lt_zpow_iff_log_lt (b := 2) (by norm_num) hqpos).mp (by exact_mod_cast hlt)
  have hexp : exponent q - 52 ≤ e := by
    unfold exponent
    rcases max_cases (Int.log 2 |q|) (-1022) with ⟨h, _⟩ | ⟨h, _⟩ <;> rw [h] <;> omega
  -- so `q` is a multiple of its unit in the last place
  obtain ⟨d, hd⟩ : ∃ d : Nat, e = exponent q - 52 + d := ⟨(e - (exponent q - 52)).toNat, by omega⟩
  have hz : (2 : ℚ) ^ e = (2 : ℚ) ^ (exponent q - 52) * (2 : ℚ) ^ (d : Int) := by
    rw [← zpow_add₀ (by norm_num : (2 : ℚ) ≠ 0), ← hd]
  have hmul : q / ulp q = ((m * 2 ^ d : Int) : ℚ) := by
    rw [div_eq_iff (ne_of_gt (ulp_pos q))]
    unfold ulp
    push_cast
    rw [← zpow_natCast]
    conv_lhs => rw [hq, hz]
    ring
  have hy : (roundHalfEven (q / ulp q) : ℚ) * ulp q = q := by
    rw [hmul, roundHalfEven_intCast, ← hmul]
    exact div_mul_cancel₀ q (ne_of_gt (ulp_pos q))
  have hbig : |q| < (2 : ℚ) ^ (1024 : Int) := by
    refine lt_of_lt_of_le hlt ?_
    exact zpow_le_zpow_right₀ (by norm_num) (by omega)
  unfold round
  simp only [hy]
  rw [if_neg (not_le.mpr hbig), if_neg h0]

theorem round_intCast (z : Int) (hz : |z| < 2 ^ 53) : round (z : ℚ) = finite (z : ℚ) :=
  round_of_representable _ z 0 hz (by norm_num) (by norm_num) (by simp)


/-- Rounding moves a value by at most a half. -/
theorem roundHalfEven_abs_sub_le (x : ℚ) : |(roundHalfEven x : ℚ) - x| ≤ 1 / 2 := by
  have h1 : (⌊x⌋ : ℚ) ≤ x := Int.floor_le x
  have h2 : x < (⌊x⌋ : ℚ) + 1 := Int.lt_floor_add_one x
  unfold roundHalfEven
  simp only
  rw [abs_le]
  split_ifs <;> push_cast <;> constructor <;> linarith

/-- A value at least a half below an even integer is not rounded below it. -/
theorem roundHalfEven_ge_of_even (x : ℚ) (k : Int) (hk : k % 2 = 0) (h : (k : ℚ) - 1 / 2 ≤ x) :
    k ≤ roundHalfEven x := by
  by_cases hx : (k : ℚ) ≤ x
  · exact roundHalfEven_mono_int x k hx
  · push_neg at hx
    have hf : ⌊x⌋ = k - 1 := by
      rw [Int.floor_eq_iff]
      push_cast
      constructor <;> linarith
    unfold roundHalfEven
    simp only
    rw [hf]
    push_cast
    have h1 : ¬ (x - ((k : ℚ) - 1) < 1 / 2) := by linarith
    rw [if_neg h1]
    split_ifs <;> omega

/-- A value less than a half above an integer is not rounded above it. -/
theorem roundHalfEven_le_of_lt_half (x : ℚ) (k : Int) (h : x < (k : ℚ) + 1 / 2) :
    roundHalfEven x ≤ k := by
  by_cases hx : x ≤ (k : ℚ)
  · exact roundHalfEven_le_int x k hx
  · push_neg at hx
    have hf : ⌊x⌋ = k := by
      rw [Int.floor_eq_iff]
      constructor <;> linarith
    unfold roundHalfEven
    simp only
    rw [hf, if_pos (by linarith)]

/-- A value of at most a half is rounded to zero. -/
theorem roundHalfEven_eq_zero (x : ℚ) (h0 : 0 ≤ x) (h : x ≤ 1 / 2) : roundHalfEven x = 0 := by
  apply le_antisymm
  · rcases eq_or_lt_of_le h with h1 | h1
    · have hf : ⌊x⌋ = 0 := by
        rw [Int.floor_eq_iff]
        constructor <;> push_cast <;> linarith
      unfold roundHalfEven
      simp only
      rw [hf]
      push_cast
      rw [if_neg (by linarith), if_neg (by linarith)]
    · exact roundHalfEven_le_of_lt_half x 0 (by push_cast; linarith)
  · exact roundHalfEven_mono_int x 0 (by exact_mod_cast h0)

theorem exponent_neg (x : ℚ) : exponent (-x) = exponent x := by
  unfold exponent
  rw [abs_neg]

theorem ulp_neg (x : ℚ) : ulp (-x) = ulp x := by
  unfold ulp
  rw [exponent_neg]

/-- Rounding commutes with the change of sign. -/
theorem round_neg (x : ℚ) (hx : x ≠ 0) : round (-x) = neg (round x) := by
  unfold round
  simp only [ulp_neg, neg_div, roundHalfEven_neg, Int.cast_neg, neg_mul, abs_neg, neg_eq_zero,
    Left.neg_neg_iff]
  have hsign : decide (0 < x) = !decide (x < 0) := by
    rcases lt_trichotomy x 0 with h | h | h
    · simp [h, not_lt.mpr (le_of_lt h)]
    · exact absurd h hx
    · simp [h, not_lt.mpr (le_of_lt h)]
  by_cases h1 : (2 : ℚ) ^ (1024 : Int) ≤ |(roundHalfEven (x / ulp x) : ℚ) * ulp x|
  · simp only [h1, if_true, neg, hsign]
  · simp only [h1, if_false]
    by_cases h2 : (roundHalfEven (x / ulp x) : ℚ) * ulp x = 0
    · simp only [h2, if_true, hsign, zero]
      rcases lt_trichotomy x 0 with h | h | h
      · simp [h, neg]
      · exact absurd h hx
      · simp [not_lt.mpr (le_of_lt h), neg]
    · simp only [h2, if_false, neg]

/-- A positive value is below the end of its binade. -/
theorem lt_zpow_exponent_succ (x : ℚ) : |x| < (2 : ℚ) ^ (exponent x + 1) := by
  have h := Int.lt_zpow_succ_log_self (b := 2) (by norm_num) |x|
  refine lt_of_lt_of_le (by exact_mod_cast h) ?_
  apply zpow_le_zpow_right₀ (by norm_num)
  unfold exponent
  have := le_max_left (Int.log 2 |x|) (-1022)
  omega

/-- A value from the normal range on is at least the start of its binade. -/
theorem zpow_exponent_le (x : ℚ) (h : (2 : ℚ) ^ (-1022 : Int) ≤ |x|) :
    (2 : ℚ) ^ exponent x ≤ |x| := by
  have hpos : 0 < |x| := lt_of_lt_of_le (by positivity) h
  have hlog : -1022 ≤ Int.log 2 |x| :=
    (Int.zpow_le_iff_le_log (b := 2) (by norm_num) hpos).mp (by exact_mod_cast h)
  unfold exponent
  rw [max_eq_left hlog]
  exact_mod_cast Int.zpow_log_le_self (b := 2) (by norm_num) hpos

/-- The result of rounding, before the range is checked, is within half a unit
in the last place of the exact value. -/
theorem round_error (x : ℚ) :
    |(roundHalfEven (x / ulp x) : ℚ) * ulp x - x| ≤ ulp x / 2 := by
  have hu := ulp_pos x
  have h := roundHalfEven_abs_sub_le (x / ulp x)
  have heq : (roundHalfEven (x / ulp x) : ℚ) * ulp x - x =
      ((roundHalfEven (x / ulp x) : ℚ) - x / ulp x) * ulp x := by
    field_simp
  rw [heq, abs_mul, abs_of_pos hu]
  calc |(roundHalfEven (x / ulp x) : ℚ) - x / ulp x| * ulp x ≤ 1 / 2 * ulp x :=
        mul_le_mul_of_nonneg_right h (le_of_lt hu)
    _ = ulp x / 2 := by ring

/-- The threshold of overflow: halfway between the largest finite value and
`2 ^ 1024`. -/
theorem round_overflow_pos (x : ℚ) (h : (2 : ℚ) ^ (1024 : Int) - (2 : ℚ) ^ (970 : Int) ≤ x) :
    round x = inf false := by
  have hx0 : (0 : ℚ) < x := lt_of_lt_of_le (by norm_num) h
  have habs : |x| = x := abs_of_pos hx0
  have hnorm : (2 : ℚ) ^ (-1022 : Int) ≤ |x| := by
    rw [habs]
    refine le_trans ?_ h
    norm_num
  have hle := zpow_exponent_le x hnorm
  have hlt := lt_zpow_exponent_succ x
  rw [habs] at hle hlt
  have hu := ulp_pos x
  -- the exponent is at least 1023
  have he : 1023 ≤ exponent x := by
    by_contra hcon
    push_neg at hcon
    have h1 : (2 : ℚ) ^ (exponent x + 1) ≤ (2 : ℚ) ^ (1023 : Int) :=
      zpow_le_zpow_right₀ (by norm_num) (by omega)
    have h2 : (2 : ℚ) ^ (1023 : Int) < (2 : ℚ) ^ (1024 : Int) - (2 : ℚ) ^ (970 : Int) := by
      norm_num
    linarith
  have hbig : (2 : ℚ) ^ (1024 : Int) ≤ |(roundHalfEven (x / ulp x) : ℚ) * ulp x| := by
    rw [abs_mul, abs_of_pos hu]
    rcases eq_or_lt_of_le he with he1 | he1
    · -- binade 1023: the quotient is at least `2 ^ 53 - 1 / 2`
      have hulp : ulp x = (2 : ℚ) ^ (971 : Int) := by
        unfold ulp
        rw [← he1]
        norm_num
      have hq : ((2 ^ 53 : Int) : ℚ) - 1 / 2 ≤ x / ulp x := by
        rw [hulp, le_div_iff₀ (by positivity)]
        refine le_trans (le_of_eq ?_) h
        norm_num
      have hk := roundHalfEven_ge_of_even (x / ulp x) (2 ^ 53) (by norm_num) hq
      have hk' : ((2 ^ 53 : Int) : ℚ) ≤ (roundHalfEven (x / ulp x) : ℚ) := by exact_mod_cast hk
      have habs2 : ((2 ^ 53 : Int) : ℚ) ≤ |(roundHalfEven (x / ulp x) : ℚ)| :=
        le_trans hk' (le_abs_self _)
      generalize roundHalfEven (x / ulp x) = K at habs2 ⊢
      rw [hulp]
      calc (2 : ℚ) ^ (1024 : Int) = ((2 ^ 53 : Int) : ℚ) * (2 : ℚ) ^ (971 : Int) := by norm_num
        _ ≤ |(K : ℚ)| * (2 : ℚ) ^ (971 : Int) :=
          mul_le_mul_of_nonneg_right habs2 (by positivity)
    · -- higher binades: the quotient is at least `2 ^ 52`
      have hq : ((2 ^ 52 : Int) : ℚ) ≤ x / ulp x := by
        rw [le_div_iff₀ hu]
        refine le_trans (le_of_eq ?_) hle
        unfold ulp
        rw [show ((2 ^ 52 : Int) : ℚ) = (2 : ℚ) ^ (52 : Int) by norm_num,
          ← zpow_add₀ (by norm_num : (2 : ℚ) ≠ 0)]
        congr 1
        ring
      have hk := roundHalfEven_mono_int (x / ulp x) (2 ^ 52) hq
      have hk' : ((2 ^ 52 : Int) : ℚ) ≤ (roundHalfEven (x / ulp x) : ℚ) := by exact_mod_cast hk
      have habs2 : ((2 ^ 52 : Int) : ℚ) ≤ |(roundHalfEven (x / ulp x) : ℚ)| :=
        le_trans hk' (le_abs_self _)
      have hpow : (2 : ℚ) ^ (1024 : Int) ≤ ((2 ^ 52 : Int) : ℚ) * ulp x := by
        unfold ulp
        rw [show ((2 ^ 52 : Int) : ℚ) = (2 : ℚ) ^ (52 : Int) by norm_num,
          ← zpow_add₀ (by norm_num : (2 : ℚ) ≠ 0)]
        exact zpow_le_zpow_right₀ (by norm_num) (by omega)
      exact le_trans hpow (mul_le_mul_of_nonneg_right habs2 (le_of_lt hu))
  unfold round
  simp only
  rw [if_pos hbig]
  simp [not_lt.mpr (le_of_lt hx0)]

/-- Below the threshold of overflow the rounded value is finite. -/
theorem round_no_overflow_pos (x : ℚ) (hx0 : 0 < x)
    (h : x < (2 : ℚ) ^ (1024 : Int) - (2 : ℚ) ^ (970 : Int)) :
    ¬ (2 : ℚ) ^ (1024 : Int) ≤ |(roundHalfEven (x / ulp x) : ℚ) * ulp x| := by
  have habs : |x| = x := abs_of_pos hx0
  have hlt := lt_zpow_exponent_succ x
  rw [habs] at hlt
  have hu := ulp_pos x
  have hk0 : (0 : ℚ) ≤ (roundHalfEven (x / ulp x) : ℚ) := by
    have := roundHalfEven_mono_int (x / ulp x) 0 (by
      push_cast
      exact div_nonneg (le_of_lt hx0) (le_of_lt hu))
    exact_mod_cast this
  rw [abs_mul, abs_of_pos hu, abs_of_nonneg hk0, not_le]
  by_cases he : exponent x ≤ 1022
  · -- the rounded value is at most the end of the binade
    have hq : x / ulp x ≤ ((2 ^ 53 : Int) : ℚ) := by
      rw [div_le_iff₀ hu]
      refine le_trans (le_of_lt hlt) (le_of_eq ?_)
      unfold ulp
      rw [show ((2 ^ 53 : Int) : ℚ) = (2 : ℚ) ^ (53 : Int) by norm_num,
        ← zpow_add₀ (by norm_num : (2 : ℚ) ≠ 0)]
      congr 1
      ring
    have hk := roundHalfEven_le_int (x / ulp x) (2 ^ 53) hq
    have hk' : (roundHalfEven (x / ulp x) : ℚ) ≤ ((2 ^ 53 : Int) : ℚ) := by exact_mod_cast hk
    calc (roundHalfEven (x / ulp x) : ℚ) * ulp x ≤ ((2 ^ 53 : Int) : ℚ) * ulp x :=
          mul_le_mul_of_nonneg_right hk' (le_of_lt hu)
      _ = (2 : ℚ) ^ (exponent x + 1) := by
          unfold ulp
          rw [show ((2 ^ 53 : Int) : ℚ) = (2 : ℚ) ^ (53 : Int) by norm_num,
            ← zpow_add₀ (by norm_num : (2 : ℚ) ≠ 0)]
          congr 1
          ring
      _ ≤ (2 : ℚ) ^ (1023 : Int) := zpow_le_zpow_right₀ (by norm_num) (by omega)
      _ < (2 : ℚ) ^ (1024 : Int) := by norm_num
  · -- binade 1023
    push_neg at he
    have he2 : exponent x ≤ 1023 := by
      by_contra hcon
      push_neg at hcon
      have hnorm : (2 : ℚ) ^ (-1022 : Int) ≤ |x| := by
        by_contra hc
        push_neg at hc
        have hx : x ≠ 0 := ne_of_gt hx0
        have := exponent_eq_min x hx (lt_trans hc (by norm_num))
        omega
      have hle := zpow_exponent_le x hnorm
      rw [habs] at hle
      have h1 : (2 : ℚ) ^ (1024 : Int) ≤ (2 : ℚ) ^ exponent x :=
        zpow_le_zpow_right₀ (by norm_num) (by omega)
      have h2 : (0 : ℚ) < (2 : ℚ) ^ (970 : Int) := by positivity
      linarith
    have he3 : exponent x = 1023 := by omega
    have hulp : ulp x = (2 : ℚ) ^ (971 : Int) := by
      unfold ulp
      rw [he3]
      norm_num
    have hq : x / ulp x < ((2 ^ 53 - 1 : Int) : ℚ) + 1 / 2 := by
      rw [hulp, div_lt_iff₀ (by positivity)]
      refine lt_of_lt_of_le h (le_of_eq ?_)
      norm_num
    have hk := roundHalfEven_le_of_lt_half (x / ulp x) (2 ^ 53 - 1) hq
    have hk' : (roundHalfEven (x / ulp x) : ℚ) ≤ ((2 ^ 53 - 1 : Int) : ℚ) := by exact_mod_cast hk
    generalize roundHalfEven (x / ulp x) = K at hk' ⊢
    rw [hulp]
    calc (K : ℚ) * (2 : ℚ) ^ (971 : Int)
        ≤ ((2 ^ 53 - 1 : Int) : ℚ) * (2 : ℚ) ^ (971 : Int) :=
          mul_le_mul_of_nonneg_right hk' (by positivity)
      _ < (2 : ℚ) ^ (1024 : Int) := by norm_num

theorem isInf_neg (d : Double) : (neg d).isInf = d.isInf := by
  cases d with
  | finite q =>
    simp only [neg]
    split_ifs <;> rfl
  | negZero => rfl
  | inf s => rfl
  | nan => rfl

theorem round_not_isInf (x : ℚ)
    (h : ¬ (2 : ℚ) ^ (1024 : Int) ≤ |(roundHalfEven (x / ulp x) : ℚ) * ulp x|) :
    (round x).isInf = false := by
  unfold round
  simp only
  rw [if_neg h]
  unfold zero
  split_ifs <;> rfl

/-- Rounding gives an infinity exactly from the threshold of overflow on. -/
theorem round_isInf_iff (x : ℚ) :
    (round x).isInf = true ↔ (2 : ℚ) ^ (1024 : Int) - (2 : ℚ) ^ (970 : Int) ≤ |x| := by
  rcases lt_trichotomy x 0 with hx | hx | hx
  · have hnx : (0 : ℚ) < -x := by linarith
    have hr : round x = neg (round (-x)) := by
      have := round_neg (-x) (ne_of_gt hnx)
      rwa [neg_neg] at this
    rw [abs_of_neg hx, hr, isInf_neg]
    constructor
    · intro hinf
      by_contra hcon
      push_neg at hcon
      rw [round_not_isInf (-x) (round_no_overflow_pos (-x) hnx hcon)] at hinf
      cases hinf
    · intro h
      rw [round_overflow_pos (-x) h]
      rfl
  · subst hx
    rw [round_zero]
    simp only [isInf, abs_zero]
    constructor
    · intro h; cases h
    · intro h
      exfalso
      have : (0 : ℚ) < (2 : ℚ) ^ (1024 : Int) - (2 : ℚ) ^ (970 : Int) := by norm_num
      linarith
  · rw [abs_of_pos hx]
    constructor
    · intro hinf
      by_contra hcon
      push_neg at hcon
      rw [round_not_isInf x (round_no_overflow_pos x hx hcon)] at hinf
      cases hinf
    · intro h
      rw [round_overflow_pos x h]
      rfl

/-- A value of at most half the smallest subnormal is rounded to zero. -/
theorem round_underflow_pos (x : ℚ) (hx0 : 0 < x) (h : x ≤ (2 : ℚ) ^ (-1075 : Int)) :
    round x = finite 0 := by
  have habs : |x| = x := abs_of_pos hx0
  have he : exponent x = -1022 :=
    exponent_eq_min x (ne_of_gt hx0) (by
      rw [habs]
      exact lt_of_le_of_lt h (by norm_num))
  have hulp : ulp x = (2 : ℚ) ^ (-1074 : Int) := by
    unfold ulp
    rw [he]
    norm_num
  have hk : roundHalfEven (x / ulp x) = 0 := by
    apply roundHalfEven_eq_zero
    · exact div_nonneg (le_of_lt hx0) (le_of_lt (ulp_pos x))
    · rw [hulp, div_le_iff₀ (by positivity)]
      refine le_trans h (le_of_eq ?_)
      rw [show (1 / 2 : ℚ) = (2 : ℚ) ^ (-1 : Int) by norm_num,
        ← zpow_add₀ (by norm_num : (2 : ℚ) ≠ 0)]
      norm_num
  unfold round
  simp only [hk, Int.cast_zero, zero_mul, abs_zero]
  rw [if_neg (not_le.mpr (by positivity))]
  simp [zero, not_lt.mpr (le_of_lt hx0)]

/-- Rounding from its data: the binade `e` of the value and the multiple `k` of
the unit in the last place nearest to it. -/
theorem round_eq_of_nearest (x : ℚ) (e k : Int) (h1 : (2 : ℚ) ^ e ≤ |x|)
    (h2 : |x| < (2 : ℚ) ^ (e + 1)) (he : -1022 ≤ e)
    (hk : |x / (2 : ℚ) ^ (e - 52) - (k : ℚ)| < 1 / 2) (hk0 : k ≠ 0)
    (hmax : |(k : ℚ) * (2 : ℚ) ^ (e - 52)| < (2 : ℚ) ^ (1024 : Int)) :
    round x = finite ((k : ℚ) * (2 : ℚ) ^ (e - 52)) := by
  have hexp := exponent_eq x e h1 h2 he
  have hulp : ulp x = (2 : ℚ) ^ (e - 52) := by
    unfold ulp
    rw [hexp]
  have hr : roundHalfEven (x / ulp x) = k := by
    rw [hulp]
    exact roundHalfEven_eq_of_lt _ k hk
  have hne : (k : ℚ) * (2 : ℚ) ^ (e - 52) ≠ 0 :=
    mul_ne_zero (by exact_mod_cast hk0) (by positivity)
  unfold round
  simp only
  rw [hr, hulp, if_neg (not_le.mpr hmax), if_neg hne]

end Double

/-! ## Arithmetic and comparison of `double` values -/

namespace Double

theorem add_finite (a b : ℚ) : add (finite a) (finite b) = round (a + b) := rfl

theorem mul_finite (a b : ℚ) (ha : a ≠ 0) (hb : b ≠ 0) :
    mul (finite a) (finite b) = round (a * b) := by
  simp [mul, isZero, ha, hb, toRat]

theorem div_finite (a b : ℚ) (ha : a ≠ 0) (hb : b ≠ 0) :
    div (finite a) (finite b) = round (a / b) := by
  simp [div, isZero, ha, hb, toRat]

/-- Multiplication of a positive zero by a value that is not negative. -/
theorem mul_zero_left (b : ℚ) (hb : 0 ≤ b) : mul (finite 0) (finite b) = finite 0 := by
  simp [mul, isZero, signBit, zero, not_lt.mpr hb]

/-- The comparison `x == 0`. -/
theorem eq_zero (x : Double) : eq x (ofInt 0) = x.isZero := by
  cases x <;> simp [eq, ofInt, isZero, toRat]

theorem isZero_iff (x : Double) : x.isZero = true ↔ x = finite 0 ∨ x = negZero := by
  cases x <;> simp [isZero]

/-- The comparison `x < 0`. -/
theorem lt_zero_iff (x : Double) :
    lt x (ofInt 0) = true ↔ x = inf true ∨ ∃ q : ℚ, x = finite q ∧ q < 0 := by
  cases x <;> simp [lt, ofInt, toRat]

theorem lt_zero_finite (q : ℚ) : lt (finite q) (ofInt 0) = decide (q < 0) := by
  simp [lt, ofInt, toRat]

/-! ## The square root -/

/-- The value `sqrtPos` returns: a multiple `n * u` of the unit in the last
place `u` of the binade of the root, with `n` of 53 bits, at a distance of at
most `u / 2` from the root: `(n - 1/2)² u² ≤ q ≤ (n + 1/2)² u²`. -/
theorem sqrtPos_spec (q : ℚ) (hq : 0 < q) :
    ∃ n : Nat, sqrtPos q = finite ((n : ℚ) * (2 : ℚ) ^ (Int.log 4 q - 52)) ∧
      2 ^ 52 ≤ n ∧
      (2 * (n : ℚ) - 1) ^ 2 * ((2 : ℚ) ^ (Int.log 4 q - 52)) ^ 2 ≤ 4 * q ∧
      4 * q ≤ (2 * (n : ℚ) + 1) ^ 2 * ((2 : ℚ) ^ (Int.log 4 q - 52)) ^ 2 := by
  set u : ℚ := (2 : ℚ) ^ (Int.log 4 q - 52) with hu
  have hupos : 0 < u := by positivity
  have huu : u * u = (4 : ℚ) ^ (Int.log 4 q - 52) := by
    rw [hu, ← mul_zpow]
    norm_num
  set w : ℚ := q / (u * u) with hw
  have hwq : q = w * (u * u) := by
    rw [hw]
    field_simp
  -- the quotient `w` lies between `4 ^ 52` and `4 ^ 53`
  have hlo : (4 : ℚ) ^ (Int.log 4 q) ≤ q := by
    exact_mod_cast Int.zpow_log_le_self (b := 4) (by norm_num) hq
  have hhi : q < (4 : ℚ) ^ (Int.log 4 q + 1) := by
    exact_mod_cast Int.lt_zpow_succ_log_self (b := 4) (by norm_num) q
  have hw1 : (4 : ℚ) ^ (52 : Int) ≤ w := by
    rw [hw, le_div_iff₀ (by positivity), huu, ← zpow_add₀ (by norm_num : (4 : ℚ) ≠ 0)]
    refine le_trans (le_of_eq ?_) hlo
    congr 1
    ring
  have hw0 : 0 ≤ w := le_trans (by positivity) hw1
  -- the integer square root of its integer part
  set k : Nat := Nat.sqrt ⌊w⌋₊ with hk
  have hfl : ((⌊w⌋₊ : Nat) : ℚ) ≤ w := Nat.floor_le hw0
  have hfl2 : w < ((⌊w⌋₊ : Nat) : ℚ) + 1 := Nat.lt_floor_add_one w
  have hk1 : ((k : ℚ)) * k ≤ w := by
    have h1 : k * k ≤ ⌊w⌋₊ := Nat.sqrt_le ⌊w⌋₊
    have h2 : ((k * k : Nat) : ℚ) ≤ ((⌊w⌋₊ : Nat) : ℚ) := by exact_mod_cast h1
    push_cast at h2
    linarith
  have hk2 : w < ((k : ℚ) + 1) * ((k : ℚ) + 1) := by
    have h1 : ⌊w⌋₊ < (k + 1) * (k + 1) := Nat.sqrt_lt.mp (Nat.lt_succ_self _)
    have h2 : ⌊w⌋₊ + 1 ≤ (k + 1) * (k + 1) := h1
    have h3 : ((⌊w⌋₊ + 1 : Nat) : ℚ) ≤ (((k + 1) * (k + 1) : Nat) : ℚ) := by exact_mod_cast h2
    push_cast at h3
    linarith
  have hk52 : 2 ^ 52 ≤ k := by
    rw [hk]
    apply Nat.le_sqrt.mpr
    apply Nat.le_floor
    refine le_trans (le_of_eq ?_) hw1
    norm_num
  have hkq : ((2 : ℚ) ^ 52) ≤ (k : ℚ) := by exact_mod_cast hk52
  have hk1q : (1 : ℚ) ≤ (k : ℚ) := le_trans (by norm_num) hkq
  have hsq : ∀ n : ℚ, (2 * n - 1) ^ 2 * u ^ 2 ≤ 4 * q ↔ (n - 1 / 2) * (n - 1 / 2) ≤ w := by
    intro n
    have e1 : (2 * n - 1) ^ 2 * u ^ 2 = (4 * ((n - 1 / 2) * (n - 1 / 2))) * (u * u) := by ring
    have e2 : 4 * q = (4 * w) * (u * u) := by rw [hwq]; ring
    rw [e1, e2, mul_le_mul_right (by positivity : (0 : ℚ) < u * u)]
    constructor <;> intro h <;> linarith
  have hsq2 : ∀ n : ℚ, 4 * q ≤ (2 * n + 1) ^ 2 * u ^ 2 ↔ w ≤ (n + 1 / 2) * (n + 1 / 2) := by
    intro n
    have e1 : (2 * n + 1) ^ 2 * u ^ 2 = (4 * ((n + 1 / 2) * (n + 1 / 2))) * (u * u) := by ring
    have e2 : 4 * q = (4 * w) * (u * u) := by rw [hwq]; ring
    rw [e1, e2, mul_le_mul_right (by positivity : (0 : ℚ) < u * u)]
    constructor <;> intro h <;> linarith
  have hlow : ((k : ℚ) - 1 / 2) * ((k : ℚ) - 1 / 2) ≤ w := by
    have e : ((k : ℚ) - 1 / 2) * ((k : ℚ) - 1 / 2) = (k : ℚ) * k - k + 1 / 4 := by ring
    rw [e]
    linarith
  have hhigh : w ≤ (((k + 1 : Nat) : ℚ) + 1 / 2) * (((k + 1 : Nat) : ℚ) + 1 / 2) := by
    have e : (((k + 1 : Nat) : ℚ) + 1 / 2) * (((k + 1 : Nat) : ℚ) + 1 / 2) =
        ((k : ℚ) + 1) * ((k : ℚ) + 1) + (k : ℚ) + 5 / 4 := by
      push_cast
      ring
    rw [e]
    linarith
  have hmid : (((k + 1 : Nat) : ℚ) - 1 / 2) * (((k + 1 : Nat) : ℚ) - 1 / 2) =
      ((k : ℚ) + 1 / 2) * ((k : ℚ) + 1 / 2) := by
    push_cast
    ring
  have hdef : sqrtPos q = finite (((if w < ((k : ℚ) + 1 / 2) * ((k : ℚ) + 1 / 2) then k
      else if ((k : ℚ) + 1 / 2) * ((k : ℚ) + 1 / 2) < w then k + 1
      else if k % 2 = 0 then k else k + 1 : Nat) : ℚ) * u) := rfl
  rw [hdef]
  by_cases h1 : w < ((k : ℚ) + 1 / 2) * ((k : ℚ) + 1 / 2)
  · rw [if_pos h1]
    exact ⟨k, rfl, hk52, (hsq k).mpr hlow, (hsq2 k).mpr (le_of_lt h1)⟩
  · rw [if_neg h1]
    have hup : (k + 1 : Nat) ≥ 2 ^ 52 := by omega
    have hres : ∀ n : Nat, n = k + 1 →
        ∃ n' : Nat, finite ((n : ℚ) * u) = finite ((n' : ℚ) * u) ∧ 2 ^ 52 ≤ n' ∧
          (2 * (n' : ℚ) - 1) ^ 2 * u ^ 2 ≤ 4 * q ∧ 4 * q ≤ (2 * (n' : ℚ) + 1) ^ 2 * u ^ 2 := by
      intro n hn
      subst hn
      refine ⟨k + 1, rfl, hup, (hsq _).mpr ?_, (hsq2 _).mpr hhigh⟩
      rw [hmid]
      exact not_lt.mp h1
    by_cases h2 : ((k : ℚ) + 1 / 2) * ((k : ℚ) + 1 / 2) < w
    · rw [if_pos h2]
      exact hres (k + 1) rfl
    · rw [if_neg h2]
      have heq : w = ((k : ℚ) + 1 / 2) * ((k : ℚ) + 1 / 2) :=
        le_antisymm (not_lt.mp h2) (not_lt.mp h1)
      by_cases h3 : k % 2 = 0
      · rw [if_pos h3]
        exact ⟨k, rfl, hk52, (hsq k).mpr hlow, (hsq2 k).mpr (le_of_eq heq)⟩
      · rw [if_neg h3]
        exact hres (k + 1) rfl

/-- The square root of the square of a value with a significand `m` of 53 bits
is that value. -/
theorem sqrtPos_sq (m : Nat) (j : Int) (hm1 : 2 ^ 52 ≤ m) (hm2 : m < 2 ^ 53) :
    sqrtPos (((m : ℚ) * (2 : ℚ) ^ j) * ((m : ℚ) * (2 : ℚ) ^ j)) = finite ((m : ℚ) * (2 : ℚ) ^ j) := by
  have hmq1 : ((2 : ℚ) ^ 52) ≤ (m : ℚ) := by exact_mod_cast hm1
  have hmq2 : (m : ℚ) < ((2 : ℚ) ^ 53) := by exact_mod_cast hm2
  have hmpos : (0 : ℚ) < (m : ℚ) := lt_of_lt_of_le (by norm_num) hmq1
  set q : ℚ := ((m : ℚ) * (2 : ℚ) ^ j) * ((m : ℚ) * (2 : ℚ) ^ j) with hq
  have hqpos : 0 < q := by positivity
  have hq4 : q = ((m : ℚ) * (m : ℚ)) * (4 : ℚ) ^ j := by
    rw [hq, show (4 : ℚ) = 2 * 2 by norm_num, mul_zpow]
    ring
  have hlog : Int.log 4 q = j + 52 := by
    apply le_antisymm
    · have h : q < ((4 : Nat) : ℚ) ^ (j + 52 + 1) := by
        rw [hq4, show j + 52 + 1 = 53 + j by ring, zpow_add₀ (by norm_num : ((4 : Nat) : ℚ) ≠ 0)]
        apply mul_lt_mul_of_pos_right _ (by positivity)
        push_cast
        calc (m : ℚ) * m < (2 : ℚ) ^ 53 * (2 : ℚ) ^ 53 :=
              mul_lt_mul'' hmq2 hmq2 (le_of_lt hmpos) (le_of_lt hmpos)
          _ = (4 : ℚ) ^ (53 : Int) := by norm_num
      have := (Int.lt_zpow_iff_log_lt (b := 4) (by norm_num) hqpos).mp h
      omega
    · apply (Int.zpow_le_iff_le_log (b := 4) (by norm_num) hqpos).mp
      rw [hq4, show j + 52 = 52 + j by ring, zpow_add₀ (by norm_num : ((4 : Nat) : ℚ) ≠ 0)]
      apply mul_le_mul_of_nonneg_right _ (by positivity)
      push_cast
      calc (4 : ℚ) ^ (52 : Int) = (2 : ℚ) ^ 52 * (2 : ℚ) ^ 52 := by norm_num
        _ ≤ (m : ℚ) * m := mul_le_mul hmq1 hmq1 (by positivity) (le_of_lt hmpos)
  have hu : (2 : ℚ) ^ (Int.log 4 q - 52) = (2 : ℚ) ^ j := by
    rw [hlog]
    congr 1
    ring
  have hw : q / ((2 : ℚ) ^ j * (2 : ℚ) ^ j) = ((m * m : Nat) : ℚ) := by
    rw [hq]
    push_cast
    field_simp
    ring
  have hk : Nat.sqrt ⌊((m * m : Nat) : ℚ)⌋₊ = m := by
    rw [Nat.floor_natCast, Nat.sqrt_eq]
  have hlt : ((m * m : Nat) : ℚ) < ((m : ℚ) + 1 / 2) * ((m : ℚ) + 1 / 2) := by
    have e : ((m : ℚ) + 1 / 2) * ((m : ℚ) + 1 / 2) = (m : ℚ) * m + m + 1 / 4 := by ring
    rw [e]
    push_cast
    linarith
  unfold sqrtPos
  simp only
  rw [hu, hw, hk, if_pos hlt]

theorem sqrt_finite_pos (q : ℚ) (hq : 0 < q) : sqrt (finite q) = sqrtPos q := by
  simp only [sqrt]
  rw [if_neg (not_lt.mpr (le_of_lt hq)), if_neg (ne_of_gt hq)]

/-- The square root is never negative. -/
theorem sqrt_not_lt_zero (x : Double) : lt (sqrt x) (ofInt 0) = false := by
  cases x with
  | finite q =>
    simp only [sqrt]
    split_ifs with h1 h2
    · rfl
    · simp [lt, ofInt, toRat]
    · have hq : 0 < q := lt_of_le_of_ne (not_lt.mp h1) (Ne.symm h2)
      obtain ⟨n, hn, _⟩ := sqrtPos_spec q hq
      rw [hn, lt_zero_finite]
      simp only [decide_eq_false_iff_not, not_lt]
      positivity
  | negZero => simp [sqrt, lt, ofInt, toRat]
  | inf s =>
    simp only [sqrt]
    split_ifs <;> simp [lt, ofInt, toRat]
  | nan => rfl

end Double

/-! ## Conversion to `int` and the argument check of `fib` and `pascal` -/

theorem castInt_range (x : Double) : INT_MIN ≤ castInt x ∧ castInt x ≤ INT_MAX := by
  cases x with
  | finite q =>
    simp only [castInt]
    split_ifs with h1 h2 h3
    · exact h2
    · exact ⟨le_refl _, by decide⟩
    · exact h3
    · exact ⟨le_refl _, by decide⟩
  | negZero => exact ⟨by decide, by decide⟩
  | inf s => exact ⟨le_refl _, show INT_MIN ≤ INT_MAX by decide⟩
  | nan => exact ⟨le_refl _, show INT_MIN ≤ INT_MAX by decide⟩

theorem castInt_natCast (n : Nat) (h : (n : Int) ≤ INT_MAX) :
    castInt (.finite (n : ℚ)) = (n : Int) := by
  have h0 : (0 : ℚ) ≤ (n : ℚ) := Nat.cast_nonneg n
  have hmin : INT_MIN ≤ (n : Int) := by unfold INT_MIN; omega
  simp [castInt, h0, h, hmin]

/-- The check `n != (int)n || n < 0` on a finite value fails exactly for the
values that are negative, have a fractional part, or exceed the largest `int`. -/
theorem sequence_check_finite (q : ℚ) :
    ((Double.finite q).ne (Double.ofInt (castInt (.finite q))) = true ∨
        (Double.finite q).lt (Double.ofInt 0) = true) ↔
      (q < 0 ∨ Int.fract q ≠ 0 ∨ (INT_MAX : ℚ) < q) := by
  have hne : (Double.finite q).ne (Double.ofInt (castInt (.finite q))) = true ↔
      q ≠ ((castInt (.finite q) : Int) : ℚ) := by
    simp [Double.ne, Double.eq, Double.ofInt, Double.toRat]
  rw [hne, Double.lt_zero_finite, decide_eq_true_iff]
  constructor
  · rintro (h | h)
    · by_contra hcon
      push_neg at hcon
      obtain ⟨h0, hfr, hmax⟩ := hcon
      apply h
      have hfl : ((⌊q⌋ : Int) : ℚ) = q := by
        have := Int.self_sub_floor q
        rw [hfr] at this
        linarith
      have hle : ⌊q⌋ ≤ INT_MAX := by
        have : ((⌊q⌋ : Int) : ℚ) ≤ (INT_MAX : ℚ) := by rw [hfl]; exact hmax
        exact_mod_cast this
      have hge : INT_MIN ≤ ⌊q⌋ := by
        have : (0 : Int) ≤ ⌊q⌋ := Int.floor_nonneg.mpr h0
        unfold INT_MIN
        omega
      simp only [castInt, h0, if_true, hge, hle, and_self]
      exact hfl.symm
    · exact Or.inl h
  · rintro (h | h | h)
    · exact Or.inr h
    · left
      intro heq
      apply h
      rw [heq, Int.fract_intCast]
    · left
      intro heq
      have hle : ((castInt (.finite q) : Int) : ℚ) ≤ (INT_MAX : ℚ) := by
        exact_mod_cast (castInt_range (.finite q)).2
      rw [← heq] at hle
      exact absurd h (not_lt.mpr hle)

/-- The check `n != (int)n || n < 0` fails exactly for a NaN, an infinity, and
the finite values that are negative, have a fractional part, or exceed the
largest `int`. -/
theorem sequence_check_iff (n : Double) :
    (n.ne (Double.ofInt (castInt n)) = true ∨ n.lt (Double.ofInt 0) = true) ↔
      (n = .nan ∨ (∃ s, n = .inf s) ∨
        ∃ q : ℚ, n = .finite q ∧ (q < 0 ∨ Int.fract q ≠ 0 ∨ (INT_MAX : ℚ) < q)) := by
  cases n with
  | finite q =>
    rw [sequence_check_finite]
    simp
  | negZero => simp [Double.ne, Double.eq, Double.lt, Double.ofInt, Double.toRat, castInt]
  | inf s => simp [Double.ne, Double.eq, Double.ofInt]
  | nan => simp [Double.ne, Double.eq]

/-- A value that passes the check is a natural number within `int`, and the
conversion yields that number. -/
theorem sequence_check_pass (n : Double)
    (h : ¬ (n.ne (Double.ofInt (castInt n)) = true ∨ n.lt (Double.ofInt 0) = true)) :
    ∃ k : Nat, (k : Int) ≤ INT_MAX ∧ castInt n = (k : Int) ∧
      (n = .finite (k : ℚ) ∨ (n = .negZero ∧ k = 0)) := by
  rw [sequence_check_iff] at h
  push_neg at h
  obtain ⟨h1, h2, h3⟩ := h
  cases n with
  | finite q =>
    obtain ⟨hq0, hfr, hmax⟩ := h3 q rfl
    have hfl : ((⌊q⌋ : Int) : ℚ) = q := by
      have := Int.self_sub_floor q
      rw [hfr] at this
      linarith
    have hnn : (0 : Int) ≤ ⌊q⌋ := Int.floor_nonneg.mpr hq0
    obtain ⟨k, hk⟩ := Int.eq_ofNat_of_zero_le hnn
    have hqk : q = (k : ℚ) := by
      rw [← hfl, hk]
      simp
    have hkmax : (k : Int) ≤ INT_MAX := by
      have : ((k : Int) : ℚ) ≤ (INT_MAX : ℚ) := by
        rw [show ((k : Int) : ℚ) = (k : ℚ) by simp, ← hqk]
        exact hmax
      exact_mod_cast this
    exact ⟨k, hkmax, by rw [hqk]; exact castInt_natCast k hkmax, Or.inl (by rw [hqk])⟩
  | negZero => exact ⟨0, by decide, rfl, Or.inr ⟨rfl, rfl⟩⟩
  | inf s => exact absurd rfl (h2 s)
  | nan => exact absurd rfl h1

/-- A natural number within `int` passes the check. -/
theorem sequence_check_natCast (k : Nat) (hk : (k : Int) ≤ INT_MAX) :
    ¬ ((Double.finite (k : ℚ)).ne (Double.ofInt (castInt (.finite (k : ℚ)))) = true ∨
      (Double.finite (k : ℚ)).lt (Double.ofInt 0) = true) := by
  rw [sequence_check_finite]
  push_neg
  refine ⟨Nat.cast_nonneg k, ?_, ?_⟩
  · rw [show (k : ℚ) = ((k : Int) : ℚ) by simp, Int.fract_intCast]
  · have : ((k : Int) : ℚ) ≤ (INT_MAX : ℚ) := by exact_mod_cast hk
    simpa using this

/-! ## Literals -/

/-- A literal whose value is representable is converted to it, without a range
error. -/
theorem strtod_exact (d : Decimal) (h : Double.round d.value = .finite d.value) :
    strtod d = (if d.digits = 0 then Double.zero d.neg else .finite d.value, false) := by
  unfold strtod
  split_ifs with h0
  · rfl
  · simp only [h, Double.isInf, Double.toRat]
    simp

theorem Decimal.value_nat (n : Nat) : (Decimal.mk false n 0 0).value = (n : ℚ) := by
  simp [Decimal.value]

theorem Decimal.value_neg_nat (n : Nat) : (Decimal.mk true n 0 0).value = -(n : ℚ) := by
  simp [Decimal.value]

theorem strtod_nat (n : Nat) (hn : n < 2 ^ 53) :
    strtod ⟨false, n, 0, 0⟩ = (.finite (n : ℚ), false) := by
  have hr : Double.round (Decimal.mk false n 0 0).value = .finite (Decimal.mk false n 0 0).value := by
    rw [Decimal.value_nat]
    have := Double.round_intCast (n : Int) (by
      rw [abs_of_nonneg (Int.natCast_nonneg n)]
      exact_mod_cast hn)
    simpa using this
  rw [strtod_exact _ hr, Decimal.value_nat]
  by_cases h0 : n = 0
  · subst h0
    simp [Double.zero]
  · simp [h0]

theorem strtod_neg_nat (n : Nat) (h0 : n ≠ 0) (hn : n < 2 ^ 53) :
    strtod ⟨true, n, 0, 0⟩ = (.finite (-(n : ℚ)), false) := by
  have hr : Double.round (Decimal.mk true n 0 0).value = .finite (Decimal.mk true n 0 0).value := by
    rw [Decimal.value_neg_nat]
    have := Double.round_intCast (-(n : Int)) (by
      rw [abs_neg, abs_of_nonneg (Int.natCast_nonneg n)]
      exact_mod_cast hn)
    simpa using this
  rw [strtod_exact _ hr, Decimal.value_neg_nat]
  simp [h0]

theorem strtod_zero (neg : Bool) (scale : Nat) (exp : Int) :
    strtod ⟨neg, 0, scale, exp⟩ = (Double.zero neg, false) := by
  simp [strtod]

/-- A token that `std::stod` converts is a numeric literal. -/
theorem isNumber_of_stod (t : String) (v : Double) (h : stod t = .ok v) : isNumber t = true := by
  unfold stod at h
  unfold isNumber
  cases hl : readLiteral t with
  | none => rw [hl] at h; cases h
  | some d =>
    rw [hl] at h
    simp only at h ⊢
    by_cases he : (strtod d).2 = true
    · rw [if_pos he] at h; cases h
    · by_cases h0 : d.digits = 0
      · have : strtod d = (Double.zero d.neg, false) := by
          unfold strtod
          rw [if_pos h0]
        rw [this]
        unfold Double.zero
        split_ifs <;> rfl
      · have hinf : (strtod d).1.isInf = false := by
          by_contra hc
          apply he
          have hc' : (strtod d).1.isInf = true := by simpa using hc
          unfold strtod at hc' ⊢
          rw [if_neg h0] at hc' ⊢
          simp only at hc' ⊢
          rw [hc']
          rfl
        rw [hinf]
        rfl

/-- The conversion of a token from the literal read and its value. -/
theorem stod_of_strtod (t : String) (d : Decimal) (v : Double) (h : readLiteral t = some d)
    (hs : strtod d = (v, false)) : stod t = .ok v := by
  unfold stod
  rw [h]
  simp [hs]

theorem stod_nat (t : String) (n : Nat) (h : readLiteral t = some ⟨false, n, 0, 0⟩)
    (hn : n < 2 ^ 53) : stod t = .ok (.finite (n : ℚ)) :=
  stod_of_strtod t _ _ h (strtod_nat n hn)

theorem stod_neg_nat (t : String) (n : Nat) (h : readLiteral t = some ⟨true, n, 0, 0⟩)
    (h0 : n ≠ 0) (hn : n < 2 ^ 53) : stod t = .ok (.finite (-(n : ℚ))) :=
  stod_of_strtod t _ _ h (strtod_neg_nat n h0 hn)

/-- A token is a numeric literal exactly when it reads as a literal whose value
is below the threshold of overflow `2 ^ 1024 - 2 ^ 970`. -/
theorem isNumber_iff (t : String) :
    isNumber t = true ↔
      ∃ d : Decimal, readLiteral t = some d ∧
        |d.value| < (2 : ℚ) ^ (1024 : Int) - (2 : ℚ) ^ (970 : Int) := by
  unfold isNumber
  cases hl : readLiteral t with
  | none => simp
  | some d =>
    simp only [Option.some.injEq, exists_eq_left']
    by_cases h0 : d.digits = 0
    · have hv : d.value = 0 := by simp [Decimal.value, h0]
      have hs : strtod d = (Double.zero d.neg, false) := by
        unfold strtod
        rw [if_pos h0]
      rw [hs, hv]
      have hz : (Double.zero d.neg).isInf = false := by
        unfold Double.zero
        split_ifs <;> rfl
      simp [hz]
    · have hs : (strtod d).1 = Double.round d.value := by
        unfold strtod
        rw [if_neg h0]
      rw [hs]
      have := Double.round_isInf_iff d.value
      constructor
      · intro h
        by_contra hc
        push_neg at hc
        rw [this.mpr hc] at h
        cases h
      · intro h
        cases hb : (Double.round d.value).isInf with
        | false => rfl
        | true => exact absurd (this.mp hb) (not_le.mpr h)

/-- A literal whose value is not zero and at most half the smallest subnormal
is a numeric literal, and `std::stod` throws `std::out_of_range` on it. -/
theorem stod_underflow (t : String) (d : Decimal) (h : readLiteral t = some d)
    (hpos : 0 < d.value) (hsmall : d.value ≤ (2 : ℚ) ^ (-1075 : Int)) :
    isNumber t = true ∧ stod t = .error .OutOfRange := by
  have h0 : d.digits ≠ 0 := by
    intro hd
    have : d.value = 0 := by simp [Decimal.value, hd]
    rw [this] at hpos
    exact lt_irrefl _ hpos
  have hr := Double.round_underflow_pos d.value hpos hsmall
  constructor
  · rw [isNumber_iff]
    refine ⟨d, h, ?_⟩
    rw [abs_of_pos hpos]
    refine lt_of_le_of_lt hsmall ?_
    norm_num
  · unfold stod
    rw [h]
    simp only
    have hflag : (strtod d).2 = true := by
      unfold strtod
      rw [if_neg h0]
      simp only [hr, Double.isInf, Double.toRat, Bool.false_or, Bool.and_eq_true,
        decide_eq_true_eq]
      refine ⟨?_, fun hc => (ne_of_gt hpos) hc.symm⟩
      rw [abs_of_pos hpos]
      refine lt_of_le_of_lt hsmall ?_
      norm_num
    rw [if_pos hflag]

namespace RPNCalculator

/-! ## The tokenizer -/

theorem tokenizeAux_word (w : List Char) (hw : ∀ c ∈ w, isspace c = false) :
    ∀ (cs cur : List Char), tokenizeAux (w ++ cs) cur = tokenizeAux cs (cur ++ w) := by
  induction w with
  | nil => intro cs cur; simp
  | cons c w ih =>
    intro cs cur
    have hc : isspace c = false := hw c (List.mem_cons_self c w)
    have hw' : ∀ d ∈ w, isspace d = false := fun d hd => hw d (List.mem_cons_of_mem c hd)
    rw [List.cons_append, tokenizeAux]
    simp only [hc, Bool.false_eq_true, if_false]
    rw [ih hw']
    simp

theorem tokenize_unwords (tokens : List String) (h : ∀ t ∈ tokens, isWord t = true) :
    tokenize (unwords tokens) = tokens := by
  unfold tokenize
  induction tokens with
  | nil => simp [unwords, tokenizeAux]
  | cons t ts ih =>
    have ht : isWord t = true := h t (List.mem_cons_self t ts)
    simp only [isWord, Bool.and_eq_true, decide_eq_true_eq, List.all_eq_true,
      Bool.not_eq_true'] at ht
    obtain ⟨hne, hall⟩ := ht
    cases ts with
    | nil =>
      have := tokenizeAux_word t.data hall [] []
      simp only [List.append_nil, List.nil_append] at this
      simp [unwords, this, tokenizeAux, hne]
    | cons u us =>
      have ih' := ih (fun x hx => h x (List.mem_cons_of_mem t hx))
      have := tokenizeAux_word t.data hall (' ' :: (unwords (u :: us)).data) []
      simp only [List.nil_append] at this
      have hsp : isspace ' ' = true := by decide
      simp only [unwords, String.data_append, List.append_assoc]
      rw [List.singleton_append, this, tokenizeAux]
      simp only [hsp, if_true, hne, if_false]
      rw [ih']

/-- The tokenizer loop with a token `cur` under way, in terms of the split of the
remaining text at its whitespace characters. -/
theorem tokenizeAux_eq_split (cs : List Char) :
    ∀ cur : List Char, tokenizeAux cs cur =
      (((cs.splitOnP isspace).modifyHead (fun run => cur ++ run)).filter
        (fun run => run ≠ [])).map String.mk := by
  induction cs with
  | nil =>
    intro cur
    by_cases hc : cur = [] <;> simp [tokenizeAux, List.splitOnP_nil, List.modifyHead, hc]
  | cons c cs ih =>
    intro cur
    rw [tokenizeAux, List.splitOnP_cons]
    by_cases hsp : isspace c = true
    · rw [if_pos hsp, if_pos hsp, ih []]
      have hid : (List.splitOnP isspace cs).modifyHead (fun run => [] ++ run)
          = List.splitOnP isspace cs := by
        cases List.splitOnP isspace cs <;> simp [List.modifyHead]
      rw [hid]
      by_cases hc : cur = [] <;> simp [List.modifyHead, hc]
    · rw [if_neg hsp, if_neg hsp, ih (cur ++ [c])]
      cases List.splitOnP isspace cs <;> simp [List.modifyHead]

/-- The tokenizer returns the maximal runs of non-whitespace characters. -/
theorem tokenize_eq_wordRuns (text : String) : tokenize text = wordRuns text := by
  unfold tokenize wordRuns
  rw [tokenizeAux_eq_split]
  cases List.splitOnP isspace text.data <;> simp [List.modifyHead]

theorem tokenizeAux_words (cs : List Char) :
    ∀ cur : List Char, (∀ c ∈ cur, isspace c = false) →
      ∀ t ∈ tokenizeAux cs cur, isWord t = true := by
  induction cs with
  | nil =>
    intro cur hcur t ht
    by_cases hc : cur = []
    · simp [tokenizeAux, hc] at ht
    · simp only [tokenizeAux, hc, if_false, List.mem_singleton] at ht
      subst ht
      simpa [isWord, hc] using hcur
  | cons c cs ih =>
    intro cur hcur t ht
    rw [tokenizeAux] at ht
    by_cases hsp : isspace c = true
    · rw [if_pos hsp] at ht
      by_cases hc : cur = []
      · rw [if_pos hc] at ht
        exact ih [] (by simp) t ht
      · rw [if_neg hc] at ht
        rcases List.mem_cons.mp ht with h | h
        · subst h
          simpa [isWord, hc] using hcur
        · exact ih [] (by simp) t h
    · rw [if_neg hsp] at ht
      refine ih (cur ++ [c]) ?_ t ht
      intro d hd
      rcases List.mem_append.mp hd with h | h
      · exact hcur d h
      · simp only [List.mem_singleton] at h
        subst h
        simpa using hsp

theorem tokenize_words (text : String) : ∀ t ∈ tokenize text, isWord t = true :=
  tokenizeAux_words text.data [] (by simp)

theorem tokenizeAux_blank (cs : List Char) (h : ∀ c ∈ cs, isspace c = true) :
    tokenizeAux cs [] = [] := by
  induction cs with
  | nil => simp [tokenizeAux]
  | cons c cs ih =>
    rw [tokenizeAux, if_pos (h c (List.mem_cons_self c cs))]
    simp only [if_true]
    exact ih (fun d hd => h d (List.mem_cons_of_mem c hd))

/-! ## Basic facts about the state updates -/

@[simp] theorem trace_operands (self : RPNCalculator) (o : Output) :
    (self.trace o).operands = self.operands := by
  unfold trace; split <;> rfl

@[simp] theorem trace_history (self : RPNCalculator) (o : Output) :
    (self.trace o).history = self.history := by
  unfold trace; split <;> rfl

@[simp] theorem trace_debugMode (self : RPNCalculator) (o : Output) :
    (self.trace o).debugMode = self.debugMode := by
  unfold trace; split <;> rfl

@[simp] theorem push_operands (self : RPNCalculator) (v : Double) :
    (self.push v).operands = v :: self.operands := rfl

@[simp] theorem push_history (self : RPNCalculator) (v : Double) :
    (self.push v).history = self.history := rfl

@[simp] theorem push_debugMode (self : RPNCalculator) (v : Double) :
    (self.push v).debugMode = self.debugMode := rfl

/-! ## One token -/

theorem evalToken_number (self : RPNCalculator) (m : Runtime) (t : String) (v : Double)
    (ht : stod t = .ok v) :
    evalToken self m t = .ok () ((self.push v).trace (.pushed v)) := by
  simp [evalToken, isNumber_of_stod t v ht, ht]

/-- A numeric literal that `std::stod` does not convert: the exception of
`std::stod` leaves the loop, with the calculator as it was. -/
theorem evalToken_number_throw (self : RPNCalculator) (m : Runtime) (t : String) (e : RpnError)
    (hn : isNumber t = true) (ht : stod t = .error e) :
    evalToken self m t = .throw e self := by
  simp [evalToken, hn, ht]

theorem evalToken_add (self : RPNCalculator) (m : Runtime) (right left : Double)
    (rest : List Double) (h : self.operands = right :: left :: rest) :
    evalToken self m "+" = .ok () ((push { self with operands := rest } (left.add right)).trace
      (.computed "+" [left, right] (left.add right))) := by
  have hn : isNumber "+" = false := by decide
  have ho : isOperator "+" = true := by decide
  simp [evalToken, hn, ho, handleBasicOperation, h]

theorem evalToken_sub (self : RPNCalculator) (m : Runtime) (right left : Double)
    (rest : List Double) (h : self.operands = right :: left :: rest) :
    evalToken self m "-" = .ok () ((push { self with operands := rest } (left.sub right)).trace
      (.computed "-" [left, right] (left.sub right))) := by
  have hn : isNumber "-" = false := by decide
  have ho : isOperator "-" = true := by decide
  simp [evalToken, hn, ho, handleBasicOperation, h]

theorem evalToken_mul (self : RPNCalculator) (m : Runtime) (right left : Double)
    (rest : List Double) (h : self.operands = right :: left :: rest) :
    evalToken self m "*" = .ok () ((push { self with operands := rest } (left.mul right)).trace
      (.computed "*" [left, right] (left.mul right))) := by
  have hn : isNumber "*" = false := by decide
  have ho : isOperator "*" = true := by decide
  simp [evalToken, hn, ho, handleBasicOperation, h]

theorem evalToken_div (self : RPNCalculator) (m : Runtime) (right left : Double)
    (rest : List Double) (h : self.operands = right :: left :: rest)
    (hr : right.isZero = false) :
    evalToken self m "/" = .ok () ((push { self with operands := rest } (left.div right)).trace
      (.computed "/" [left, right] (left.div right))) := by
  have hn : isNumber "/" = false := by decide
  have ho : isOperator "/" = true := by decide
  simp [evalToken, hn, ho, handleBasicOperation, h, Double.eq_zero, hr]

theorem evalToken_div_zero (self : RPNCalculator) (m : Runtime) (right left : Double)
    (rest : List Double) (h : self.operands = right :: left :: rest)
    (hr : right.isZero = true) :
    evalToken self m "/" = .throw .DivisionByZero { self with operands := rest } := by
  have hn : isNumber "/" = false := by decide
  have ho : isOperator "/" = true := by decide
  simp [evalToken, hn, ho, handleBasicOperation, h, Double.eq_zero, hr]

theorem evalToken_sqrt (self : RPNCalculator) (m : Runtime) (value : Double) (rest : List Double)
    (h : self.operands = value :: rest) (hv : value.lt (Double.ofInt 0) = false) :
    evalToken self m "sqrt" = .ok () ((push { self with operands := rest } value.sqrt).trace
      (.computed "sqrt" [value] value.sqrt)) := by
  have hn : isNumber "sqrt" = false := by decide
  have ho : isOperator "sqrt" = true := by decide
  simp [evalToken, hn, ho, h, hv]

theorem evalToken_sqrt_neg (self : RPNCalculator) (m : Runtime) (value : Double)
    (rest : List Double) (h : self.operands = value :: rest)
    (hv : value.lt (Double.ofInt 0) = true) :
    evalToken self m "sqrt" = .throw .NegativeSquareRoot { self with operands := rest } := by
  have hn : isNumber "sqrt" = false := by decide
  have ho : isOperator "sqrt" = true := by decide
  simp [evalToken, hn, ho, h, hv]

theorem evalToken_sqrt_empty (self : RPNCalculator) (m : Runtime) (h : self.operands = []) :
    evalToken self m "sqrt" = .throw .EmptyStack self := by
  have hn : isNumber "sqrt" = false := by decide
  have ho : isOperator "sqrt" = true := by decide
  simp [evalToken, hn, ho, h]

/-- An operator of arity two on a stack of fewer than two elements. -/
theorem evalToken_binary_short (self : RPNCalculator) (m : Runtime) (op : String)
    (hop : op ∈ ["+", "-", "*", "/", "^"]) (hlen : self.operands.length < 2) :
    evalToken self m op = .throw .InsufficientOperands self := by
  have hcases : self.operands = [] ∨ ∃ x, self.operands = [x] := by
    rcases hs : self.operands with _ | ⟨x, _ | ⟨y, r⟩⟩
    · exact Or.inl rfl
    · exact Or.inr ⟨x, rfl⟩
    · rw [hs] at hlen; simp only [List.length_cons] at hlen; omega
  have h1 : isNumber "+" = false := by decide
  have h2 : isNumber "-" = false := by decide
  have h3 : isNumber "*" = false := by decide
  have h4 : isNumber "/" = false := by decide
  have h5 : isNumber "^" = false := by decide
  simp only [List.mem_cons, List.mem_singleton, List.not_mem_nil, or_false] at hop
  rcases hop with rfl | rfl | rfl | rfl | rfl <;>
    rcases hcases with h | ⟨x, h⟩ <;>
    simp [evalToken, h1, h2, h3, h4, h5, isOperator, handleBasicOperation, h]

theorem BinOp.token_not_number (op : BinOp) : isNumber op.token = false := by
  cases op <;> decide

/-- The operator of a node acts on the values of its two subtrees. -/
theorem evalToken_binop (self : RPNCalculator) (m : Runtime) (op : BinOp) (right left : Double)
    (rest : List Double) (h : self.operands = right :: left :: rest)
    (hdiv : op = .div → right.isZero = false) :
    ∃ s, evalToken self m op.token = .ok () s ∧ s.operands = op.apply left right :: rest ∧
      s.history = self.history ∧ s.debugMode = self.debugMode := by
  cases op
  · exact ⟨_, evalToken_add self m right left rest h, by simp [BinOp.apply], by simp, by simp⟩
  · exact ⟨_, evalToken_sub self m right left rest h, by simp [BinOp.apply], by simp, by simp⟩
  · exact ⟨_, evalToken_mul self m right left rest h, by simp [BinOp.apply], by simp, by simp⟩
  · exact ⟨_, evalToken_div self m right left rest h (hdiv rfl), by simp [BinOp.apply],
      by simp, by simp⟩

theorem evalTokens_cons_ok (self s : RPNCalculator) (m : Runtime) (t : String) (ts : List String)
    (h : evalToken self m t = .ok () s) :
    evalTokens self m (t :: ts) = evalTokens s m ts := by
  simp [evalTokens, h]

theorem evalTokens_cons_throw (self s : RPNCalculator) (m : Runtime) (t : String)
    (ts : List String) (e : RpnError) (h : evalToken self m t = .throw e s) :
    evalTokens self m (t :: ts) = .throw e s := by
  simp [evalTokens, h]

theorem evalTokens_append (m : Runtime) (xs ys : List String) (self : RPNCalculator) :
    evalTokens self m (xs ++ ys) =
      match evalTokens self m xs with
      | .ok _ s => evalTokens s m ys
      | .throw e s => .throw e s
      | .undefined => .undefined := by
  induction xs generalizing self with
  | nil => simp [evalTokens]
  | cons t ts ih =>
    simp only [List.cons_append, evalTokens]
    cases evalToken self m t with
    | ok r s => exact ih s
    | throw e s => rfl
    | undefined => rfl

theorem evaluateExpression_ok (self s : RPNCalculator) (m : Runtime) (expression : String)
    (r : Double) (h : evalTokens self m (tokenize expression) = .ok () s)
    (hs : s.operands = [r]) :
    evaluateExpression self m expression =
      .ok r { s with history := s.history ++ [expression ++ " = " ++ m.to_string r] } := by
  simp [evaluateExpression, h, hs]

theorem evaluateExpression_malformed (self s : RPNCalculator) (m : Runtime)
    (expression : String) (h : evalTokens self m (tokenize expression) = .ok () s)
    (hs : s.operands.length ≠ 1) :
    evaluateExpression self m expression = .throw .MalformedExpression s := by
  simp only [evaluateExpression, h]
  rcases hso : s.operands with _ | ⟨x, _ | ⟨y, r⟩⟩
  · rfl
  · rw [hso] at hs; simp at hs
  · rfl

theorem evaluateExpression_throw (self s : RPNCalculator) (m : Runtime) (expression : String)
    (e : RpnError) (h : evalTokens self m (tokenize expression) = .throw e s) :
    evaluateExpression self m expression = .throw e s := by
  simp [evaluateExpression, h]

end RPNCalculator

/-! ## Loops over an `int` counter -/

/-- The loop rule: when the bound is below `INT_MAX` and the body keeps an
invariant `P` of counter and variables, the loop ends, with the invariant at
`n + 1`. -/
theorem forUpTo_invariant {σ : Type} (n : Int) (body : Int → σ → Option σ)
    (P : Int → σ → Prop) (hn : n < INT_MAX)
    (hstep : ∀ (k : Int) (s : σ), k ≤ n → P k s → ∃ next, body k s = some next ∧ P (k + 1) next) :
    ∀ (d : Nat) (i : Int) (s : σ), i + d = n + 1 → P i s →
      ∃ last, forUpTo n body i s = some last ∧ P (n + 1) last := by
  intro d
  induction d with
  | zero =>
    intro i s hi hP
    have hin : ¬ i ≤ n := by omega
    have hi' : i = n + 1 := by omega
    rw [forUpTo, if_neg hin]
    exact ⟨s, rfl, hi' ▸ hP⟩
  | succ d ih =>
    intro i s hi hP
    have hin : i ≤ n := by omega
    obtain ⟨next, hb, hPn⟩ := hstep i s hin hP
    have hmax : ¬ i = INT_MAX := by omega
    rw [forUpTo, if_pos hin, hb]
    simp only [hmax, if_false]
    exact ih (i + 1) next (by omega) hPn

namespace RPNCalculator

/-! ## The two recurrences -/

/-- The loop of `fibonacci` makes `n - 1` rounds. -/
theorem fibonacci_loop {α : Type} (A : Arith α) (n : Nat) (hn : ((n : Int) + 2) < INT_MAX)
    (s : α × α) :
    forUpTo ((n : Int) + 2) (fun _ ab => some (fibStep A ab)) 2 s =
      some ((fibStep A)^[n + 1] s) := by
  obtain ⟨last, h1, h2⟩ := forUpTo_invariant ((n : Int) + 2) (fun _ ab => some (fibStep A ab))
    (fun k st => ∃ j : Nat, k = (j : Int) + 2 ∧ st = (fibStep A)^[j] s) hn
    (by
      rintro k st hk ⟨j, hj, hst⟩
      refine ⟨fibStep A st, rfl, j + 1, by push_cast; omega, ?_⟩
      rw [hst, Function.iterate_succ_apply'])
    (n + 1) 2 s (by push_cast; ring) ⟨0, by simp, rfl⟩
  obtain ⟨j, hj, hst⟩ := h2
  have hjn : j = n + 1 := by omega
  rw [h1, hst, hjn]

/-- The value of `fibonacci(n)` for an argument from `0` to `INT_MAX - 1`: the
first component after `n` rounds of the loop body from `(0, 1)`. -/
theorem fibonacciIn_eq {α : Type} (A : Arith α) (n : Nat) (hn : (n : Int) < INT_MAX) :
    fibonacciIn A (n : Int) = some (.ok ((fibStep A)^[n] (A.ofInt 0, A.ofInt 1)).1) := by
  unfold fibonacciIn
  rcases n with _ | _ | k
  · simp
  · simp [fibStep]
  · have h1 : ¬ ((k + 1 + 1 : Nat) : Int) < 0 := by omega
    have h2 : ¬ ((k + 1 + 1 : Nat) : Int) = 0 := by omega
    have h3 : ¬ ((k + 1 + 1 : Nat) : Int) = 1 := by omega
    have h4 : ((k + 1 + 1 : Nat) : Int) = (k : Int) + 2 := by push_cast; ring
    rw [if_neg h1, if_neg h2, if_neg h3, h4, fibonacci_loop A k (by omega)]
    simp only
    rw [Function.iterate_succ_apply' (fibStep A) (k + 1)]
    rfl

theorem pascalStep_eq {α : Type} (A : Arith α) (n k : Int) (v : PascalVars α)
    (hk : k ≠ INT_MAX) :
    pascalStep A n k v =
      some { sum := A.add v.sum v.value,
             value := A.div (A.mul v.value (A.ofInt (n - k))) (A.ofInt (k + 1)) } := by
  unfold pascalStep
  rw [if_neg hk]

/-- A negative argument takes the error branch. -/
theorem fibonacciIn_neg {α : Type} (A : Arith α) (n : Int) (hn : n < 0) :
    fibonacciIn A n = some (.error (.InvalidSequenceArgument .fib)) := by
  unfold fibonacciIn
  rw [if_pos hn]

theorem pascalTriangleIn_neg {α : Type} (A : Arith α) (n : Int) (hn : n < 0) :
    pascalTriangleIn A n = some (.error (.InvalidSequenceArgument .pascal)) := by
  unfold pascalTriangleIn
  rw [if_pos hn]

/-- The loop of `pascalTriangle`, in whatever arithmetic: it ends for every
argument from `0` to `INT_MAX - 1`. -/
theorem pascalTriangleIn_returns {α : Type} (A : Arith α) (n : Nat) (hn : (n : Int) < INT_MAX) :
    ∃ r, pascalTriangleIn A (n : Int) = some (.ok r) := by
  have h1 : ¬ (n : Int) < 0 := by omega
  obtain ⟨last, hl, -⟩ := forUpTo_invariant (n : Int) (pascalStep A (n : Int))
    (fun _ _ => True) hn
    (by
      intro k v hk _
      have hmax : ¬ k = INT_MAX := by omega
      exact ⟨_, pascalStep_eq A (n : Int) k v hmax, trivial⟩)
    (n + 1) 0 { sum := A.ofInt 0, value := A.ofInt 1 } (by push_cast; ring) trivial
  unfold pascalTriangleIn
  rw [if_neg h1, hl]
  exact ⟨_, rfl⟩

end RPNCalculator

namespace Double

/-- Multiplication by a positive zero of a value that is not negative. -/
theorem mul_zero_right (a : ℚ) (ha : 0 ≤ a) : mul (finite a) (finite 0) = finite 0 := by
  simp [mul, isZero, signBit, zero, not_lt.mpr ha]

/-- The sum of two natural numbers in `double` arithmetic, when it is below
`2 ^ 53`. -/
theorem add_natCast (a b : Nat) (h : a + b < 2 ^ 53) :
    add (finite (a : ℚ)) (finite (b : ℚ)) = finite ((a + b : Nat) : ℚ) := by
  rw [add_finite]
  have := round_intCast ((a + b : Nat) : Int) (by
    rw [abs_of_nonneg (Int.natCast_nonneg _)]
    exact_mod_cast h)
  push_cast at this ⊢
  exact this

/-- The product of two natural numbers in `double` arithmetic, when it is below
`2 ^ 53`. -/
theorem mul_natCast (a b : Nat) (h : a * b < 2 ^ 53) :
    mul (finite (a : ℚ)) (finite (b : ℚ)) = finite ((a * b : Nat) : ℚ) := by
  by_cases ha : a = 0
  · subst ha
    simp only [Nat.cast_zero, zero_mul]
    exact mul_zero_left _ (Nat.cast_nonneg b)
  by_cases hb : b = 0
  · subst hb
    simp only [Nat.cast_zero, mul_zero]
    exact mul_zero_right _ (Nat.cast_nonneg a)
  rw [mul_finite _ _ (by exact_mod_cast ha) (by exact_mod_cast hb)]
  have := round_intCast ((a * b : Nat) : Int) (by
    rw [abs_of_nonneg (Int.natCast_nonneg _)]
    exact_mod_cast h)
  push_cast at this ⊢
  exact this

end Double

namespace RPNCalculator

theorem isOperator_cases (t : String) (h : isOperator t = true) :
    t = "+" ∨ t = "-" ∨ t = "*" ∨ t = "/" ∨ t = "sqrt" ∨ t = "^" ∨ t = "fib" ∨ t = "pascal" := by
  simpa [isOperator, or_assoc] using h

/-- The return value or exception of a token step, and the stack it leaves,
depend only on the stack it starts from. -/
theorem evalToken_congr (m : Runtime) (t : String) (c1 c2 : RPNCalculator)
    (h : c1.operands = c2.operands) :
    (evalToken c1 m t).outcome = (evalToken c2 m t).outcome ∧
    (evalToken c1 m t).state.map RPNCalculator.operands =
      (evalToken c2 m t).state.map RPNCalculator.operands := by
  by_cases hn : isNumber t = true
  · simp only [evalToken, hn, if_true]
    cases stod t <;> simp [Res.outcome, Res.state, h]
  by_cases ho : isOperator t = true
  swap
  · simp [evalToken, hn, ho, Res.outcome, Res.state, h]
  rcases isOperator_cases t ho with rfl | rfl | rfl | rfl | rfl | rfl | rfl | rfl <;>
    rcases hc : c2.operands with _ | ⟨x, _ | ⟨y, rest⟩⟩ <;> rw [hc] at h <;>
    simp only [evalToken, handleBasicOperation, hn, ho, h, hc] <;>
    simp only [Bool.false_eq_true, if_false, if_true, String.reduceEq] <;>
    (try split_ifs) <;> (try split) <;> simp [Res.outcome, Res.state, h, hc]

/-- A token step leaves the history and the debug flag alone and writes no
batch report. -/
theorem evalToken_frame (m : Runtime) (t : String) (c s : RPNCalculator)
    (hs : (evalToken c m t).state = some s) :
    s.history = c.history ∧ s.debugMode = c.debugMode ∧
    s.cout.filter Output.isReport = c.cout.filter Output.isReport := by
  have htr : ∀ (s : RPNCalculator) (o : Output), o.isReport = false →
      (s.trace o).cout.filter Output.isReport = s.cout.filter Output.isReport := by
    intro s o ho
    unfold trace
    split_ifs <;> simp [ho]
  revert hs
  by_cases hn : isNumber t = true
  · simp only [evalToken, hn, if_true]
    cases stod t <;> simp only [Res.state, Option.some.injEq] <;> rintro rfl <;>
      simp [htr, push, Output.isReport]
  by_cases ho : isOperator t = true
  swap
  · simp only [evalToken, hn, ho, Res.state, Bool.false_eq_true, if_false, Option.some.injEq]
    rintro rfl
    exact ⟨rfl, rfl, rfl⟩
  rcases isOperator_cases t ho with rfl | rfl | rfl | rfl | rfl | rfl | rfl | rfl <;>
    rcases hc : c.operands with _ | ⟨x, _ | ⟨y, rest⟩⟩ <;>
    simp only [evalToken, handleBasicOperation, hn, ho, hc] <;>
    simp only [Bool.false_eq_true, if_false, if_true, String.reduceEq] <;>
    (try split_ifs) <;> (try split) <;>
    simp only [Res.state, Option.some.injEq, reduceCtorEq, false_implies] <;>
    (try rintro rfl) <;> simp [htr, push, Output.isReport]

theorem evalTokens_congr (m : Runtime) (ts : List String) :
    ∀ c1 c2 : RPNCalculator, c1.operands = c2.operands →
      (evalTokens c1 m ts).outcome = (evalTokens c2 m ts).outcome ∧
      (evalTokens c1 m ts).state.map RPNCalculator.operands =
        (evalTokens c2 m ts).state.map RPNCalculator.operands := by
  induction ts with
  | nil => intro c1 c2 h; simp [evalTokens, Res.outcome, Res.state, h]
  | cons t ts ih =>
    intro c1 c2 h
    obtain ⟨ho, hs⟩ := evalToken_congr m t c1 c2 h
    simp only [evalTokens]
    cases h1 : evalToken c1 m t with
    | ok r1 s1 =>
      cases h2 : evalToken c2 m t with
      | ok r2 s2 =>
        rw [h1, h2] at hs
        simp only [Res.state, Option.map_some', Option.some.injEq] at hs
        exact ih s1 s2 hs
      | throw e2 s2 => rw [h1, h2] at ho; simp [Res.outcome] at ho
      | undefined => rw [h1, h2] at ho; simp [Res.outcome] at ho
    | throw e1 s1 =>
      cases h2 : evalToken c2 m t with
      | ok r2 s2 => rw [h1, h2] at ho; simp [Res.outcome] at ho
      | throw e2 s2 =>
        rw [h1, h2] at ho hs
        simp only [Res.outcome, Option.some.injEq, Except.error.injEq] at ho
        simp only [Res.state, Option.map_some', Option.some.injEq] at hs
        simp [Res.outcome, Res.state, ho, hs]
      | undefined => rw [h1, h2] at ho; simp [Res.outcome] at ho
    | undefined =>
      cases h2 : evalToken c2 m t with
      | ok r2 s2 => rw [h1, h2] at ho; simp [Res.outcome] at ho
      | throw e2 s2 => rw [h1, h2] at ho; simp [Res.outcome] at ho
      | undefined => simp [Res.outcome, Res.state]

theorem evalTokens_frame (m : Runtime) (ts : List String) :
    ∀ c s : RPNCalculator, (evalTokens c m ts).state = some s →
      s.history = c.history ∧ s.debugMode = c.debugMode ∧
      s.cout.filter Output.isReport = c.cout.filter Output.isReport := by
  induction ts with
  | nil =>
    intro c s hs
    simp only [evalTokens, Res.state, Option.some.injEq] at hs
    subst hs
    exact ⟨rfl, rfl, rfl⟩
  | cons t ts ih =>
    intro c s hs
    simp only [evalTokens] at hs
    cases h1 : evalToken c m t with
    | ok r1 s1 =>
      rw [h1] at hs
      obtain ⟨hh, hd, hc⟩ := evalToken_frame m t c s1 (by rw [h1]; rfl)
      obtain ⟨ihh, ihd, ihc⟩ := ih s1 s hs
      exact ⟨ihh.trans hh, ihd.trans hd, ihc.trans hc⟩
    | throw e1 s1 =>
      rw [h1] at hs
      simp only [Res.state, Option.some.injEq] at hs
      subst hs
      exact evalToken_frame m t c s1 (by rw [h1]; rfl)
    | undefined =>
      rw [h1] at hs
      simp [Res.state] at hs

/-- What `evaluateExpression` returns or throws, and the stack it leaves, depend
only on the stack it starts from: not on the history, the debug flag or the
output written so far. -/
theorem evaluateExpression_congr (m : Runtime) (expression : String) (c1 c2 : RPNCalculator)
    (h : c1.operands = c2.operands) :
    (evaluateExpression c1 m expression).outcome =
      (evaluateExpression c2 m expression).outcome ∧
    (evaluateExpression c1 m expression).state.map RPNCalculator.operands =
      (evaluateExpression c2 m expression).state.map RPNCalculator.operands := by
  obtain ⟨ho, hs⟩ := evalTokens_congr m (tokenize expression) c1 c2 h
  simp only [evaluateExpression]
  cases h1 : evalTokens c1 m (tokenize expression) with
  | ok r1 s1 =>
    cases h2 : evalTokens c2 m (tokenize expression) with
    | ok r2 s2 =>
      rw [h1, h2] at hs
      simp only [Res.state, Option.map_some', Option.some.injEq] at hs
      rcases hs2 : s2.operands with _ | ⟨x, _ | ⟨y, rest⟩⟩ <;> rw [hs2] at hs <;>
        simp [hs, hs2, Res.outcome, Res.state]
    | throw e2 s2 => rw [h1, h2] at ho; simp [Res.outcome] at ho
    | undefined => rw [h1, h2] at ho; simp [Res.outcome] at ho
  | throw e1 s1 =>
    cases h2 : evalTokens c2 m (tokenize expression) with
    | ok r2 s2 => rw [h1, h2] at ho; simp [Res.outcome] at ho
    | throw e2 s2 =>
      rw [h1, h2] at ho hs
      simp only [Res.outcome, Option.some.injEq, Except.error.injEq] at ho
      simp only [Res.state, Option.map_some', Option.some.injEq] at hs
      simp [Res.outcome, Res.state, ho, hs]
    | undefined => rw [h1, h2] at ho; simp [Res.outcome] at ho
  | undefined =>
    cases h2 : evalTokens c2 m (tokenize expression) with
    | ok r2 s2 => rw [h1, h2] at ho; simp [Res.outcome] at ho
    | throw e2 s2 => rw [h1, h2] at ho; simp [Res.outcome] at ho
    | undefined => simp [Res.outcome, Res.state]

/-- When an expression of the batch throws, the `catch` block does not put the
saved stack back. -/
theorem batchStep_throw (m : Runtime) (c s : RPNCalculator) (i : Nat) (expression : String)
    (e : RpnError) (h : evaluateExpression c.clearStack m expression = .throw e s) :
    ∃ s1, batchStep c m i expression = some s1 ∧ s1.operands = s.operands := by
  simp [batchStep, h]

/-- When an expression of the batch succeeds, the saved stack is put back. -/
theorem batchStep_ok (m : Runtime) (c s : RPNCalculator) (i : Nat) (expression : String)
    (r : Double) (h : evaluateExpression c.clearStack m expression = .ok r s) :
    ∃ s1, batchStep c m i expression = some s1 ∧ s1.operands = c.operands := by
  simp [batchStep, h]

theorem batchLoop_all_succeed (m : Runtime) (c0 : RPNCalculator) (h0 : c0.operands = [])
    (es : List String) (hok : ∀ e ∈ es, ∃ r s, evaluateExpression c0 m e = .ok r s) :
    ∀ (c : RPNCalculator) (i : Nat),
      ∃ s, batchLoop m c i es = some s ∧ s.operands = c.operands := by
  induction es with
  | nil => intro c i; exact ⟨c, rfl, rfl⟩
  | cons e es ih =>
    intro c i
    obtain ⟨r, s, hrs⟩ := hok e (List.mem_cons_self e es)
    have hcongr := (evaluateExpression_congr m e c.clearStack c0 (by simp [clearStack, h0])).1
    rw [hrs] at hcongr
    have hstep : ∃ s1, batchStep c m i e = some s1 ∧ s1.operands = c.operands := by
      cases h1 : evaluateExpression c.clearStack m e with
      | ok r1 s1 => exact batchStep_ok m c s1 i e r1 h1
      | throw e1 s1 => rw [h1] at hcongr; simp [Res.outcome] at hcongr
      | undefined => rw [h1] at hcongr; simp [Res.outcome] at hcongr
    obtain ⟨s1, hs1, ho1⟩ := hstep
    obtain ⟨s2, hs2, ho2⟩ := ih (fun x hx => hok x (List.mem_cons_of_mem e hx)) s1 (i + 1)
    exact ⟨s2, by simp only [batchLoop, hs1]; exact hs2, ho2.trans ho1⟩

/-- A batch in which every expression succeeds by itself on an empty stack
leaves the stack as it was. -/
theorem batchEvaluate_all_succeed (m : Runtime) (self c0 : RPNCalculator)
    (expressions : List String) (h0 : c0.operands = [])
    (hok : ∀ e ∈ expressions, ∃ r s, evaluateExpression c0 m e = .ok r s) :
    ∃ s, batchEvaluate self m expressions = some s ∧ s.operands = self.operands := by
  obtain ⟨s, hs, ho⟩ := batchLoop_all_succeed m c0 h0 expressions hok
    { self with cout := self.cout ++
        [.line ("开始批量计算 " ++ toString expressions.length ++ " 个表达式:"),
         .line "----------------------------------------"] } 0
  exact ⟨{ s with cout := s.cout ++ [.line "----------------------------------------"] },
    by simp only [batchEvaluate, hs], ho⟩

/-! ## Unknown tokens and the shape of a successful step -/

theorem evalToken_unknown (self : RPNCalculator) (m : Runtime) (t : String)
    (hn : isNumber t = false) (ho : isOperator t = false) :
    evalToken self m t = .throw (.UnknownToken t) self := by
  simp [evalToken, hn, ho]

/-- The exceptions of `std::stod`. -/
theorem stod_error (t : String) (e : RpnError) (h : stod t = .error e) :
    e = .InvalidArgument ∨ e = .OutOfRange := by
  unfold stod at h
  split at h
  · cases h; exact Or.inl rfl
  · split_ifs at h
    cases h; exact Or.inr rfl

theorem fibonacci_error (z : Int) (e : RpnError) (h : fibonacci z = some (.error e)) :
    e = .InvalidSequenceArgument .fib ∧ z < 0 := by
  unfold fibonacci fibonacciIn at h
  split_ifs at h with h1 h2 h3
  · cases h
    exact ⟨rfl, h1⟩
  · cases h
  · cases h
  · split at h <;> cases h

theorem pascalTriangle_error (z : Int) (e : RpnError) (h : pascalTriangle z = some (.error e)) :
    e = .InvalidSequenceArgument .pascal ∧ z < 0 := by
  unfold pascalTriangle pascalTriangleIn at h
  split_ifs at h with h1
  · cases h
    exact ⟨rfl, h1⟩
  · split at h <;> cases h

/-- A numeric literal or an operator never raises `UnknownToken`. -/
theorem evalToken_known (self : RPNCalculator) (m : Runtime) (t : String)
    (h : isNumber t = true ∨ isOperator t = true) (t' : String) (s : RPNCalculator) :
    evalToken self m t ≠ .throw (.UnknownToken t') s := by
  by_cases hn : isNumber t = true
  · simp only [evalToken, hn, if_true]
    cases hst : stod t with
    | error e =>
      rcases stod_error t e hst with rfl | rfl <;> simp
    | ok v => simp
  have ho : isOperator t = true := h.resolve_left hn
  rcases isOperator_cases t ho with rfl | rfl | rfl | rfl | rfl | rfl | rfl | rfl <;>
    rcases hc : self.operands with _ | ⟨x, _ | ⟨y, rest⟩⟩ <;>
    simp only [evalToken, handleBasicOperation, hn, ho, hc] <;>
    simp only [Bool.false_eq_true, if_false, if_true, String.reduceEq] <;>
    (try split_ifs) <;> (try split) <;> (try simp)
  all_goals
    rename_i heq
    intro he
    first
      | (have hf := (fibonacci_error _ _ heq).1; rw [he] at hf; cases hf)
      | (have hf := (pascalTriangle_error _ _ heq).1; rw [he] at hf; cases hf)

/-- A successful step is a push of a literal, or a binary operator that
replaces the top two elements by one, or a unary operator that replaces the top
element by one. -/
theorem evalToken_ok_shape (m : Runtime) (self s : RPNCalculator) (t : String)
    (h : evalToken self m t = .ok () s) :
    (isNumber t = true ∧ ∃ v, stod t = .ok v ∧ s.operands = v :: self.operands) ∨
    (isNumber t = false ∧ t ∈ ["+", "-", "*", "/", "^"] ∧
      ∃ (b a : Double) (rest : List Double) (r : Double),
        self.operands = b :: a :: rest ∧ s.operands = r :: rest) ∨
    (isNumber t = false ∧ t ∈ ["sqrt", "fib", "pascal"] ∧
      ∃ (v : Double) (rest : List Double) (r : Double),
        self.operands = v :: rest ∧ s.operands = r :: rest) := by
  by_cases hn : isNumber t = true
  · left
    cases hst : stod t with
    | error e =>
      rw [evalToken_number_throw self m t e hn hst] at h
      cases h
    | ok v =>
      rw [evalToken_number self m t v hst] at h
      cases h
      exact ⟨hn, v, rfl, by simp⟩
  right
  have hn' : isNumber t = false := by simpa using hn
  by_cases ho : isOperator t = true
  swap
  · have ho' : isOperator t = false := by simpa using ho
    rw [evalToken_unknown self m t hn' ho'] at h
    cases h
  rcases isOperator_cases t ho with rfl | rfl | rfl | rfl | rfl | rfl | rfl | rfl <;>
    rcases hc : self.operands with _ | ⟨x, _ | ⟨y, rest⟩⟩ <;>
    simp only [evalToken, handleBasicOperation, hn, ho, hc] at h <;>
    simp only [Bool.false_eq_true, if_false, if_true, String.reduceEq] at h <;>
    (try split_ifs at h) <;> (try split at h) <;> cases h <;> simp [hn']

theorem binary_not_number (t : String) (h : t ∈ ["+", "-", "*", "/", "^"]) :
    isNumber t = false ∧ t ∉ ["sqrt", "fib", "pascal"] := by
  simp only [List.mem_cons, List.mem_singleton, List.not_mem_nil, or_false] at h
  rcases h with rfl | rfl | rfl | rfl | rfl <;> decide

theorem unary_not_number (t : String) (h : t ∈ ["sqrt", "fib", "pascal"]) :
    isNumber t = false ∧ t ∉ ["+", "-", "*", "/", "^"] := by
  simp only [List.mem_cons, List.mem_singleton, List.not_mem_nil, or_false] at h
  rcases h with rfl | rfl | rfl <;> decide

/-! ## The history -/

/-- The history after `evaluateExpression`: one entry more on success, unchanged
on an exception. -/
theorem evaluateExpression_history (m : Runtime) (expression : String) (self : RPNCalculator) :
    (∀ (r : Double) (s : RPNCalculator), evaluateExpression self m expression = .ok r s →
      s.history = self.history ++ [expression ++ " = " ++ m.to_string r]) ∧
    (∀ (e : RpnError) (s : RPNCalculator), evaluateExpression self m expression = .throw e s →
      s.history = self.history) := by
  simp only [evaluateExpression]
  cases h1 : evalTokens self m (tokenize expression) with
  | ok r1 s1 =>
    obtain ⟨hh, _, _⟩ := evalTokens_frame m (tokenize expression) self s1 (by rw [h1]; rfl)
    rcases hs : s1.operands with _ | ⟨x, _ | ⟨y, rest⟩⟩ <;>
      refine ⟨fun r s hrs => ?_, fun e s hes => ?_⟩
    · simp only [hs] at hrs; cases hrs
    · simp only [hs] at hes; cases hes; exact hh
    · simp only [hs] at hrs; cases hrs; simp [hh]
    · simp only [hs] at hes; cases hes
    · simp only [hs] at hrs; cases hrs
    · simp only [hs] at hes; cases hes; exact hh
  | throw e1 s1 =>
    obtain ⟨hh, _, _⟩ := evalTokens_frame m (tokenize expression) self s1 (by rw [h1]; rfl)
    refine ⟨fun r s hrs => ?_, fun e s hes => ?_⟩
    · cases hrs
    · cases hes; exact hh
  | undefined => simp


/-! ## Deeper stacks -/

/-- A step that succeeds on a stack succeeds on every stack that continues it
below, and leaves the continuation in place. -/
theorem evalToken_stack_frame (m : Runtime) (t : String) (c1 c2 s1 : RPNCalculator)
    (base : List Double) (hc : c2.operands = c1.operands ++ base)
    (h : evalToken c1 m t = .ok () s1) :
    ∃ s2, evalToken c2 m t = .ok () s2 ∧ s2.operands = s1.operands ++ base := by
  by_cases hn : isNumber t = true
  · cases hst : stod t with
    | error e =>
      rw [evalToken_number_throw c1 m t e hn hst] at h
      cases h
    | ok v =>
      rw [evalToken_number c1 m t v hst] at h
      cases h
      exact ⟨_, evalToken_number c2 m t v hst, by simp [hc]⟩
  have hn' : isNumber t = false := by simpa using hn
  by_cases ho : isOperator t = true
  swap
  · have ho' : isOperator t = false := by simpa using ho
    rw [evalToken_unknown c1 m t hn' ho'] at h
    cases h
  rcases isOperator_cases t ho with rfl | rfl | rfl | rfl | rfl | rfl | rfl | rfl <;>
    rcases hc1 : c1.operands with _ | ⟨x, _ | ⟨y, rest⟩⟩ <;>
    rw [hc1] at hc <;>
    simp only [List.nil_append, List.cons_append] at hc <;>
    simp only [evalToken, handleBasicOperation, hn, ho, hc1] at h <;>
    simp only [Bool.false_eq_true, if_false, if_true, String.reduceEq] at h <;>
    (try cases h) <;>
    simp only [evalToken, handleBasicOperation, hn, ho, hc] <;>
    simp only [Bool.false_eq_true, if_false, if_true, String.reduceEq] <;>
    (try split_ifs at h ⊢) <;> (try split at h) <;> (try cases h) <;>
    first
      | (rename_i heq; simp [heq])
      | simp

theorem evalTokens_stack_frame (m : Runtime) (ts : List String) :
    ∀ (c1 c2 s1 : RPNCalculator) (base : List Double), c2.operands = c1.operands ++ base →
      evalTokens c1 m ts = .ok () s1 →
      ∃ s2, evalTokens c2 m ts = .ok () s2 ∧ s2.operands = s1.operands ++ base := by
  induction ts with
  | nil =>
    intro c1 c2 s1 base hc h
    simp only [evalTokens] at h
    cases h
    exact ⟨c2, rfl, hc⟩
  | cons t ts ih =>
    intro c1 c2 s1 base hc h
    simp only [evalTokens] at h
    cases h1 : evalToken c1 m t with
    | ok r1 u1 =>
      rw [h1] at h
      obtain ⟨u2, hu2, ho2⟩ := evalToken_stack_frame m t c1 c2 u1 base hc h1
      obtain ⟨s2, hs2, hso⟩ := ih u1 u2 s1 base ho2 h
      exact ⟨s2, by simp only [evalTokens, hu2]; exact hs2, hso⟩
    | throw e1 u1 =>
      rw [h1] at h
      cases h
    | undefined =>
      rw [h1] at h
      cases h

/-- A successful `evaluateExpression` has processed every token and found one
element on the stack. -/
theorem evaluateExpression_ok_inv (m : Runtime) (self s : RPNCalculator) (expression : String)
    (r : Double) (h : evaluateExpression self m expression = .ok r s) :
    ∃ s', evalTokens self m (tokenize expression) = .ok () s' ∧ s'.operands = [r] := by
  simp only [evaluateExpression] at h
  cases h1 : evalTokens self m (tokenize expression) with
  | ok r1 s1 =>
    rw [h1] at h
    rcases hs : s1.operands with _ | ⟨x, _ | ⟨y, rest⟩⟩ <;> simp only [hs] at h <;> cases h
    exact ⟨s1, rfl, hs⟩
  | throw e1 s1 =>
    rw [h1] at h
    cases h
  | undefined =>
    rw [h1] at h
    cases h

/-- An expression that succeeds on an empty stack is malformed on a stack that
is not empty: its result ends up on top of what was there. -/
theorem evaluateExpression_on_deeper_stack (m : Runtime) (c0 self s0 : RPNCalculator)
    (expression : String) (r : Double) (h0 : c0.operands = []) (hne : self.operands ≠ [])
    (h : evaluateExpression c0 m expression = .ok r s0) :
    ∃ s, evaluateExpression self m expression = .throw .MalformedExpression s ∧
      s.operands = r :: self.operands := by
  obtain ⟨s', hs', ho'⟩ := evaluateExpression_ok_inv m c0 s0 expression r h
  obtain ⟨s2, hs2, ho2⟩ := evalTokens_stack_frame m (tokenize expression) c0 self s'
    self.operands (by simp [h0]) hs'
  rw [ho'] at ho2
  refine ⟨s2, evaluateExpression_malformed self s2 m expression hs2 ?_, ho2⟩
  rw [ho2]
  cases hso : self.operands with
  | nil => exact absurd hso hne
  | cons x xs => simp

/-! ## The debug flag -/

theorem trace_quiet (self : RPNCalculator) (o : Output) (h : self.debugMode = false) :
    self.trace o = self := by
  simp [trace, h]

theorem trace_cout_prefix (self : RPNCalculator) (o : Output) :
    self.cout <+: (self.trace o).cout := by
  unfold trace
  split_ifs
  · exact List.prefix_append _ _
  · exact List.prefix_refl _

/-- Without the debug flag a token step writes nothing; with it, what was
written before stays in front. -/
theorem evalToken_cout (m : Runtime) (t : String) (c s : RPNCalculator)
    (hs : (evalToken c m t).state = some s) :
    (c.debugMode = false → s.cout = c.cout) ∧ c.cout <+: s.cout := by
  have hq : ∀ (s : RPNCalculator) (o : Output), s.debugMode = false →
      (s.trace o).cout = s.cout := fun s o h => by rw [trace_quiet s o h]
  have hp : ∀ (s : RPNCalculator) (o : Output), s.cout = c.cout →
      c.cout <+: (s.trace o).cout := by
    intro s o hs
    rw [← hs]
    exact trace_cout_prefix s o
  revert hs
  by_cases hn : isNumber t = true
  · cases hst : stod t with
    | error e =>
      rw [evalToken_number_throw c m t e hn hst]
      simp only [Res.state, Option.some.injEq]
      rintro rfl
      exact ⟨fun _ => rfl, List.prefix_refl _⟩
    | ok v =>
      rw [evalToken_number c m t v hst]
      simp only [Res.state, Option.some.injEq]
      rintro rfl
      exact ⟨fun hd => by simp [hq, hd, push], hp _ _ rfl⟩
  have hn' : isNumber t = false := by simpa using hn
  by_cases ho : isOperator t = true
  swap
  · have ho' : isOperator t = false := by simpa using ho
    rw [evalToken_unknown c m t hn' ho']
    simp only [Res.state, Option.some.injEq]
    rintro rfl
    exact ⟨fun _ => rfl, List.prefix_refl _⟩
  rcases isOperator_cases t ho with rfl | rfl | rfl | rfl | rfl | rfl | rfl | rfl <;>
    rcases hc : c.operands with _ | ⟨x, _ | ⟨y, rest⟩⟩ <;>
    simp only [evalToken, handleBasicOperation, hn, ho, hc] <;>
    simp only [Bool.false_eq_true, if_false, if_true, String.reduceEq] <;>
    (try split_ifs) <;> (try split) <;>
    simp only [Res.state, Option.some.injEq, reduceCtorEq, false_implies] <;>
    (try rintro rfl) <;>
    first
      | exact ⟨fun _ => rfl, List.prefix_refl _⟩
      | exact ⟨fun hd => by simp [hq, hd, push], hp _ _ rfl⟩

theorem evalTokens_cout (m : Runtime) (ts : List String) :
    ∀ c s : RPNCalculator, (evalTokens c m ts).state = some s →
      (c.debugMode = false → s.cout = c.cout) ∧ c.cout <+: s.cout := by
  induction ts with
  | nil =>
    intro c s hs
    simp only [evalTokens, Res.state, Option.some.injEq] at hs
    subst hs
    exact ⟨fun _ => rfl, List.prefix_refl _⟩
  | cons t ts ih =>
    intro c s hs
    simp only [evalTokens] at hs
    cases h1 : evalToken c m t with
    | ok r1 s1 =>
      rw [h1] at hs
      obtain ⟨hq, hp⟩ := evalToken_cout m t c s1 (by rw [h1]; rfl)
      obtain ⟨_, hd, _⟩ := evalToken_frame m t c s1 (by rw [h1]; rfl)
      obtain ⟨ihq, ihp⟩ := ih s1 s hs
      exact ⟨fun h => (ihq (hd.trans h)).trans (hq h), hp.trans ihp⟩
    | throw e1 s1 =>
      rw [h1] at hs
      simp only [Res.state, Option.some.injEq] at hs
      subst hs
      exact evalToken_cout m t c s1 (by rw [h1]; rfl)
    | undefined =>
      rw [h1] at hs
      simp [Res.state] at hs

theorem evaluateExpression_cout (m : Runtime) (expression : String) (c s : RPNCalculator)
    (hs : (evaluateExpression c m expression).state = some s) :
    (c.debugMode = false → s.cout = c.cout) ∧ c.cout <+: s.cout := by
  simp only [evaluateExpression] at hs
  cases h1 : evalTokens c m (tokenize expression) with
  | ok r1 s1 =>
    obtain ⟨hq, hp⟩ := evalTokens_cout m (tokenize expression) c s1 (by rw [h1]; rfl)
    rw [h1] at hs
    rcases hso : s1.operands with _ | ⟨x, _ | ⟨y, rest⟩⟩ <;>
      simp only [hso, Res.state, Option.some.injEq] at hs <;> subst hs <;> exact ⟨hq, hp⟩
  | throw e1 s1 =>
    obtain ⟨hq, hp⟩ := evalTokens_cout m (tokenize expression) c s1 (by rw [h1]; rfl)
    rw [h1] at hs
    simp only [Res.state, Option.some.injEq] at hs
    subst hs
    exact ⟨hq, hp⟩
  | undefined =>
    rw [h1] at hs
    simp [Res.state] at hs

/-- With equal stacks and equal histories, two evaluations end with equal
histories. -/
theorem evaluateExpression_history_congr (m : Runtime) (expression : String)
    (c1 c2 : RPNCalculator) (ho : c1.operands = c2.operands) (hh : c1.history = c2.history) :
    (evaluateExpression c1 m expression).state.map RPNCalculator.history =
      (evaluateExpression c2 m expression).state.map RPNCalculator.history := by
  have hout := (evaluateExpression_congr m expression c1 c2 ho).1
  obtain ⟨hok1, hth1⟩ := evaluateExpression_history m expression c1
  obtain ⟨hok2, hth2⟩ := evaluateExpression_history m expression c2
  cases h1 : evaluateExpression c1 m expression with
  | ok r1 s1 =>
    cases h2 : evaluateExpression c2 m expression with
    | ok r2 s2 =>
      rw [h1, h2] at hout
      simp only [Res.outcome, Option.some.injEq, Except.ok.injEq] at hout
      simp only [Res.state, Option.map_some']
      rw [hok1 r1 s1 h1, hok2 r2 s2 h2, hh, hout]
    | throw e2 s2 => rw [h1, h2] at hout; simp [Res.outcome] at hout
    | undefined => rw [h1, h2] at hout; simp [Res.outcome] at hout
  | throw e1 s1 =>
    cases h2 : evaluateExpression c2 m expression with
    | ok r2 s2 => rw [h1, h2] at hout; simp [Res.outcome] at hout
    | throw e2 s2 =>
      simp only [Res.state, Option.map_some']
      rw [hth1 e1 s1 h1, hth2 e2 s2 h2, hh]
    | undefined => rw [h1, h2] at hout; simp [Res.outcome] at hout
  | undefined =>
    cases h2 : evaluateExpression c2 m expression with
    | ok r2 s2 => rw [h1, h2] at hout; simp [Res.outcome] at hout
    | throw e2 s2 => rw [h1, h2] at hout; simp [Res.outcome] at hout
    | undefined => rfl

/-! ## The defensive branches -/

/-- The value of the unassigned `result` has no influence on a token step. -/
theorem evalToken_indeterminate (m : Runtime) (x : Double) (t : String) (c : RPNCalculator) :
    evalToken c { m with indeterminate := x } t = evalToken c m t := by
  by_cases hn : isNumber t = true
  · simp [evalToken, hn]
  by_cases ho : isOperator t = true
  swap
  · simp [evalToken, hn, ho]
  rcases isOperator_cases t ho with rfl | rfl | rfl | rfl | rfl | rfl | rfl | rfl <;>
    rcases hc : c.operands with _ | ⟨x, _ | ⟨y, rest⟩⟩ <;>
    simp only [evalToken, handleBasicOperation, hn, ho, hc] <;>
    simp only [Bool.false_eq_true, if_false, if_true, String.reduceEq]

theorem evalTokens_indeterminate (m : Runtime) (x : Double) (ts : List String) :
    ∀ c : RPNCalculator, evalTokens c { m with indeterminate := x } ts = evalTokens c m ts := by
  induction ts with
  | nil => intro c; rfl
  | cons t ts ih =>
    intro c
    simp only [evalTokens, evalToken_indeterminate]
    cases evalToken c m t with
    | ok r s => exact ih s
    | throw e s => rfl
    | undefined => rfl

theorem evaluateExpression_indeterminate (m : Runtime) (x : Double) (expression : String)
    (c : RPNCalculator) :
    evaluateExpression c { m with indeterminate := x } expression =
      evaluateExpression c m expression := by
  simp only [evaluateExpression, evalTokens_indeterminate]

/-- The token loop hands a token to `handleBasicOperation` only in its last
branch, and a token that gets there is one of `+ - * /`. -/
theorem handleBasicOperation_call (m : Runtime) (c : RPNCalculator) (t : String)
    (hn : isNumber t = false) (ho : isOperator t = true) (h1 : t ≠ "sqrt") (h2 : t ≠ "^")
    (h3 : t ≠ "fib") (h4 : t ≠ "pascal") :
    evalToken c m t = handleBasicOperation c m t ∧ t ∈ ["+", "-", "*", "/"] := by
  constructor
  · simp [evalToken, hn, ho, h1, h2, h3, h4]
  · rcases isOperator_cases t ho with h | h | h | h | h | h | h | h
    · simp [h]
    · simp [h]
    · simp [h]
    · simp [h]
    · exact absurd h h1
    · exact absurd h h2
    · exact absurd h h3
    · exact absurd h h4

end RPNCalculator

/-! ## Small numbers -/

namespace Double

theorem round_nat (n : Nat) (h : n < 2 ^ 53) : round (n : ℚ) = finite (n : ℚ) := by
  have := round_intCast (n : Int) (by
    rw [abs_of_nonneg (Int.natCast_nonneg _)]
    exact_mod_cast h)
  simpa using this

theorem round_neg_nat (n : Nat) (h : n < 2 ^ 53) : round (-(n : ℚ)) = finite (-(n : ℚ)) := by
  have := round_intCast (-(n : Int)) (by
    rw [abs_neg, abs_of_nonneg (Int.natCast_nonneg _)]
    exact_mod_cast h)
  simpa using this

theorem sqrt_sixteen : sqrt (finite 16) = finite 4 := by
  rw [sqrt_finite_pos 16 (by norm_num)]
  have h := sqrtPos_sq 4503599627370496 (-50) (by norm_num) (by norm_num)
  have h4 : ((4503599627370496 : Nat) : ℚ) * (2 : ℚ) ^ (-50 : Int) = 4 := by
    norm_num [zpow_neg]
  rw [h4] at h
  norm_num at h
  exact h

end Double

/-! ## Literals -/

theorem stod_five : stod "5" = .ok (.finite 5) := by
  simpa using stod_nat "5" 5 (by decide) (by norm_num)

theorem stod_two : stod "2" = .ok (.finite 2) := by
  simpa using stod_nat "2" 2 (by decide) (by norm_num)

theorem stod_three : stod "3" = .ok (.finite 3) := by
  simpa using stod_nat "3" 3 (by decide) (by norm_num)

theorem stod_one : stod "1" = .ok (.finite 1) := by
  simpa using stod_nat "1" 1 (by decide) (by norm_num)

theorem stod_zero : stod "0" = .ok (.finite 0) := by
  simpa using stod_nat "0" 0 (by decide) (by norm_num)

theorem stod_four : stod "4" = .ok (.finite 4) := by
  simpa using stod_nat "4" 4 (by decide) (by norm_num)

theorem stod_seven : stod "7" = .ok (.finite 7) := by
  simpa using stod_nat "7" 7 (by decide) (by norm_num)

theorem stod_ten : stod "10" = .ok (.finite 10) := by
  simpa using stod_nat "10" 10 (by decide) (by norm_num)

theorem stod_sixteen : stod "16" = .ok (.finite 16) := by
  simpa using stod_nat "16" 16 (by decide) (by norm_num)

theorem stod_minus_four : stod "-4" = .ok (.finite (-4)) := by
  simpa using stod_neg_nat "-4" 4 (by decide) (by norm_num) (by norm_num)

/-- A literal too small for a `double`: `isNumber` accepts it and `std::stod`
throws `std::out_of_range`. -/
theorem stod_tiny : isNumber "1e-400" = true ∧ stod "1e-400" = .error .OutOfRange := by
  have hl : readLiteral "1e-400" = some ⟨false, 1, 0, -400⟩ := by decide
  apply stod_underflow _ _ hl
  · norm_num [Decimal.value]
  · norm_num [Decimal.value, show Int.toNat 400 = 400 from rfl]

/-- A literal too large for a `double`: the extraction fails. -/
theorem isNumber_huge : isNumber "1e999" = false := by
  have hl : readLiteral "1e999" = some ⟨false, 1, 0, 999⟩ := by decide
  rw [Bool.eq_false_iff, Ne, isNumber_iff, hl]
  simp only [Option.some.injEq, exists_eq_left']
  norm_num [Decimal.value, show Int.toNat 999 = 999 from rfl]

namespace RPNCalculator

/-! ## The argument check of `fib` and `pascal` -/

/-- Both functions return for every argument from `0` to `INT_MAX - 1`. -/
theorem fibonacci_returns (n : Nat) (hn : (n : Int) < INT_MAX) :
    ∃ r, fibonacci (n : Int) = some (.ok r) :=
  ⟨_, fibonacciIn_eq Arith.double n hn⟩

theorem pascalTriangle_returns (n : Nat) (hn : (n : Int) < INT_MAX) :
    ∃ r, pascalTriangle (n : Int) = some (.ok r) :=
  pascalTriangleIn_returns Arith.double n hn

/-- Processing the post-order sequence of a tree that has a value pushes that
value. -/
theorem evalTokens_postorder (m : Runtime) (e : ExprTree) :
    ∀ (v : Double), e.value = some v → ∀ self : RPNCalculator,
      ∃ s, evalTokens self m e.postorder = .ok () s ∧
        s.operands = v :: self.operands ∧ s.history = self.history ∧
        s.debugMode = self.debugMode := by
  induction e with
  | lit token =>
    intro v hv self
    simp only [ExprTree.value] at hv
    split_ifs at hv with h
    cases hst : stod token with
    | error err => rw [hst] at hv; cases hv
    | ok w =>
      rw [hst] at hv
      cases hv
      refine ⟨(self.push v).trace (.pushed v), ?_, ?_, ?_, ?_⟩
      · simp [ExprTree.postorder, evalTokens, evalToken_number self m token v hst]
      · simp
      · simp
      · simp
  | node op left right ihl ihr =>
    intro v hv self
    simp only [ExprTree.value] at hv
    cases hl : left.value with
    | none => rw [hl] at hv; cases hv
    | some a =>
      cases hr : right.value with
      | none => rw [hl, hr] at hv; cases hv
      | some b =>
        rw [hl, hr] at hv
        simp only at hv
        split_ifs at hv with hdiv
        cases hv
        obtain ⟨s1, h1, ho1, hh1, hd1⟩ := ihl a hl self
        obtain ⟨s2, h2, ho2, hh2, hd2⟩ := ihr b hr s1
        have hdiv' : op = .div → b.isZero = false := by
          intro hop
          by_contra hz
          exact hdiv ⟨hop, by simpa using hz⟩
        obtain ⟨s3, h3, ho3, hh3, hd3⟩ :=
          evalToken_binop s2 m op b a self.operands (by rw [ho2, ho1]) hdiv'
        refine ⟨s3, ?_, ho3, ?_, ?_⟩
        · simp only [ExprTree.postorder, evalTokens_append, h1, h2]
          simp [evalTokens, h3]
        · rw [hh3, hh2, hh1]
        · rw [hd3, hd2, hd1]

theorem evaluateExpression_abc (m : Runtime) (c : RPNCalculator) :
    evaluateExpression c m "abc" = .throw (.UnknownToken "abc") c := by
  have hn : isNumber "abc" = false := by decide
  have ho : isOperator "abc" = false := by decide
  apply evaluateExpression_throw
  rw [show tokenize "abc" = ["abc"] by decide]
  simp [evalTokens, evalToken, hn, ho]

theorem evaluateExpression_one (m : Runtime) (c : RPNCalculator) (h : c.operands = []) :
    ∃ s, evaluateExpression c m "1" = .ok (.finite 1) s := by
  have key : evalTokens c m (tokenize "1") = .ok ()
      ((c.push (.finite 1)).trace (.pushed (.finite 1))) := by
    rw [show tokenize "1" = ["1"] by decide,
      evalTokens_cons_ok _ _ m "1" _ (evalToken_number c m "1" _ stod_one)]
    rfl
  exact ⟨_, evaluateExpression_ok c _ m "1" (.finite 1) key (by simp [h])⟩

/-- The value of the tree `(5 + 2) * 3`. -/
theorem demo_tree_value :
    (ExprTree.node .mul (.node .add (.lit "5") (.lit "2")) (.lit "3")).value =
      some (.finite 21) := by
  have w5 : (isWord "5" && isNumber "5") = true := by
    rw [isNumber_of_stod _ _ stod_five]; decide
  have w2 : (isWord "2" && isNumber "2") = true := by
    rw [isNumber_of_stod _ _ stod_two]; decide
  have w3 : (isWord "3" && isNumber "3") = true := by
    rw [isNumber_of_stod _ _ stod_three]; decide
  have hadd : Double.add (.finite 5) (.finite 2) = .finite 7 := by
    have := Double.add_natCast 5 2 (by norm_num)
    simpa using this
  have hmul : Double.mul (.finite 7) (.finite 3) = .finite 21 := by
    have := Double.mul_natCast 7 3 (by norm_num)
    simpa using this
  simp [ExprTree.value, w5, w2, w3, stod_five, stod_two, stod_three, BinOp.apply, hadd, hmul]

theorem evaluateExpression_demo_first (m : Runtime) (c : RPNCalculator) (h0 : c.operands = []) :
    ∃ s, evaluateExpression c m "5 2 + 3 *" = .ok (.finite 21) s ∧
      s.operands = [.finite 21] := by
  obtain ⟨s, hs, ho, _, _⟩ := evalTokens_postorder m _ _ demo_tree_value c
  rw [h0] at ho
  have htok : tokenize "5 2 + 3 *" =
      (ExprTree.node .mul (.node .add (.lit "5") (.lit "2")) (.lit "3")).postorder := by decide
  exact ⟨_, evaluateExpression_ok c s m "5 2 + 3 *" _ (by rw [htok]; exact hs) ho, ho⟩

theorem evaluateExpression_demo_second (m : Runtime) (c : RPNCalculator)
    (h0 : c.operands = []) :
    ∃ s, evaluateExpression c m "16 sqrt" = .ok (.finite 4) s ∧ s.operands = [.finite 4] := by
  have key : evalTokens c m (tokenize "16 sqrt") = .ok ()
      ((push { (c.push (.finite 16)).trace (.pushed (.finite 16)) with operands := [] }
        (Double.finite 16).sqrt).trace
        (.computed "sqrt" [.finite 16] (Double.finite 16).sqrt)) := by
    rw [show tokenize "16 sqrt" = ["16", "sqrt"] by decide,
      evalTokens_cons_ok _ _ m "16" _ (evalToken_number c m "16" _ stod_sixteen),
      evalTokens_cons_ok _ _ m "sqrt" _
        (evalToken_sqrt _ m (.finite 16) [] (by simp [h0])
          (by rw [Double.lt_zero_finite]; simp))]
    rfl
  rw [Double.sqrt_sixteen] at key
  exact ⟨_, evaluateExpression_ok c _ m "16 sqrt" _ key (by simp), by simp⟩

end RPNCalculator

/-! ## Rounding at work -/

namespace Double

theorem one_div_two : div (finite 1) (finite 2) = finite (1 / 2) := by
  rw [div_finite 1 2 (by norm_num) (by norm_num)]
  exact round_of_representable (1 / 2) 1 (-1) (by norm_num) (by norm_num) (by norm_num)
    (by norm_num [zpow_neg])

theorem three_add_four : add (finite 3) (finite 4) = finite 7 := by
  have := add_natCast 3 4 (by norm_num)
  norm_num at this
  exact this

/-- The square root of `2` in `double` arithmetic: `6369051672525773 / 2 ^ 52`. -/
theorem sqrt_two :
    sqrt (finite 2) = finite (6369051672525773 * (2 : ℚ) ^ (-52 : Int)) := by
  rw [sqrt_finite_pos 2 (by norm_num)]
  obtain ⟨n, hn, -, hlow, hhigh⟩ := sqrtPos_spec 2 (by norm_num)
  have hlog : Int.log 4 (2 : ℚ) = 0 := by
    have h := @Int.log_natCast ℚ _ _ 4 2
    have h2 : Nat.log 4 2 = 0 := Nat.log_of_lt (by norm_num)
    rw [h2] at h
    exact_mod_cast h
  rw [hlog] at hn hlow hhigh
  have hu : ((2 : ℚ) ^ ((0 : Int) - 52)) ^ 2 = 1 / 2 ^ 104 := by norm_num [zpow_neg]
  rw [hu] at hlow hhigh
  have hlow' : (2 * (n : ℚ) - 1) ^ 2 ≤ 2 ^ 107 := by
    have := mul_le_mul_of_nonneg_right hlow (by positivity : (0 : ℚ) ≤ 2 ^ 104)
    norm_num at this ⊢
    linarith
  have hhigh' : (2 : ℚ) ^ 107 ≤ (2 * (n : ℚ) + 1) ^ 2 := by
    have := mul_le_mul_of_nonneg_right hhigh (by positivity : (0 : ℚ) ≤ 2 ^ 104)
    norm_num at this ⊢
    linarith
  have hlowZ : (2 * (n : Int) - 1) ^ 2 ≤ 2 ^ 107 := by exact_mod_cast hlow'
  have hhighN : 2 ^ 107 ≤ (2 * n + 1) ^ 2 := by exact_mod_cast hhigh'
  have hN : n = 6369051672525773 := by
    rcases Nat.lt_trichotomy n 6369051672525773 with h | h | h
    · exfalso
      have h1 : 2 * n + 1 ≤ 12738103345051545 := by omega
      have h2 : (2 * n + 1) ^ 2 ≤ 12738103345051545 ^ 2 := Nat.pow_le_pow_left h1 2
      norm_num at h2 hhighN
      omega
    · exact h
    · exfalso
      have h1 : (12738103345051547 : Int) ≤ 2 * (n : Int) - 1 := by omega
      have h2 : (12738103345051547 : Int) ^ 2 ≤ (2 * (n : Int) - 1) ^ 2 :=
        pow_le_pow_left₀ (by norm_num) h1 2
      norm_num at h2 hlowZ
      omega
  rw [hn, hN]
  norm_num

/-- The square of the square root of `2`, in `double` arithmetic: the `double`
next above `2`. -/
theorem sqrt_two_squared :
    mul (sqrt (finite 2)) (sqrt (finite 2)) =
      finite (4503599627370497 * (2 : ℚ) ^ (-51 : Int)) := by
  rw [sqrt_two, mul_finite _ _ (by norm_num [zpow_neg]) (by norm_num [zpow_neg])]
  have hr := round_eq_of_nearest
    (6369051672525773 * (2 : ℚ) ^ (-52 : Int) * (6369051672525773 * (2 : ℚ) ^ (-52 : Int)))
    1 4503599627370497
    (by rw [abs_of_pos (by norm_num [zpow_neg])]; norm_num [zpow_neg])
    (by rw [abs_of_pos (by norm_num [zpow_neg])]; norm_num [zpow_neg])
    (by norm_num) (by norm_num [zpow_neg, abs_lt]) (by norm_num)
    (by norm_num [zpow_neg, abs_lt])
  rw [hr]
  norm_num

end Double

namespace RPNCalculator

/-- C3: once every token has been processed without an exception, leaving state
`s`, `evaluateExpression` succeeds exactly when the stack of `s` holds one
element; it then returns that element and leaves it on the stack, and otherwise
throws `MalformedExpression` in state `s`.  On an empty stack `"3 4"` and the
empty expression both throw `MalformedExpression`. -/
theorem end_of_expression_check (m : Runtime) (self : RPNCalculator) :
    (∀ (expression : String) (s : RPNCalculator),
      evalTokens self m (tokenize expression) = .ok () s →
      ((∃ r s', evaluateExpression self m expression = .ok r s') ↔ s.operands.length = 1) ∧
      (∀ r, s.operands = [r] →
        ∃ s', evaluateExpression self m expression = .ok r s' ∧ s'.operands = [r]) ∧
      (s.operands.length ≠ 1 →
        evaluateExpression self m expression = .throw .MalformedExpression s)) ∧
    (self.operands = [] →
      (∃ s, evaluateExpression self m "3 4" = .throw .MalformedExpression s ∧
        s.operands = [.finite 4, .finite 3]) ∧
      (∃ s, evaluateExpression self m "" = .throw .MalformedExpression s ∧
        s.operands = [])) := by
  constructor
  · intro expression s h
    refine ⟨⟨?_, ?_⟩, ?_, ?_⟩
    · rintro ⟨r, s', hr⟩
      by_contra hlen
      rw [evaluateExpression_malformed self s m expression h hlen] at hr
      cases hr
    · intro hlen
      obtain ⟨r, hr⟩ := List.length_eq_one.mp hlen
      exact ⟨r, _, evaluateExpression_ok self s m expression r h hr⟩
    · intro r hr
      exact ⟨_, evaluateExpression_ok self s m expression r h hr, hr⟩
    · exact evaluateExpression_malformed self s m expression h
  · intro h0
    constructor
    · have key : evalTokens self m (tokenize "3 4") = .ok ()
          (((self.push (.finite 3)).trace (.pushed (.finite 3))).push (.finite 4) |>.trace
            (.pushed (.finite 4))) := by
        rw [show tokenize "3 4" = ["3", "4"] by decide,
          evalTokens_cons_ok _ _ m "3" _ (evalToken_number self m "3" _ stod_three),
          evalTokens_cons_ok _ _ m "4" _ (evalToken_number _ m "4" _ stod_four)]
        rfl
      exact ⟨_, evaluateExpression_malformed self _ m "3 4" key (by simp [h0]), by simp [h0]⟩
    · refine ⟨self, evaluateExpression_malformed self self m "" ?_ ?_, h0⟩
      · rw [show tokenize "" = [] by decide]; rfl
      · simp [h0]

/-- The end-of-expression check on a fresh calculator: `"3 4 +"` leaves one
element and succeeds, `"3 4"` leaves two and is malformed. -/
theorem end_of_expression_check_witness :
    (∃ s, evalTokens new Runtime.simple (tokenize "3 4 +") = .ok () s ∧
      s.operands.length = 1 ∧ ∃ r s', evaluateExpression new Runtime.simple "3 4 +" = .ok r s') ∧
    (∃ s, evaluateExpression new Runtime.simple "3 4" = .throw .MalformedExpression s ∧
      s.operands = [.finite 4, .finite 3]) := by
  have hev : evalTokens new Runtime.simple (tokenize "3 4 +") = .ok ()
      ((push { ((new.push (.finite 3)).trace (.pushed (.finite 3))).push (.finite 4) |>.trace
        (.pushed (.finite 4)) with operands := [] }
          ((Double.finite 3).add (.finite 4))).trace
        (.computed "+" [.finite 3, .finite 4] ((Double.finite 3).add (.finite 4)))) := by
    rw [show tokenize "3 4 +" = ["3", "4", "+"] by decide,
      evalTokens_cons_ok _ _ _ "3" _ (evalToken_number new _ "3" _ stod_three),
      evalTokens_cons_ok _ _ _ "4" _ (evalToken_number _ _ "4" _ stod_four),
      evalTokens_cons_ok _ _ _ "+" _
        (evalToken_add _ _ (.finite 4) (.finite 3) [] (by simp [new]))]
    rfl
  have hlen : ((push { ((new.push (.finite 3)).trace (.pushed (.finite 3))).push
        (.finite 4) |>.trace (.pushed (.finite 4)) with operands := [] }
          ((Double.finite 3).add (.finite 4))).trace
        (.computed "+" [.finite 3, .finite 4]
          ((Double.finite 3).add (.finite 4)))).operands.length = 1 := by
    simp
  exact ⟨⟨_, hev, hlen,
      ((end_of_expression_check Runtime.simple new).1 "3 4 +" _ hev).1.mpr hlen⟩,
    ((end_of_expression_check Runtime.simple new).2 rfl).1⟩


/-- C6 fails on the code: a batch holding the failing expression `"abc"` ends
with an empty stack whatever the stack was before, so the stack `[7]` is lost;
and in the batch `["1", "abc", "1"]` it is lost although the first and the last
expression succeed. -/
theorem batch_failure_loses_stack :
    (∀ (m : Runtime) (self : RPNCalculator),
      ∃ s, batchEvaluate self m ["abc"] = some s ∧ s.operands = []) ∧
    (∃ s, batchEvaluate (ofStack [.finite 7]) Runtime.simple ["abc"] = some s ∧
      s.operands ≠ (ofStack [.finite 7]).operands) ∧
    (∃ s, batchEvaluate (ofStack [.finite 7]) Runtime.simple ["1", "abc", "1"] = some s ∧
      s.operands = []) := by
  have h1 : ∀ (m : Runtime) (self : RPNCalculator),
      ∃ s, batchEvaluate self m ["abc"] = some s ∧ s.operands = [] := by
    intro m self
    simp [batchEvaluate, batchLoop, batchStep, evaluateExpression_abc, clearStack]
  refine ⟨h1, ?_, ?_⟩
  · obtain ⟨s, hs, ho⟩ := h1 Runtime.simple (ofStack [.finite 7])
    exact ⟨s, hs, by rw [ho]; simp [ofStack]⟩
  · have step (c : RPNCalculator) (i : Nat) :
        ∃ s, batchStep c Runtime.simple i "1" = some s ∧ s.operands = c.operands := by
      obtain ⟨s, hs⟩ := evaluateExpression_one Runtime.simple c.clearStack rfl
      exact batchStep_ok _ c s i "1" _ hs
    have stepabc (c : RPNCalculator) (i : Nat) :
        ∃ s, batchStep c Runtime.simple i "abc" = some s ∧ s.operands = [] :=
      batchStep_throw _ c _ i "abc" _ (evaluateExpression_abc _ _)
    obtain ⟨s1, hs1, -⟩ := step
      { ofStack [.finite 7] with cout := (ofStack [.finite 7]).cout ++
        [.line ("开始批量计算 " ++ toString ["1", "abc", "1"].length ++ " 个表达式:"),
         .line "----------------------------------------"] } 0
    obtain ⟨s2, hs2, ho2⟩ := stepabc s1 1
    obtain ⟨s3, hs3, ho3⟩ := step s2 2
    refine ⟨{ s3 with cout := s3.cout ++ [.line "----------------------------------------"] },
      ?_, by simp [ho3, ho2]⟩
    simp only [batchEvaluate, batchLoop, hs1, hs2, hs3]

/-- C8: on a stack `right :: left :: rest`, `/` throws `DivisionByZero` exactly
when `right` is a zero (`+0.0` or `-0.0`, the values that compare equal to `0`);
the exception leaves the stack `rest` (both operands popped, nothing pushed,
nothing restored); otherwise the stack becomes `left / right :: rest`.
`"1 0 /"` on an empty stack throws `DivisionByZero` and leaves the stack
empty. -/
theorem division_by_zero (m : Runtime) (self : RPNCalculator) :
    (∀ (right left : Double) (rest : List Double), self.operands = right :: left :: rest →
      ((∃ s, evalToken self m "/" = .throw .DivisionByZero s) ↔ right.isZero = true) ∧
      (right.eq (Double.ofInt 0) = right.isZero) ∧
      (right.isZero = true ↔ right = .finite 0 ∨ right = .negZero) ∧
      (right.isZero = true →
        evalToken self m "/" = .throw .DivisionByZero { self with operands := rest }) ∧
      (right.isZero = false →
        ∃ s, evalToken self m "/" = .ok () s ∧ s.operands = left.div right :: rest)) ∧
    (self.operands = [] →
      ∃ s, evaluateExpression self m "1 0 /" = .throw .DivisionByZero s ∧ s.operands = []) := by
  constructor
  · intro right left rest h
    refine ⟨⟨?_, fun hr => ⟨_, evalToken_div_zero self m right left rest h hr⟩⟩,
      Double.eq_zero right, Double.isZero_iff right,
      evalToken_div_zero self m right left rest h, ?_⟩
    · rintro ⟨s, hs⟩
      by_contra hr
      rw [evalToken_div self m right left rest h (by simpa using hr)] at hs
      cases hs
    · intro hr
      exact ⟨_, evalToken_div self m right left rest h hr, by simp⟩
  · intro h0
    have key : evalTokens self m (tokenize "1 0 /") = .throw .DivisionByZero
        { ((self.push (.finite 1)).trace (.pushed (.finite 1))).push (.finite 0) |>.trace
          (.pushed (.finite 0)) with operands := [] } := by
      rw [show tokenize "1 0 /" = ["1", "0", "/"] by decide,
        evalTokens_cons_ok _ _ m "1" _ (evalToken_number self m "1" _ stod_one),
        evalTokens_cons_ok _ _ m "0" _ (evalToken_number _ m "0" _ stod_zero)]
      exact evalTokens_cons_throw _ _ m "/" _ _
        (evalToken_div_zero _ m (.finite 0) (.finite 1) [] (by simp [h0])
          (by simp [Double.isZero]))
    exact ⟨_, evaluateExpression_throw self _ m "1 0 /" .DivisionByZero key, rfl⟩

/-- Division on concrete stacks: `[0, 1, 9]` and `[-0.0, 1, 9]` throw and leave
`[9]`; `[2, 1, 9]` becomes `[0.5, 9]`. -/
theorem division_by_zero_witness :
    evalToken (ofStack [.finite 0, .finite 1, .finite 9]) Runtime.simple "/" =
      .throw .DivisionByZero (ofStack [.finite 9]) ∧
    evalToken (ofStack [.negZero, .finite 1, .finite 9]) Runtime.simple "/" =
      .throw .DivisionByZero (ofStack [.finite 9]) ∧
    (∃ s, evalToken (ofStack [.finite 2, .finite 1, .finite 9]) Runtime.simple "/" = .ok () s ∧
      s.operands = [.finite (1 / 2), .finite 9]) ∧
    (∃ s, evaluateExpression new Runtime.simple "1 0 /" = .throw .DivisionByZero s ∧
      s.operands = []) := by
  refine ⟨((division_by_zero Runtime.simple (ofStack [.finite 0, .finite 1, .finite 9])).1
      (.finite 0) (.finite 1) [.finite 9] rfl).2.2.2.1 (by simp [Double.isZero]),
    ((division_by_zero Runtime.simple (ofStack [.negZero, .finite 1, .finite 9])).1
      .negZero (.finite 1) [.finite 9] rfl).2.2.2.1 rfl, ?_,
    (division_by_zero Runtime.simple new).2 rfl⟩
  have h := ((division_by_zero Runtime.simple (ofStack [.finite 2, .finite 1, .finite 9])).1
      (.finite 2) (.finite 1) [.finite 9] rfl).2.2.2.2 (by simp [Double.isZero])
  rwa [Double.one_div_two] at h

/-- C9: each of `+ - * / ^` applied to a stack of fewer than two elements throws
`InsufficientOperands` and leaves the calculator exactly as it was.  `"5 +"` on
an empty stack throws `InsufficientOperands` with `5` still on the stack. -/
theorem insufficient_operands (m : Runtime) (self : RPNCalculator) :
    (∀ op : String, op ∈ ["+", "-", "*", "/", "^"] → self.operands.length < 2 →
      evalToken self m op = .throw .InsufficientOperands self) ∧
    (self.operands = [] →
      ∃ s, evaluateExpression self m "5 +" = .throw .InsufficientOperands s ∧
        s.operands = [.finite 5]) := by
  refine ⟨fun op hop hlen => evalToken_binary_short self m op hop hlen, fun h0 => ?_⟩
  have key : evalTokens self m (tokenize "5 +") = .throw .InsufficientOperands
      ((self.push (.finite 5)).trace (.pushed (.finite 5))) := by
    rw [show tokenize "5 +" = ["5", "+"] by decide,
      evalTokens_cons_ok _ _ m "5" _ (evalToken_number self m "5" _ stod_five)]
    exact evalTokens_cons_throw _ _ m "+" _ _
      (evalToken_binary_short _ m "+" (by decide) (by simp [h0]))
  exact ⟨_, evaluateExpression_throw self _ m "5 +" .InsufficientOperands key,
    by simp [h0]⟩

/-- Arity check on concrete stacks: `^` on `[5]` and `-` on `[]` change nothing. -/
theorem insufficient_operands_witness :
    evalToken (ofStack [.finite 5]) Runtime.simple "^" =
      .throw .InsufficientOperands (ofStack [.finite 5]) ∧
    evalToken new Runtime.simple "-" = .throw .InsufficientOperands new ∧
    (∃ s, evaluateExpression new Runtime.simple "5 +" = .throw .InsufficientOperands s ∧
      s.operands = [.finite 5]) :=
  ⟨(insufficient_operands Runtime.simple (ofStack [.finite 5])).1 "^" (by decide)
     (by decide),
   (insufficient_operands Runtime.simple new).1 "-" (by decide) (by decide),
   (insufficient_operands Runtime.simple new).2 rfl⟩


theorem no_rational_sqrt_two (r : ℚ) : r * r ≠ 2 := by
  intro h
  have hirr : Irrational (Real.sqrt 2) := irrational_sqrt_two
  have h2 : ((r : ℝ)) * (r : ℝ) = 2 := by exact_mod_cast h
  have habs : Real.sqrt 2 = |(r : ℝ)| := by
    rw [← h2, Real.sqrt_mul_self_eq_abs]
  rw [habs] at hirr
  rcases abs_choice (r : ℝ) with h' | h'
  · rw [h'] at hirr
    exact hirr ⟨r, rfl⟩
  · rw [h'] at hirr
    exact hirr ⟨-r, by push_cast; rfl⟩

/-- C10 as stated fails at the stack `[2]`: `sqrt` pushes the `double` nearest to
the square root of `2`, which is `6369051672525773 / 2 ^ 52`, and its square is
not `2`: not in exact arithmetic, where no rational number squares to `2`, and
not in `double` arithmetic, where the product is the `double` next above `2`. -/
theorem sqrt_two_not_exact :
    (∀ m : Runtime, ∃ s, evalToken (ofStack [.finite 2]) m "sqrt" = .ok () s ∧
      s.operands = [.finite (6369051672525773 * (2 : ℚ) ^ (-52 : Int))]) ∧
    Double.mul (.finite (6369051672525773 * (2 : ℚ) ^ (-52 : Int)))
        (.finite (6369051672525773 * (2 : ℚ) ^ (-52 : Int))) =
      .finite (4503599627370497 * (2 : ℚ) ^ (-51 : Int)) ∧
    Double.finite (4503599627370497 * (2 : ℚ) ^ (-51 : Int)) ≠ Double.finite 2 ∧
    (¬ ∃ (m : Runtime) (s : RPNCalculator) (r : ℚ),
      evalToken (ofStack [.finite 2]) m "sqrt" = .ok () s ∧ s.operands = [.finite r] ∧
        0 ≤ r ∧ r * r = 2) := by
  refine ⟨fun m => ?_, ?_, ?_, ?_⟩
  · have h := evalToken_sqrt (ofStack [.finite 2]) m (.finite 2) [] rfl
      (by rw [Double.lt_zero_finite]; simp)
    rw [Double.sqrt_two] at h
    exact ⟨_, h, by simp⟩
  · have h := Double.sqrt_two_squared
    rwa [Double.sqrt_two] at h
  · intro h
    have h' : (4503599627370497 * (2 : ℚ) ^ (-51 : Int)) = 2 := Double.finite.inj h
    norm_num [zpow_neg] at h'
  · rintro ⟨m, s, r, _, _, _, hrr⟩
    exact no_rational_sqrt_two r hrr

/-- C10, amended: `sqrt` throws `EmptyStack` exactly on the empty stack.  On a
stack `v :: rest` it throws `NegativeSquareRoot` exactly when `v < 0` (a
negative number or negative infinity), the stack then being `rest` (the value
is already popped); otherwise the stack becomes `sqrt(v) :: rest`, of the same
depth and with `rest` untouched.  The value `r = sqrt(v)` is never negative.
For a positive number `v` it is the square root rounded to the nearest `double`:
`r > 0`, and the square root lies within half a unit `u` in the last place of
`r`, `(r - u/2)^2 ≤ v ≤ (r + u/2)^2`; `r * r = v` holds when `v` is the square of
a `double` with a significand of 53 bits, as for `v = 16`, not for every `v`.  A
zero, positive infinity and NaN are their own square roots.  On an empty stack
`"16 sqrt"` returns `4`, and `"-4 sqrt"` throws `NegativeSquareRoot`. -/
theorem sqrt_operator (m : Runtime) (self : RPNCalculator) :
    (((∃ s, evalToken self m "sqrt" = .throw .EmptyStack s) ↔ self.operands = []) ∧
      (self.operands = [] → evalToken self m "sqrt" = .throw .EmptyStack self)) ∧
    (∀ (v : Double) (rest : List Double), self.operands = v :: rest →
      ((∃ s, evalToken self m "sqrt" = .throw .NegativeSquareRoot s) ↔
        v.lt (Double.ofInt 0) = true) ∧
      (v.lt (Double.ofInt 0) = true ↔ v = .inf true ∨ ∃ q : ℚ, v = .finite q ∧ q < 0) ∧
      (v.lt (Double.ofInt 0) = true →
        evalToken self m "sqrt" = .throw .NegativeSquareRoot { self with operands := rest }) ∧
      (v.lt (Double.ofInt 0) = false →
        ∃ s, evalToken self m "sqrt" = .ok () s ∧ s.operands = v.sqrt :: rest ∧
          s.operands.length = self.operands.length ∧
          v.sqrt.lt (Double.ofInt 0) = false)) ∧
    (∀ q : ℚ, 0 < q →
      ∃ r : ℚ, Double.sqrt (.finite q) = .finite r ∧ 0 < r ∧
        (2 : ℚ) ^ (Int.log 4 q - 52) / 2 < r ∧
        (r - (2 : ℚ) ^ (Int.log 4 q - 52) / 2) ^ 2 ≤ q ∧
        q ≤ (r + (2 : ℚ) ^ (Int.log 4 q - 52) / 2) ^ 2) ∧
    (∀ (k : Nat) (j : Int), 2 ^ 52 ≤ k → k < 2 ^ 53 →
      Double.sqrt (.finite (((k : ℚ) * (2 : ℚ) ^ j) * ((k : ℚ) * (2 : ℚ) ^ j))) =
        .finite ((k : ℚ) * (2 : ℚ) ^ j)) ∧
    (Double.sqrt (.finite 0) = .finite 0 ∧ Double.sqrt .negZero = .negZero ∧
      Double.sqrt (.inf false) = .inf false ∧ Double.sqrt .nan = .nan ∧
      Double.sqrt (.finite 16) = .finite 4) ∧
    (self.operands = [] →
      (∃ s, evaluateExpression self m "16 sqrt" = .ok (.finite 4) s ∧
        s.operands = [.finite 4]) ∧
      (∃ s, evaluateExpression self m "-4 sqrt" = .throw .NegativeSquareRoot s ∧
        s.operands = [])) := by
  refine ⟨⟨⟨?_, fun h => ⟨_, evalToken_sqrt_empty self m h⟩⟩, evalToken_sqrt_empty self m⟩,
    ?_, ?_, ?_, ⟨by simp [Double.sqrt], rfl, rfl, rfl, Double.sqrt_sixteen⟩, ?_⟩
  · rintro ⟨s, hs⟩
    rcases hso : self.operands with _ | ⟨v, rest⟩
    · rfl
    · exfalso
      cases hv : v.lt (Double.ofInt 0) with
      | true => rw [evalToken_sqrt_neg self m v rest hso hv] at hs; cases hs
      | false => rw [evalToken_sqrt self m v rest hso hv] at hs; cases hs
  · intro v rest h
    refine ⟨⟨?_, fun hv => ⟨_, evalToken_sqrt_neg self m v rest h hv⟩⟩,
      Double.lt_zero_iff v, evalToken_sqrt_neg self m v rest h, ?_⟩
    · rintro ⟨s, hs⟩
      by_contra hv
      rw [evalToken_sqrt self m v rest h (by simpa using hv)] at hs
      cases hs
    · intro hv
      exact ⟨_, evalToken_sqrt self m v rest h hv, by simp, by simp [h],
        Double.sqrt_not_lt_zero v⟩
  · intro q hq
    obtain ⟨n, hn, hn52, hlow, hhigh⟩ := Double.sqrtPos_spec q hq
    have hu : (0 : ℚ) < (2 : ℚ) ^ (Int.log 4 q - 52) := by positivity
    have hnq : (2 : ℚ) ^ 52 ≤ (n : ℚ) := by exact_mod_cast hn52
    refine ⟨(n : ℚ) * (2 : ℚ) ^ (Int.log 4 q - 52), ?_, ?_, ?_, ?_, ?_⟩
    · rw [Double.sqrt_finite_pos q hq, hn]
    · have : (0 : ℚ) < (n : ℚ) := lt_of_lt_of_le (by positivity) hnq
      positivity
    · have h1 : (1 : ℚ) ≤ (n : ℚ) := le_trans (by norm_num) hnq
      nlinarith
    · have : ((n : ℚ) * (2 : ℚ) ^ (Int.log 4 q - 52) - (2 : ℚ) ^ (Int.log 4 q - 52) / 2) ^ 2
          = ((2 * (n : ℚ) - 1) ^ 2 * ((2 : ℚ) ^ (Int.log 4 q - 52)) ^ 2) / 4 := by ring
      rw [this]
      linarith
    · have : ((n : ℚ) * (2 : ℚ) ^ (Int.log 4 q - 52) + (2 : ℚ) ^ (Int.log 4 q - 52) / 2) ^ 2
          = ((2 * (n : ℚ) + 1) ^ 2 * ((2 : ℚ) ^ (Int.log 4 q - 52)) ^ 2) / 4 := by ring
      rw [this]
      linarith
  · intro k j hk1 hk2
    have hpos : (0 : ℚ) < (k : ℚ) * (2 : ℚ) ^ j := by
      have : (0 : ℚ) < (k : ℚ) := by
        have : 0 < k := lt_of_lt_of_le (by norm_num) hk1
        exact_mod_cast this
      positivity
    rw [Double.sqrt_finite_pos _ (mul_pos hpos hpos)]
    exact Double.sqrtPos_sq k j hk1 hk2
  · intro h0
    refine ⟨evaluateExpression_demo_second m self h0, ?_⟩
    have key : evalTokens self m (tokenize "-4 sqrt") = .throw .NegativeSquareRoot
        { (self.push (.finite (-4))).trace (.pushed (.finite (-4))) with operands := [] } := by
      rw [show tokenize "-4 sqrt" = ["-4", "sqrt"] by decide,
        evalTokens_cons_ok _ _ m "-4" _ (evalToken_number self m "-4" _ stod_minus_four)]
      exact evalTokens_cons_throw _ _ m "sqrt" _ _
        (evalToken_sqrt_neg _ m (.finite (-4)) [] (by simp [h0])
          (by rw [Double.lt_zero_finite]; simp))
    exact ⟨_, evaluateExpression_throw self _ m "-4 sqrt" .NegativeSquareRoot key, rfl⟩

/-- The square root on concrete stacks: `[16, 3]` becomes `[4, 3]`, `[-4, 3]`
throws and leaves `[3]`, and `"16 sqrt"` returns `4`. -/
theorem sqrt_operator_witness :
    (∃ s, evalToken (ofStack [.finite 16, .finite 3]) Runtime.simple "sqrt" = .ok () s ∧
      s.operands = [.finite 4, .finite 3]) ∧
    evalToken (ofStack [.finite (-4), .finite 3]) Runtime.simple "sqrt" =
      .throw .NegativeSquareRoot (ofStack [.finite 3]) ∧
    (∃ r : ℚ, Double.sqrt (.finite 2) = .finite r ∧ 0 < r ∧
      (2 : ℚ) ^ (Int.log 4 (2 : ℚ) - 52) / 2 < r ∧
      (r - (2 : ℚ) ^ (Int.log 4 (2 : ℚ) - 52) / 2) ^ 2 ≤ 2 ∧
      2 ≤ (r + (2 : ℚ) ^ (Int.log 4 (2 : ℚ) - 52) / 2) ^ 2) ∧
    (∃ s, evaluateExpression new Runtime.simple "16 sqrt" = .ok (.finite 4) s ∧
      s.operands = [.finite 4]) := by
  refine ⟨?_,
    ((sqrt_operator Runtime.simple (ofStack [.finite (-4), .finite 3])).2.1 (.finite (-4))
      [.finite 3] rfl).2.2.1 (by rw [Double.lt_zero_finite]; simp),
    (sqrt_operator Runtime.simple new).2.2.1 2 (by norm_num),
    ((sqrt_operator Runtime.simple new).2.2.2.2.2 rfl).1⟩
  obtain ⟨s, hs, ho, -, -⟩ :=
    ((sqrt_operator Runtime.simple (ofStack [.finite 16, .finite 3])).2.1 (.finite 16)
      [.finite 3] rfl).2.2.2 (by rw [Double.lt_zero_finite]; simp)
  rw [Double.sqrt_sixteen] at ho
  exact ⟨s, hs, ho⟩

/-- C12: a token that is neither a numeric literal nor one of the eight operator
strings throws `UnknownToken` carrying the token, in the calculator as it was
when the token was reached, and its message is the fixed text followed by the
token between quotes; no later token is processed, and `evaluateExpression`
ends with that exception.  A numeric literal or an operator never raises
`UnknownToken`.  A numeric literal is what `isNumber` accepts: a token read
whole as a decimal floating literal whose value does not round to an infinity.
`"3abc"` is not a numeric literal, `"SQRT"` and `"Fib"` are not operators, and
`"abc"` throws `UnknownToken "abc"`; neither is `"1e999"`, which overflows, a
numeric literal, while `"1e-400"` is one and raises the exception of
`std::stod`. -/
theorem unknown_token (m : Runtime) (self : RPNCalculator) :
    (∀ t : String, isNumber t = false → isOperator t = false →
      evalToken self m t = .throw (.UnknownToken t) self ∧
      (RpnError.UnknownToken t).what = "错误: 未知的标记 \x27" ++ t ++ "\x27" ∧
      (∀ (p q : List String) (s : RPNCalculator), evalTokens self m p = .ok () s →
        evalTokens self m (p ++ t :: q) = .throw (.UnknownToken t) s) ∧
      (∀ (expression : String) (p q : List String) (s : RPNCalculator),
        tokenize expression = p ++ t :: q → evalTokens self m p = .ok () s →
        evaluateExpression self m expression = .throw (.UnknownToken t) s)) ∧
    (∀ t : String, isNumber t = true ∨ isOperator t = true →
      ∀ (t' : String) (s : RPNCalculator), evalToken self m t ≠ .throw (.UnknownToken t') s) ∧
    (∀ t : String, isNumber t = true ↔
      ∃ d : Decimal, readLiteral t = some d ∧
        |d.value| < (2 : ℚ) ^ (1024 : Int) - (2 : ℚ) ^ (970 : Int)) ∧
    (isNumber "3abc" = false ∧ isOperator "3abc" = false ∧
      isNumber "SQRT" = false ∧ isOperator "SQRT" = false ∧
      isNumber "Fib" = false ∧ isOperator "Fib" = false ∧
      isOperator "sqrt" = true ∧ isOperator "fib" = true) ∧
    (isNumber "1e999" = false ∧ isOperator "1e999" = false ∧
      evaluateExpression self m "1e999" = .throw (.UnknownToken "1e999") self) ∧
    (isNumber "1e-400" = true ∧
      evaluateExpression self m "1e-400" = .throw .OutOfRange self) ∧
    evaluateExpression self m "abc" = .throw (.UnknownToken "abc") self := by
  refine ⟨fun t hn ho => ⟨evalToken_unknown self m t hn ho, rfl, ?_, ?_⟩,
    fun t h t' s => evalToken_known self m t h t' s, isNumber_iff, by decide,
    ⟨isNumber_huge, by decide, ?_⟩, ⟨stod_tiny.1, ?_⟩, evaluateExpression_abc m self⟩
  · intro p q s hp
    rw [evalTokens_append, hp]
    exact evalTokens_cons_throw s s m t q _ (evalToken_unknown s m t hn ho)
  · intro expression p q s htok hp
    apply evaluateExpression_throw
    rw [htok, evalTokens_append, hp]
    exact evalTokens_cons_throw s s m t q _ (evalToken_unknown s m t hn ho)
  · apply evaluateExpression_throw
    rw [show tokenize "1e999" = ["1e999"] by decide]
    exact evalTokens_cons_throw _ _ m _ [] _
      (evalToken_unknown self m "1e999" isNumber_huge (by decide))
  · apply evaluateExpression_throw
    rw [show tokenize "1e-400" = ["1e-400"] by decide]
    exact evalTokens_cons_throw _ _ m _ [] _
      (evalToken_number_throw self m "1e-400" _ stod_tiny.1 stod_tiny.2)

/-- Unknown tokens on a fresh calculator: `"3abc"` alone, and `"SQRT"` after the
literal `5`, which stays on the stack. -/
theorem unknown_token_witness :
    evalToken new Runtime.simple "3abc" = .throw (.UnknownToken "3abc") new ∧
    (RpnError.UnknownToken "3abc").what = "错误: 未知的标记 \x273abc\x27" ∧
    (∃ s, evalTokens new Runtime.simple ["5"] = .ok () s ∧ s.operands = [.finite 5] ∧
      evalTokens new Runtime.simple (["5"] ++ "SQRT" :: ["2"]) = .throw (.UnknownToken "SQRT") s) ∧
    evaluateExpression new Runtime.simple "abc" = .throw (.UnknownToken "abc") new := by
  have h := unknown_token Runtime.simple new
  have hev : evalTokens new Runtime.simple ["5"] = .ok ()
      ((new.push (.finite 5)).trace (.pushed (.finite 5))) := by
    rw [evalTokens_cons_ok _ _ _ "5" _ (evalToken_number new _ "5" _ stod_five)]
    rfl
  exact ⟨(h.1 "3abc" (by decide) (by decide)).1, by decide,
    ⟨_, hev, by simp [new], (h.1 "SQRT" (by decide) (by decide)).2.2.1 ["5"] ["2"] _ hev⟩,
    h.2.2.2.2.2.2⟩

/-- C13 fails on the code: `displayStack` leaves the stack alone, but under the
heading that announces the contents from the top down it prints them from the
bottom up, the reverse of the stack.  With `2` pushed after `1` it prints `1 2`:
the oldest value first and the most recently pushed value last. -/
theorem displayStack_prints_bottom_up :
    (∀ self : RPNCalculator, (displayStack self).operands = self.operands) ∧
    (∀ self : RPNCalculator, self.operands ≠ [] →
      (displayStack self).cout = self.cout ++
        [.line "当前栈内容 (从顶到底): ", .stackContents self.operands.reverse]) ∧
    (displayStack (ofStack [.finite 2, .finite 1])).cout =
      [.line "当前栈内容 (从顶到底): ", .stackContents [.finite 1, .finite 2]] ∧
    (displayStack (ofStack [.finite 2, .finite 1])).cout ≠
      [.line "当前栈内容 (从顶到底): ", .stackContents [.finite 2, .finite 1]] ∧
    (∃ s1 s2, evalToken new Runtime.simple "1" = .ok () s1 ∧
      evalToken s1 Runtime.simple "2" = .ok () s2 ∧ s2.operands = [.finite 2, .finite 1] ∧
      (displayStack s2).cout = s2.cout ++
        [.line "当前栈内容 (从顶到底): ", .stackContents [.finite 1, .finite 2]]) := by
  have hgen : ∀ self : RPNCalculator, self.operands ≠ [] →
      (displayStack self).cout = self.cout ++
        [.line "当前栈内容 (从顶到底): ", .stackContents self.operands.reverse] := by
    intro self h
    simp [displayStack, h]
  refine ⟨?_, hgen, ?_, ?_, ?_⟩
  · intro self
    unfold displayStack
    split_ifs <;> rfl
  · rw [hgen _ (by simp [ofStack])]
    simp [ofStack]
  · rw [hgen _ (by simp [ofStack])]
    simp [ofStack]
  · refine ⟨_, _, evalToken_number new _ "1" _ stod_one,
      evalToken_number _ _ "2" _ stod_two, ?_, ?_⟩
    · simp [new]
    · rw [hgen _ (by simp)]
      simp [new]

/-- C14: if `evaluateExpression` throws, the history is as it was before the
call; if it returns `r`, the history is the earlier history followed by the one
entry made of the text of the expression as given, `" = "` and `to_string(r)`. -/
theorem history_entry (m : Runtime) (self : RPNCalculator) (expression : String) :
    (∀ (e : RpnError) (s : RPNCalculator), evaluateExpression self m expression = .throw e s →
      s.history = self.history) ∧
    (∀ (r : Double) (s : RPNCalculator), evaluateExpression self m expression = .ok r s →
      s.history = self.history ++ [expression ++ " = " ++ m.to_string r] ∧
      s.history.length = self.history.length + 1 ∧
      s.history.take self.history.length = self.history) :=
  ⟨(evaluateExpression_history m expression self).2, fun r s h => by
    have hh := (evaluateExpression_history m expression self).1 r s h
    rw [hh]
    simp⟩

/-- The history on a fresh calculator: `"1"` adds its entry, `"abc"` adds none. -/
theorem history_entry_witness :
    (∃ s, evaluateExpression new Runtime.simple "1" = .ok (.finite 1) s ∧
      s.history = new.history ++ ["1" ++ " = " ++ Runtime.simple.to_string (.finite 1)]) ∧
    (∃ s, evaluateExpression new Runtime.simple "abc" = .throw (.UnknownToken "abc") s ∧
      s.history = new.history) := by
  obtain ⟨s, hs⟩ := evaluateExpression_one Runtime.simple new rfl
  exact ⟨⟨s, hs, ((history_entry Runtime.simple new "1").2 _ s hs).1⟩,
    ⟨new, evaluateExpression_abc Runtime.simple new,
      (history_entry Runtime.simple new "abc").1 _ new
        (evaluateExpression_abc Runtime.simple new)⟩⟩

/-- C15: the tokenizer returns, in order of appearance, exactly the maximal runs
of non-whitespace characters of the input (the non-empty pieces between its
whitespace characters); every token is non-empty and free of whitespace; an
input that is empty or all whitespace has no token; and the tokens separated by
single spaces tokenize to themselves. -/
theorem tokenizer_contract (text : String) :
    tokenize text = wordRuns text ∧
    (∀ t ∈ tokenize text, t.data ≠ [] ∧ ∀ c ∈ t.data, isspace c = false) ∧
    ((∀ c ∈ text.data, isspace c = true) → tokenize text = []) ∧
    tokenize "" = [] ∧
    tokenize (unwords (tokenize text)) = tokenize text := by
  refine ⟨tokenize_eq_wordRuns text, ?_, tokenizeAux_blank text.data, by decide,
    tokenize_unwords _ (tokenize_words text)⟩
  intro t ht
  have h := tokenize_words text t ht
  simp only [isWord, Bool.and_eq_true, decide_eq_true_eq, List.all_eq_true,
    Bool.not_eq_true'] at h
  exact h

/-- The tokenizer on a text with leading, repeated and trailing whitespace. -/
theorem tokenizer_contract_witness :
    tokenize " 5  2\t+ " = ["5", "2", "+"] ∧
    wordRuns " 5  2\t+ " = ["5", "2", "+"] ∧
    (∀ c ∈ (" \t ").data, isspace c = true) ∧ tokenize " \t " = [] ∧
    tokenize (unwords (tokenize " 5  2\t+ ")) = tokenize " 5  2\t+ " :=
  ⟨by decide, by rw [← (tokenizer_contract " 5  2\t+ ").1]; decide, by decide,
    (tokenizer_contract " \t ").2.2.1 (by decide), (tokenizer_contract " 5  2\t+ ").2.2.2.2⟩

/-- C16: if the tokens `p` raise the exception `e` in state `s`, then `p`
followed by any tokens `q` raises the same `e` in the same state `s`: the tokens
after the failing one are not processed and what the earlier tokens did is kept.
In detail, if `p1` succeeds in state `s1` and the token `t` throws `e` there,
leaving `s`, then `p1 ++ t :: rest` throws `e` in `s` for every `rest`.  The same
holds for `evaluateExpression` on expressions with these tokens. -/
theorem fail_fast (m : Runtime) (self : RPNCalculator) :
    (∀ (p q : List String) (e : RpnError) (s : RPNCalculator),
      evalTokens self m p = .throw e s → evalTokens self m (p ++ q) = .throw e s) ∧
    (∀ (p1 rest : List String) (t : String) (e : RpnError) (s1 s : RPNCalculator),
      evalTokens self m p1 = .ok () s1 → evalToken s1 m t = .throw e s →
      evalTokens self m (p1 ++ t :: rest) = .throw e s) ∧
    (∀ (ex1 ex2 : String) (q : List String) (e : RpnError) (s : RPNCalculator),
      evalTokens self m (tokenize ex1) = .throw e s → tokenize ex2 = tokenize ex1 ++ q →
      evaluateExpression self m ex1 = .throw e s ∧ evaluateExpression self m ex2 = .throw e s) := by
  have h1 : ∀ (p q : List String) (e : RpnError) (s : RPNCalculator),
      evalTokens self m p = .throw e s → evalTokens self m (p ++ q) = .throw e s := by
    intro p q e s hp
    rw [evalTokens_append, hp]
  refine ⟨h1, ?_, ?_⟩
  · intro p1 rest t e s1 s hp1 ht
    rw [evalTokens_append, hp1]
    exact evalTokens_cons_throw s1 s m t rest e ht
  · intro ex1 ex2 q e s hp htok
    refine ⟨evaluateExpression_throw self s m ex1 e hp, ?_⟩
    apply evaluateExpression_throw
    rw [htok]
    exact h1 _ q e s hp

/-- Fail-fast on a fresh calculator: `"1 0 / 5"` stops at `/` like `"1 0 /"`, with
both operands popped and `5` never pushed. -/
theorem fail_fast_witness :
    ∃ s, evalTokens new Runtime.simple ["1", "0", "/"] = .throw .DivisionByZero s ∧
      evalTokens new Runtime.simple (["1", "0", "/"] ++ ["5"]) = .throw .DivisionByZero s ∧
      s.operands = [] := by
  have key : evalTokens new Runtime.simple ["1", "0", "/"] = .throw .DivisionByZero
      { ((new.push (.finite 1)).trace (.pushed (.finite 1))).push (.finite 0) |>.trace
        (.pushed (.finite 0)) with operands := [] } := by
    rw [evalTokens_cons_ok _ _ _ "1" _ (evalToken_number new _ "1" _ stod_one),
      evalTokens_cons_ok _ _ _ "0" _ (evalToken_number _ _ "0" _ stod_zero)]
    exact evalTokens_cons_throw _ _ _ "/" _ _
      (evalToken_div_zero _ _ (.finite 0) (.finite 1) [] (by simp [new])
        (by simp [Double.isZero]))
  exact ⟨_, key, (fail_fast Runtime.simple new).1 _ ["5"] _ _ key, rfl⟩

/-- C17: a successful step on a token is one of three stack transitions.  A
numeric literal is pushed on the stack as it was (depth plus one).  Each of
`+ - * / ^` finds a stack `b :: a :: rest` and leaves `r :: rest` (depth minus
one).  Each of `sqrt`, `fib`, `pascal` finds a stack `v :: rest` and leaves
`r :: rest` (depth unchanged).  In every case the elements below the operands,
`rest`, are the same list before and after. -/
theorem token_step_arity (m : Runtime) (self s : RPNCalculator) (t : String)
    (h : evalToken self m t = .ok () s) :
    (isNumber t = true ∨ t ∈ ["+", "-", "*", "/", "^"] ∨ t ∈ ["sqrt", "fib", "pascal"]) ∧
    (isNumber t = true →
      ∃ v, stod t = .ok v ∧ s.operands = v :: self.operands ∧
        s.operands.length = self.operands.length + 1) ∧
    (t ∈ ["+", "-", "*", "/", "^"] →
      ∃ (b a : Double) (rest : List Double) (r : Double),
        self.operands = b :: a :: rest ∧ s.operands = r :: rest ∧
        s.operands.length + 1 = self.operands.length) ∧
    (t ∈ ["sqrt", "fib", "pascal"] →
      ∃ (v : Double) (rest : List Double) (r : Double),
        self.operands = v :: rest ∧ s.operands = r :: rest ∧
        s.operands.length = self.operands.length) := by
  rcases evalToken_ok_shape m self s t h with ⟨hn, v, hv, hs⟩ | ⟨hn, hb, b, a, rest, r, h1, h2⟩ |
    ⟨hn, hu, v, rest, r, h1, h2⟩
  · refine ⟨Or.inl hn, fun _ => ⟨v, hv, hs, by rw [hs]; simp⟩, fun hb => ?_, fun hu => ?_⟩
    · rw [(binary_not_number t hb).1] at hn; cases hn
    · rw [(unary_not_number t hu).1] at hn; cases hn
  · refine ⟨Or.inr (Or.inl hb), fun hn' => ?_, fun _ => ⟨b, a, rest, r, h1, h2, ?_⟩,
      fun hu => ?_⟩
    · rw [hn] at hn'; cases hn'
    · rw [h1, h2]; simp
    · exact absurd hu (binary_not_number t hb).2
  · refine ⟨Or.inr (Or.inr hu), fun hn' => ?_, fun hb => ?_,
      fun _ => ⟨v, rest, r, h1, h2, ?_⟩⟩
    · rw [hn] at hn'; cases hn'
    · exact absurd hb (unary_not_number t hu).2
    · rw [h1, h2]; simp

/-- Steps on the stack `[2, 5, 9]`: `-` leaves `[3, 9]`, the literal `7` leaves
`[7, 2, 5, 9]`. -/
theorem token_step_arity_witness :
    (∃ s, evalToken (ofStack [.finite 2, .finite 5, .finite 9]) Runtime.simple "-" = .ok () s ∧
      ∃ (b a : Double) (rest : List Double) (r : Double),
        (ofStack [.finite 2, .finite 5, .finite 9]).operands = b :: a :: rest ∧
        s.operands = r :: rest ∧
        s.operands.length + 1 = (ofStack [.finite 2, .finite 5, .finite 9]).operands.length) ∧
    (∃ s, evalToken (ofStack [.finite 2, .finite 5, .finite 9]) Runtime.simple "7" = .ok () s ∧
      ∃ v, stod "7" = .ok v ∧
        s.operands = v :: (ofStack [.finite 2, .finite 5, .finite 9]).operands ∧
        s.operands.length = (ofStack [.finite 2, .finite 5, .finite 9]).operands.length + 1) := by
  have h7 : isNumber "7" = true := isNumber_of_stod _ _ stod_seven
  exact ⟨⟨_, evalToken_sub (ofStack [.finite 2, .finite 5, .finite 9]) Runtime.simple
        (.finite 2) (.finite 5) [.finite 9] rfl,
      (token_step_arity Runtime.simple (ofStack [.finite 2, .finite 5, .finite 9]) _ "-"
        (evalToken_sub (ofStack [.finite 2, .finite 5, .finite 9]) Runtime.simple
          (.finite 2) (.finite 5) [.finite 9] rfl)).2.2.1 (by decide)⟩,
    ⟨_, evalToken_number (ofStack [.finite 2, .finite 5, .finite 9]) Runtime.simple "7" _
        stod_seven,
      (token_step_arity Runtime.simple (ofStack [.finite 2, .finite 5, .finite 9]) _ "7"
        (evalToken_number (ofStack [.finite 2, .finite 5, .finite 9]) Runtime.simple "7" _
          stod_seven)).2.1 h7⟩⟩

/-- C18: `evaluateExpression` keeps what is on the stack.  If an expression
returns `r` on an empty stack, then on every stack that is not empty it throws
`MalformedExpression` and leaves that stack with `r` pushed on top.  On a fresh
calculator `"5 2 + 3 *"` returns `21` and leaves it on the stack, so that
`"16 sqrt"` then throws `MalformedExpression` with `sqrt(16) = 4` on top of
`21`: the stack `[4, 21]`. -/
theorem stack_persists (m : Runtime) :
    (∀ (c0 self s0 : RPNCalculator) (expression : String) (r : Double),
      c0.operands = [] → self.operands ≠ [] →
      evaluateExpression c0 m expression = .ok r s0 →
      ∃ s, evaluateExpression self m expression = .throw .MalformedExpression s ∧
        s.operands = r :: self.operands) ∧
    (∃ s1, evaluateExpression new m "5 2 + 3 *" = .ok (.finite 21) s1 ∧
      s1.operands = [.finite 21] ∧
      ∃ s2, evaluateExpression s1 m "16 sqrt" = .throw .MalformedExpression s2 ∧
        s2.operands = [.finite 4, .finite 21]) := by
  refine ⟨fun c0 self s0 expression r h0 hne h =>
    evaluateExpression_on_deeper_stack m c0 self s0 expression r h0 hne h, ?_⟩
  obtain ⟨s1, hs1, ho1⟩ := evaluateExpression_demo_first m new rfl
  obtain ⟨u, hu, -⟩ := evaluateExpression_demo_second m new rfl
  obtain ⟨s2, hs2, ho2⟩ := evaluateExpression_on_deeper_stack m new s1 u "16 sqrt" _
    rfl (by rw [ho1]; simp) hu
  rw [ho1] at ho2
  exact ⟨s1, hs1, ho1, s2, hs2, ho2⟩

/-- The demonstration with the executable runtime: the second call fails and the
stack holds `4` on top of `21`; and `"1"` on the stack `[7]` leaves `[1, 7]`. -/
theorem stack_persists_witness :
    (∃ s1, evaluateExpression new Runtime.simple "5 2 + 3 *" = .ok (.finite 21) s1 ∧
      ∃ s2, evaluateExpression s1 Runtime.simple "16 sqrt" = .throw .MalformedExpression s2 ∧
        s2.operands = [.finite 4, .finite 21]) ∧
    (∃ s, evaluateExpression (ofStack [.finite 7]) Runtime.simple "1" =
        .throw .MalformedExpression s ∧
      s.operands = .finite 1 :: (ofStack [.finite 7]).operands) := by
  obtain ⟨s1, hs1, _, s2, hs2, ho2⟩ := (stack_persists Runtime.simple).2
  obtain ⟨u, hu⟩ := evaluateExpression_one Runtime.simple new rfl
  exact ⟨⟨s1, hs1, s2, hs2, ho2⟩,
    (stack_persists Runtime.simple).1 new (ofStack [.finite 7]) u "1" _ rfl
      (by simp [ofStack]) hu⟩

/-- C19: evaluating an expression with the debug flag set and with it cleared
gives the same return value or the same exception (or no result in both runs),
the same stack and the same history.  The runs differ only in the output:
without the flag nothing is written, with it the earlier output is followed by
the trace. -/
theorem debug_mode_side_channel (m : Runtime) (self : RPNCalculator) (expression : String) :
    (evaluateExpression (self.setDebugMode true) m expression).outcome =
      (evaluateExpression (self.setDebugMode false) m expression).outcome ∧
    (evaluateExpression (self.setDebugMode true) m expression).state.map
        RPNCalculator.operands =
      (evaluateExpression (self.setDebugMode false) m expression).state.map
        RPNCalculator.operands ∧
    (evaluateExpression (self.setDebugMode true) m expression).state.map
        RPNCalculator.history =
      (evaluateExpression (self.setDebugMode false) m expression).state.map
        RPNCalculator.history ∧
    (∀ s, (evaluateExpression (self.setDebugMode false) m expression).state = some s →
      s.cout = self.cout) ∧
    (∀ s, (evaluateExpression (self.setDebugMode true) m expression).state = some s →
      self.cout <+: s.cout) := by
  obtain ⟨h1, h2⟩ := evaluateExpression_congr m expression (self.setDebugMode true)
    (self.setDebugMode false) rfl
  exact ⟨h1, h2,
    evaluateExpression_history_congr m expression (self.setDebugMode true)
      (self.setDebugMode false) rfl rfl,
    fun s hs => (evaluateExpression_cout m expression (self.setDebugMode false) s hs).1 rfl,
    fun s hs => (evaluateExpression_cout m expression (self.setDebugMode true) s hs).2⟩

/-- The debug flag on a fresh calculator and `"1"`: the same result and stack,
a trace of one record with the flag and no output without it. -/
theorem debug_mode_side_channel_witness :
    (evaluateExpression (new.setDebugMode true) Runtime.simple "1").outcome =
      (evaluateExpression (new.setDebugMode false) Runtime.simple "1").outcome ∧
    (evaluateExpression (new.setDebugMode true) Runtime.simple "1").outcome =
      some (.ok (.finite 1)) ∧
    (∃ s, (evaluateExpression (new.setDebugMode false) Runtime.simple "1").state = some s ∧
      s.cout = []) ∧
    (∃ s, (evaluateExpression (new.setDebugMode true) Runtime.simple "1").state = some s ∧
      s.cout = [.pushed (.finite 1)]) := by
  have h := debug_mode_side_channel Runtime.simple new "1"
  have key : ∀ c : RPNCalculator, c.operands = [] →
      evaluateExpression c Runtime.simple "1" = .ok (.finite 1)
        { (c.push (.finite 1)).trace (.pushed (.finite 1)) with
          history := ((c.push (.finite 1)).trace (.pushed (.finite 1))).history ++
            ["1" ++ " = " ++ Runtime.simple.to_string (.finite 1)] } := by
    intro c hc
    have hk : evalTokens c Runtime.simple (tokenize "1") = .ok ()
        ((c.push (.finite 1)).trace (.pushed (.finite 1))) := by
      rw [show tokenize "1" = ["1"] by decide,
        evalTokens_cons_ok _ _ _ "1" _ (evalToken_number _ _ "1" _ stod_one)]
      rfl
    exact evaluateExpression_ok _ _ _ "1" (.finite 1) hk (by simp [hc])
  have kt := key (new.setDebugMode true) rfl
  have kf := key (new.setDebugMode false) rfl
  refine ⟨h.1, by rw [kt]; rfl, ⟨_, by rw [kf]; rfl, ?_⟩, ⟨_, by rw [kt]; rfl, ?_⟩⟩
  · exact h.2.2.2.1 _ (by rw [kf]; rfl)
  · simp [trace, push, setDebugMode, new]

/-- C20: in the token loop `handleBasicOperation` is reached only with one of
`+ - * /`, for which `result` is assigned: whatever an unassigned `result` would
hold, the token step and `evaluateExpression` do the same, so no such value gets
to the stack.  `fibonacci` and `pascalTriangle` are called with `(int)n` only
after the check `n != (int)n || n < 0` has passed; then `(int)n ≥ 0`, so neither
takes its error branch, whatever the argument, and both return a value for every
argument below `INT_MAX`. -/
theorem defensive_branches_unreachable (m : Runtime) (self : RPNCalculator) :
    (∀ t : String, isNumber t = false → isOperator t = true → t ≠ "sqrt" → t ≠ "^" →
      t ≠ "fib" → t ≠ "pascal" →
      evalToken self m t = handleBasicOperation self m t ∧ t ∈ ["+", "-", "*", "/"]) ∧
    (∀ (x : Double) (t : String),
      evalToken self { m with indeterminate := x } t = evalToken self m t) ∧
    (∀ (x : Double) (expression : String),
      evaluateExpression self { m with indeterminate := x } expression =
        evaluateExpression self m expression) ∧
    (∀ n : Double,
      ¬ (n.ne (Double.ofInt (castInt n)) = true ∨ n.lt (Double.ofInt 0) = true) →
      0 ≤ castInt n ∧
      (∀ e, fibonacci (castInt n) ≠ some (.error e)) ∧
      (∀ e, pascalTriangle (castInt n) ≠ some (.error e)) ∧
      (castInt n < INT_MAX →
        (∃ r, fibonacci (castInt n) = some (.ok r)) ∧
        (∃ r, pascalTriangle (castInt n) = some (.ok r)))) ∧
    (∀ z : Int, 0 ≤ z →
      (∀ e, fibonacci z ≠ some (.error e)) ∧ (∀ e, pascalTriangle z ≠ some (.error e))) ∧
    (∀ z : Int, 0 ≤ z → z < INT_MAX →
      (∃ r, fibonacci z = some (.ok r)) ∧ (∃ r, pascalTriangle z = some (.ok r))) := by
  have hnoerr : ∀ z : Int, 0 ≤ z →
      (∀ e, fibonacci z ≠ some (.error e)) ∧ (∀ e, pascalTriangle z ≠ some (.error e)) := by
    intro z hz
    exact ⟨fun e he => absurd (fibonacci_error z e he).2 (not_lt.mpr hz),
      fun e he => absurd (pascalTriangle_error z e he).2 (not_lt.mpr hz)⟩
  have hret : ∀ z : Int, 0 ≤ z → z < INT_MAX →
      (∃ r, fibonacci z = some (.ok r)) ∧ (∃ r, pascalTriangle z = some (.ok r)) := by
    intro z hz hmax
    obtain ⟨k, rfl⟩ := Int.eq_ofNat_of_zero_le hz
    exact ⟨fibonacci_returns k hmax, pascalTriangle_returns k hmax⟩
  refine ⟨fun t hn ho h1 h2 h3 h4 => handleBasicOperation_call m self t hn ho h1 h2 h3 h4,
    fun x t => evalToken_indeterminate m x t self,
    fun x expression => evaluateExpression_indeterminate m x expression self,
    fun n h => ?_, hnoerr, hret⟩
  obtain ⟨k, -, hck, -⟩ := sequence_check_pass n h
  have h0 : 0 ≤ castInt n := by rw [hck]; exact Int.natCast_nonneg k
  exact ⟨h0, (hnoerr _ h0).1, (hnoerr _ h0).2, fun hmax => hret _ h0 hmax⟩

/-- The call sites on concrete inputs: the token `*` goes to
`handleBasicOperation`, and the argument `10` passes the check with
`(int)10 ≥ 0`. -/
theorem defensive_branches_unreachable_witness :
    (evalToken (ofStack [.finite 2, .finite 5]) Runtime.simple "*" =
        handleBasicOperation (ofStack [.finite 2, .finite 5]) Runtime.simple "*" ∧
      "*" ∈ ["+", "-", "*", "/"]) ∧
    (0 ≤ castInt (.finite ((10 : Nat) : ℚ)) ∧
      (∀ e, fibonacci (castInt (.finite ((10 : Nat) : ℚ))) ≠ some (.error e)) ∧
      (∀ e, pascalTriangle (castInt (.finite ((10 : Nat) : ℚ))) ≠ some (.error e)) ∧
      (castInt (.finite ((10 : Nat) : ℚ)) < INT_MAX →
        (∃ r, fibonacci (castInt (.finite ((10 : Nat) : ℚ))) = some (.ok r)) ∧
        (∃ r, pascalTriangle (castInt (.finite ((10 : Nat) : ℚ))) = some (.ok r)))) ∧
    castInt (.finite ((10 : Nat) : ℚ)) < INT_MAX := by
  have h := defensive_branches_unreachable Runtime.simple (ofStack [.finite 2, .finite 5])
  refine ⟨h.1 "*" (by decide) (by decide) (by decide) (by decide) (by decide) (by decide),
    h.2.2.2.1 _ (sequence_check_natCast 10 (by decide)), ?_⟩
  rw [castInt_natCast 10 (by decide)]
  decide

end RPNCalculator
